import Mathlib

/-!
Verification of the autodi dependency-graph layer

A shallow embedding, in Lean 4, of the graph layer of the `autodi`
compile-time dependency-injection code generator, together with theorems
settling the frozen claims about it.

Modelling conventions (used consistently below):

* A Go `string` is modelled as `Str := List Char`; the helper functions in
  the `GoStr` section mirror the `strings` package functions the source uses
  (`HasPrefix`, `Contains`, `Index`, `LastIndex`, `Split`, `Join`,
  `TrimPrefix`, `EqualFold` restricted to simple per-rune folding).
* A Go `map[string]V` is modelled as an association list
  `List (Str × V)` with first-match lookup and in-place overwrite on
  insert.  Where the source iterates a map (iteration order is arbitrary
  in Go), the model iterates in insertion order — a deterministic
  refinement of the source's behaviour.
* `go/types` is modelled by the inductive `GoTy`: interface satisfaction
  (`types.Implements`) is method-set inclusion, the method set of a value
  type and of a pointer type are recorded separately on named types, and
  `Underlying().(*types.Interface)` / `(*types.Slice)` are the partial
  projections `underlyingIface` / `sliceElemTy`.
* Unbounded recursion/iteration in the source (the DFS in
  `VerifyAcyclic`, the recursive `visit` of the topological sort, the
  recursive `expand` of entry expansion) is embedded with an explicit
  fuel parameter; exhausted fuel is a distinguished result that the
  theorems never identify with a source-level outcome.
-/

namespace Autodi

/-- A Go string: a sequence of characters. -/
abbrev Str : Type := List Char

/-- `strings.HasPrefix s pre`. -/
def goHasPre (s pre : Str) : Bool := pre.isPrefixOf s

/-- `strings.HasSuffix s suf`. -/
def goHasSuf (s suf : Str) : Bool := suf.isSuffixOf s

/-- `strings.Contains s sub`: `sub` occurs as a contiguous substring of `s`. -/
def goContains (s sub : Str) : Bool :=
  if sub.isPrefixOf s then true
  else match s with
    | [] => false
    | _ :: rest => goContains rest sub

/-- `strings.TrimPrefix s pre`. -/
def goTrimPre (s pre : Str) : Str :=
  if pre.isPrefixOf s then s.drop pre.length else s

/-- `strings.Index s (single character)`, as an `Option` instead of `-1`. -/
def goIndexChar (s : Str) (c : Char) : Option Nat := s.findIdx? (· == c)

/-- Split `s` around the last occurrence of `c`:
`some (before, after)` when `c` occurs, `none` otherwise.  This packages the
`strings.LastIndex` + slicing pattern of the source. -/
def splitAtLastChar : Str → Char → Option (Str × Str)
  | [], _ => none
  | a :: rest, c =>
    match splitAtLastChar rest c with
    | some (pre, post) => some (a :: pre, post)
    | none => if a == c then some ([], rest) else none

/-- `strings.Split s (single-character separator)`: always returns at least
one (possibly empty) part. -/
def goSplitChar (c : Char) : Str → List Str
  | [] => [[]]
  | a :: rest =>
    let r := goSplitChar c rest
    if a == c then [] :: r
    else
      match r with
      | h :: t => (a :: h) :: t
      | [] => [[a]]

/-- `strings.Join parts sep`. -/
def goJoin : List Str → Str → Str
  | [], _ => []
  | [x], _ => x
  | x :: xs, sep => x ++ sep ++ goJoin xs sep

/-- `strings.EqualFold`, restricted to per-character simple folding
(adequate for the ASCII identifiers the tool compares). -/
def goEqualFold (a b : Str) : Bool :=
  a.map Char.toLower == b.map Char.toLower

/-- Lexicographic order on strings by code point, `a ≤ b`; models the order
underlying `sort.Strings` and `PkgPath <` comparisons. -/
def strLe : Str → Str → Bool
  | [], _ => true
  | _ :: _, [] => false
  | a :: as, b :: bs =>
    if a.toNat < b.toNat then true
    else if b.toNat < a.toNat then false
    else strLe as bs

/-- Insertion step of the sort used to model `sort.Slice`/`sort.Strings`. -/
def insertBy {α : Type} (le : α → α → Bool) (x : α) : List α → List α
  | [] => [x]
  | y :: ys => if le x y then x :: y :: ys else y :: insertBy le x ys

/-- Insertion sort by a boolean relation; a deterministic model of Go's
(unstable) `sort.Slice` — any claim proved below about its output depends
only on sortedness and membership, which every `sort.Slice` outcome shares. -/
def sortBy {α : Type} (le : α → α → Bool) : List α → List α
  | [] => []
  | x :: xs => insertBy le x (sortBy le xs)

/-- `sort.Strings`. -/
def sortStrs (l : List Str) : List Str := sortBy strLe l

/-- First `some` produced by `f` along the list (models Go loops that
`return` on the first hit). -/
def firstSome {α β : Type} (f : α → Option β) : List α → Option β
  | [] => none
  | x :: xs => match f x with | some y => some y | none => firstSome f xs

/-- Append `t` when absent: models insertion into a Go `map[string]bool`
set, keeping (deterministic) insertion order for later iteration. -/
def addUniq (l : List Str) (t : Str) : List Str :=
  if l.contains t then l else l ++ [t]

/-- Association-list lookup: `v, ok := m[k]`. -/
def lookupA {α : Type} (m : List (Str × α)) (k : Str) : Option α :=
  (m.find? (fun e => e.1 == k)).map (·.2)

/-- Association-list insert: `m[k] = v` (overwrite in place, else append). -/
def insertA {α : Type} : List (Str × α) → Str → α → List (Str × α)
  | [], k, v => [(k, v)]
  | e :: rest, k, v => if e.1 == k then (k, v) :: rest else e :: insertA rest k v

/-- `_, ok := m[k]`. -/
def containsKeyA {α : Type} (m : List (Str × α)) (k : Str) : Bool :=
  m.any (fun e => e.1 == k)

/-! ## The `go/types` model -/

/-- A semantic Go type, as far as the graph layer inspects one.
`named` carries the method set of the value type and of the pointer type;
`namedIface` is a defined interface type; `iface` a bare interface term. -/
inductive GoTy : Type where
  | named (name : Str) (valMs ptrMs : List Str)
  | namedIface (name : Str) (ms : List Str)
  | iface (ms : List Str)
  | ptr (t : GoTy)
  | slice (t : GoTy)
deriving DecidableEq

/-- The method set of a type (what `types.Implements` consults):
value methods for a value type, pointer methods for a pointer to a named
type, the interface's own methods for interface types. -/
def methodSet : GoTy → List Str
  | .named _ vm _ => vm
  | .namedIface _ ms => ms
  | .iface ms => ms
  | .ptr (.named _ _ pm) => pm
  | .ptr _ => []
  | .slice _ => []

/-- `types.Implements v (interface with methods ms)`: method-set inclusion. -/
def implementsGo (v : GoTy) (ms : List Str) : Bool :=
  ms.all (fun m => (methodSet v).contains m)

/-- `t.Underlying().(*types.Interface)`: the method set when the underlying
type is an interface. -/
def underlyingIface : GoTy → Option (List Str)
  | .namedIface _ ms => some ms
  | .iface ms => some ms
  | _ => none

/-- `t.Underlying().(*types.Slice)` followed by `.Elem()`. -/
def sliceElemTy : GoTy → Option GoTy
  | .slice t => some t
  | _ => none

/-- `isPointer` from the source: a `*types.Pointer` type assertion. -/
def isPointerTy : GoTy → Bool
  | .ptr _ => true
  | _ => false

end Autodi

namespace Autodi

/-! ## Data model (scanner.go, convention.go, graph part_000) -/

/-- A parsed `//autodi:` directive (`Annotation` in the source; renamed). -/
structure Annot : Type where
  kind : Str
  value : Str
deriving DecidableEq

/-- `TypeRef`: one type occurrence in a provider signature. -/
structure TypeRef : Type where
  ty : GoTy
  typeStr : Str
  pkgPath : Str := []
  isIface : Bool := false
  optional : Bool := false
deriving DecidableEq

/-- `Provider`: a discovered constructor function. -/
structure Provider : Type where
  funcName : Str
  pkgPath : Str
  pkgName : Str := []
  params : List TypeRef := []
  returns : List TypeRef := []
  hasError : Bool := false
  isInvoke : Bool := false
  annots : List Annot := []
  position : Str := []
  groups : List Str := []
deriving DecidableEq

/-- `GroupConfig`. -/
structure GroupCfg : Type where
  ifaceName : Str
  paths : List Str
deriving DecidableEq

/-- `Config`, restricted to the fields the graph layer reads
(`Module`, `Bindings`, `Groups`). -/
structure Config : Type where
  module : Str
  bindings : List (Str × List Str) := []
  groups : List (Str × GroupCfg) := []
deriving DecidableEq

/-- `Graph`.  `ifaceTypes` maps a type string to the method set of the
interface it denotes (the model of `map[string]*types.Interface`). -/
structure Graph : Type where
  providers : List Provider
  providerMap : List (Str × Provider)
  bindings : List (Str × Str)
  groups : List (Str × List Provider)
  typeToField : List (Str × Str)
  cfg : Config
  shortToFull : List (Str × Str)
  pkgNameToPath : List (Str × Str)
  ifaceTypes : List (Str × List Str)
deriving DecidableEq

/-- Build-phase errors (`fmt.Errorf` values, structurally). -/
inductive BuildErr : Type where
  /-- "类型 %s 有多个 provider": a duplicate-provider conflict carrying the
  type string and both providers (each rendered with package, function and
  position in the source message). -/
  | dupProvider (typeStr : Str) (first second : Provider)
  /-- "接口 %s 有重复绑定配置": a duplicate explicit binding. -/
  | dupBinding (ifaceStr : Str)
deriving DecidableEq

/-- Annotation kind constants. -/
def annotBind : Str := "bind".data
def annotIgnore : Str := "ignore".data
def annotInvoke : Str := "invoke".data
def annotOptional : Str := "optional".data

/-- `GetAnnotationValues`. -/
def GetAnnotationValues (annots : List Annot) (kind : Str) : List Str :=
  (annots.filter (fun a => a.kind == kind && a.value != [])).map (·.value)

/-- `HasAnnotation` (renamed). -/
def hasAnnot (annots : List Annot) (kind : Str) : Bool :=
  annots.any (fun a => a.kind == kind)

/-- `Provider.RelPath`. -/
def relPath (p : Provider) (module : Str) : Str :=
  goTrimPre p.pkgPath (module ++ ['/'])

/-- Leading `v` followed by a decimal digit (the versioned-path test). -/
def isVersionSeg (s : Str) : Bool :=
  match s with
  | c0 :: c1 :: _ => c0 == 'v' && ('0'.toNat ≤ c1.toNat && c1.toNat ≤ '9'.toNat)
  | _ => false

/-- `toShortTypeName`: `*full/pkg/path.Name` → `*path.Name`, with the
versioned-path (`v2`, `v9`) adjustment. -/
def toShortTypeName (typeStr : Str) : Str :=
  let pr : Str := if goHasPre typeStr ['*'] then ['*'] else []
  let s : Str := if goHasPre typeStr ['*'] then typeStr.drop 1 else typeStr
  match splitAtLastChar s '.' with
  | none => typeStr
  | some (pkgPath, typeName) =>
    let parts := goSplitChar '/' pkgPath
    let pkgName := parts.getLastD []
    let pkgName :=
      if isVersionSeg pkgName && parts.length ≥ 2 then
        let candidate := (parts.dropLast).getLastD []
        match splitAtLastChar candidate '-' with
        | some (_, post) => post
        | none => candidate
      else pkgName
    pr ++ pkgName ++ '.' :: typeName

/-- `exportName`. -/
def exportName (s : Str) : Str :=
  match s with
  | [] => []
  | c :: rest => Char.toUpper c :: rest

/-- `FieldName` (scanner.go): Container field name for a type string. -/
def FieldName (typeStr : Str) : Str :=
  let s := goTrimPre typeStr ['*']
  match splitAtLastChar s '.' with
  | none => exportName s
  | some (pkgPath, typeName) =>
    let pkg :=
      match splitAtLastChar pkgPath '/' with
      | some (_, post) => post
      | none => pkgPath
    let pkg :=
      if isVersionSeg pkg then
        let parts := goSplitChar '/' pkgPath
        if parts.length ≥ 2 then
          let p2 := (parts.dropLast).getLastD []
          match splitAtLastChar p2 '-' with
          | some (_, post) => post
          | none => p2
        else pkg
      else pkg
    if goEqualFold pkg typeName then exportName typeName
    else if typeName.length > pkg.length && goEqualFold (typeName.take pkg.length) pkg then
      exportName typeName
    else exportName pkg ++ exportName typeName

/-- `GroupFieldName`: `admin_controllers` → `AdminControllers`. -/
def GroupFieldName (name : Str) : Str :=
  ((goSplitChar '_' name).map exportName).foldl (· ++ ·) []

end Autodi

namespace Autodi

/-! ## Graph construction (`BuildGraph` and helpers, part_000 lines 27-312) -/

/-- The group-path heuristic inside `resolveConfigType`: walk configured
group paths; the first segment equal to `pkgName` determines the package. -/
def groupPathPkg (module : Str) (pkgName : Str) (gpath : Str) : Option Str :=
  let parts := goSplitChar '/' gpath
  match parts.findIdx? (· == pkgName) with
  | some i => some (module ++ '/' :: goJoin (parts.take (i + 1)) ['/'])
  | none => none

/-- First group path whose segments name `pkgName` (config iteration order). -/
def findGroupPkg (cfg : Config) (pkgName : Str) : Option Str :=
  firstSome (fun e => firstSome (groupPathPkg cfg.module pkgName) e.2.paths) cfg.groups

/-- `resolveConfigType`: promote a short config type name to canonical form.
Returns the resolved name together with the (possibly cache-updated) graph,
since the heuristic branch caches into `pkgNameToPath`. -/
def resolveConfigType (g : Graph) (shortName : Str) : Str × Graph :=
  if goContains shortName ['/'] then (shortName, g)
  else
    match lookupA g.shortToFull shortName with
    | some full => (full, g)
    | none =>
      let pr : Str := if goHasPre shortName ['*'] then ['*'] else []
      let s : Str := if goHasPre shortName ['*'] then shortName.drop 1 else shortName
      match goIndexChar s '.' with
      | some dotIdx =>
        if dotIdx > 0 then
          let pkgName := s.take dotIdx
          let typeName := s.drop (dotIdx + 1)
          match lookupA g.pkgNameToPath pkgName with
          | some pkgPath => (pr ++ pkgPath ++ '.' :: typeName, g)
          | none =>
            match findGroupPkg g.cfg pkgName with
            | some fullPkg =>
              (pr ++ fullPkg ++ '.' :: typeName,
               { g with pkgNameToPath := insertA g.pkgNameToPath pkgName fullPkg })
            | none => (shortName, g)
        else (shortName, g)
      | none => (shortName, g)

/-- Index one `TypeRef` into `shortToFull` / `pkgNameToPath`
(the loop body of `buildTypeIndex`). -/
def indexTypeRef (g : Graph) (r : TypeRef) : Graph :=
  let short := toShortTypeName r.typeStr
  let g :=
    if short == r.typeStr then g
    else { g with shortToFull := insertA g.shortToFull short r.typeStr }
  if r.pkgPath == [] then g
  else
    let parts := goSplitChar '/' r.pkgPath
    { g with pkgNameToPath := insertA g.pkgNameToPath (parts.getLastD []) r.pkgPath }

/-- `buildTypeIndex`. -/
def buildTypeIndex (g : Graph) (provs : List Provider) : Graph :=
  provs.foldl
    (fun g p =>
      let g := { g with pkgNameToPath := insertA g.pkgNameToPath p.pkgName p.pkgPath }
      let g := p.returns.foldl indexTypeRef g
      p.params.foldl indexTypeRef g)
    g

/-- Phase 1 (group classification): append, for each configured group and
each of its matching path prefixes, the group name to the provider. -/
def assignGroups (cfg : Config) (p : Provider) : Provider :=
  let rel := relPath p cfg.module
  let gs := cfg.groups.foldl
    (fun acc e =>
      e.2.paths.foldl (fun acc2 gpath => if goHasPre rel gpath then acc2 ++ [e.1] else acc2) acc)
    []
  { p with groups := p.groups ++ gs }

/-- State of phase 2 (singleton registration). -/
structure Phase2St : Type where
  pm : List (Str × Provider)
  ttf : List (Str × Str)
  errs : List BuildErr
deriving DecidableEq

/-- Phase 2 per-return body: register one return of the provider,
reporting a conflict when the key is taken; grouped providers are skipped.
(The source's dead no-op loop over `p.Groups` inside the grouped branch is
elided.) -/
def registerRet (p : Provider) (st : Phase2St) (ret : TypeRef) : Phase2St :=
  if p.groups.length > 0 then st
  else
    match lookupA st.pm ret.typeStr with
    | some existing => { st with errs := st.errs ++ [.dupProvider ret.typeStr existing p] }
    | none =>
      { st with
        pm := insertA st.pm ret.typeStr p
        ttf := insertA st.ttf ret.typeStr (FieldName ret.typeStr) }

/-- Phase 2 loop body: register each return type of a non-invoke
provider. -/
def registerProvider (st : Phase2St) (p : Provider) : Phase2St :=
  if p.isInvoke then st
  else p.returns.foldl (registerRet p) st

/-- The "add grouped providers" loop: `g.Groups[name] = append(..., p)`. -/
def collectGroups (provs : List Provider) : List (Str × List Provider) :=
  provs.foldl
    (fun gm p =>
      p.groups.foldl (fun gm gname => insertA gm gname ((lookupA gm gname).getD [] ++ [p])) gm)
    []

/-- `resolveBindings`, step 1: explicit config bindings.  Short names go
through `resolveConfigType`; a duplicate interface key is an error; when the
resolved concrete name has a provider, the interface key is also registered
in the provider map and `typeToField`. -/
def bindOneIface (concreteFull : Str) (acc : Graph × List BuildErr) (ifaceShort : Str) :
    Graph × List BuildErr :=
  let r := resolveConfigType acc.1 ifaceShort
  let ifaceFull := r.1
  let g := r.2
  if containsKeyA g.bindings ifaceFull then (g, acc.2 ++ [.dupBinding ifaceFull])
  else
    let g := { g with bindings := insertA g.bindings ifaceFull concreteFull }
    match lookupA g.providerMap concreteFull with
    | some provider =>
      ({ g with
          providerMap := insertA g.providerMap ifaceFull provider
          typeToField := insertA g.typeToField ifaceFull (FieldName ifaceFull) },
       acc.2)
    | none => (g, acc.2)

def bindConfigEntry (acc : Graph × List BuildErr) (e : Str × List Str) :
    Graph × List BuildErr :=
  let r := resolveConfigType acc.1 e.1
  e.2.foldl (bindOneIface r.1) (r.2, acc.2)

def resolveBindingsStep1 (g : Graph) : Graph × List BuildErr :=
  g.cfg.bindings.foldl bindConfigEntry (g, [])

/-- `resolveBindings`, step 2: `bind` annotations.  The annotation value is
used verbatim as the bindings key; the provider's first return type becomes
the concrete type and the provider is registered under the key. -/
def bindAnnotTarget (p : Provider) (g : Graph) (target : Str) : Graph :=
  if containsKeyA g.bindings target then g
  else
    match p.returns with
    | [] => g
    | r0 :: _ =>
      { g with
        bindings := insertA g.bindings target r0.typeStr
        providerMap := insertA g.providerMap target p }

def resolveBindingsStep2 (g : Graph) (provs : List Provider) : Graph :=
  provs.foldl
    (fun g p => (GetAnnotationValues p.annots annotBind).foldl (bindAnnotTarget p) g) g

/-- The needed-interfaces collection of `autoDetectBindings`: parameter
types that are interfaces, not yet bound and not directly provided. -/
def collectNeededIfaces (g : Graph) (provs : List Provider) : List (Str × GoTy) :=
  provs.foldl
    (fun acc p =>
      p.params.foldl
        (fun acc param =>
          if param.isIface then
            if containsKeyA g.bindings param.typeStr then acc
            else if containsKeyA g.providerMap param.typeStr then acc
            else insertA acc param.typeStr param.ty
          else acc)
        acc)
    []

/-- Candidate scan of `autoDetectBindings`: one entry per provider-map key
whose provider has a return accepted by the source's test
`Implements(ret, I) || (isPointer(ret) && Implements(ret, I))` — the second
disjunct repeats `ret` exactly as the source writes it (it does not build
`*ret`). -/
def autoCandTest (ms : List Str) (ret : TypeRef) : Bool :=
  implementsGo ret.ty ms || (isPointerTy ret.ty && implementsGo ret.ty ms)

def autoCandidates (pm : List (Str × Provider)) (ms : List Str) : List (Str × Provider) :=
  pm.foldl
    (fun acc e => if e.2.returns.any (autoCandTest ms) then acc ++ [e] else acc)
    []

/-- `autoDetectBindings`: bind each needed interface with exactly one
candidate to that candidate's provider-map key. -/
def autoBindOne (g : Graph) (e : Str × GoTy) : Graph :=
  match underlyingIface e.2 with
  | none => g
  | some ms =>
    match autoCandidates g.providerMap ms with
    | [c] =>
      { g with
        bindings := insertA g.bindings e.1 c.1
        providerMap := insertA g.providerMap e.1 c.2 }
    | _ => g

def autoDetectBindings (g : Graph) (provs : List Provider) : Graph :=
  (collectNeededIfaces g provs).foldl autoBindOne g

/-- `resolveBindings`: the three binding sub-steps in order. -/
def resolveBindings (g : Graph) (provs : List Provider) : Graph × List BuildErr :=
  let r1 := resolveBindingsStep1 g
  let g2 := resolveBindingsStep2 r1.1 provs
  let g3 := autoDetectBindings g2 provs
  (g3, r1.2)

/-- The front of `BuildGraph`: type index, group classification (phase 1)
and singleton registration (phase 2), before binding resolution.  Returns
the graph state between phase 2 and phase 3, with the phase-2 errors. -/
def graphAfterPhase2 (provs : List Provider) (cfg : Config) (pkgIndex : List (Str × Str))
    (ifts : List (Str × List Str)) : Graph × List BuildErr :=
  let g0 : Graph :=
    { providers := provs, providerMap := [], bindings := [], groups := [], typeToField := []
      cfg := cfg, shortToFull := []
      pkgNameToPath := pkgIndex.foldl (fun m e => insertA m e.1 e.2) []
      ifaceTypes := ifts }
  let g1 := buildTypeIndex g0 provs
  let provs1 := provs.map (assignGroups cfg)
  let st2 := provs1.foldl registerProvider ⟨[], [], []⟩
  ({ g1 with providers := provs1, providerMap := st2.pm, typeToField := st2.ttf
             groups := collectGroups provs1 },
   st2.errs)

/-- `BuildGraph`: phases 1-2, grouped-provider collection, binding
resolution; fails iff any error was accumulated. -/
def buildGraph (provs : List Provider) (cfg : Config) (pkgIndex : List (Str × Str))
    (ifts : List (Str × List Str)) : Except (List BuildErr) Graph :=
  let r0 := graphAfterPhase2 provs cfg pkgIndex ifts
  let r := resolveBindings r0.1 r0.1.providers
  let errs := r0.2 ++ r.2
  if errs.isEmpty then .ok r.1 else .error errs

/-- `resolveType`: follow a binding to the concrete type. -/
def resolveType (g : Graph) (t : Str) : Str := (lookupA g.bindings t).getD t

end Autodi

namespace Autodi

/-! ## Graph algorithms (part_000 lines 371-898) -/

/-- Provider identity used by the sort's dedup: `pkg_path + func_name`. -/
def provEq (a b : Provider) : Bool :=
  a.pkgPath == b.pkgPath && a.funcName == b.funcName

/-- `isProviderInList`. -/
def isProviderInList (p : Provider) (l : List Provider) : Bool :=
  l.any (fun existing => existing.pkgPath == p.pkgPath && existing.funcName == p.funcName)

/-- A DFS frame of `VerifyAcyclic`: current type and root-to-current trail. -/
structure VFrame : Type where
  typeStr : Str
  trail : List Str
deriving DecidableEq

/-- A reported cycle (the `fmt.Errorf` of `VerifyAcyclic`, structurally):
the `" → "`-joined chain line and the providers listed below it. -/
structure CycleErr : Type where
  chainStr : Str
  involved : List Provider
deriving DecidableEq

/-- Deduplicate keeping first occurrences (the `seen` map pattern). -/
def dedupStrs (l : List Str) : List Str :=
  l.foldl (fun acc t => if acc.contains t then acc else acc ++ [t]) []

/-- `formatCycleProviders`: one entry per distinct type string on the cycle
that has a provider (each rendered as `pkg.func (pos)` in the source). -/
def formatCycleProviders (g : Graph) (cycle : List Str) : List Provider :=
  (dedupStrs cycle).foldl
    (fun acc t => match lookupA g.providerMap t with | some p => acc ++ [p] | none => acc) []

/-- The separator of the cycle chain line. -/
def arrowSep : Str := " → ".data

/-- Build the cycle error for a trail suffix and rediscovered target. -/
def mkCycleErr (g : Graph) (cycle : List Str) : CycleErr :=
  ⟨goJoin cycle arrowSep, formatCycleProviders g cycle⟩

/-- Processing of one popped frame in `VerifyAcyclic` (the loop body after
the visited check, given the frame's provider was found): for each
parameter, resolve through bindings; a target already on the trail yields a
cycle error `trail[i..] ++ [target]`; a target with a provider and not yet
visited is pushed with the extended trail.  Returns the new errors, the
frames pushed (in `append` order) and the updated visited set. -/
def frameParamStep (g : Graph) (fr : VFrame) (visited : List Str)
    (acc : List CycleErr × List VFrame) (param : TypeRef) : List CycleErr × List VFrame :=
  let depType := resolveType g param.typeStr
  let errs :=
    match fr.trail.findIdx? (· == depType) with
    | some i => acc.1 ++ [mkCycleErr g (fr.trail.drop i ++ [depType])]
    | none => acc.1
  let pushes :=
    if containsKeyA g.providerMap depType && !visited.contains depType then
      acc.2 ++ [VFrame.mk depType (fr.trail ++ [depType])]
    else acc.2
  (errs, pushes)

def frameStep (g : Graph) (provider : Provider) (fr : VFrame) (visited : List Str) :
    List CycleErr × List VFrame × List Str :=
  let r := provider.params.foldl (frameParamStep g fr visited) ([], [])
  (r.1, r.2, fr.typeStr :: visited)

/-- The stack loop of `VerifyAcyclic` (stack top at the head; Go appends at
the slice end and pops from the end, hence pushed frames are reversed onto
the head).  `none` models fuel exhaustion only. -/
def runStack (g : Graph) : Nat → List VFrame → List Str → List CycleErr →
    Option (List Str × List CycleErr)
  | 0, _, _, _ => none
  | _ + 1, [], visited, errs => some (visited, errs)
  | fuel + 1, fr :: rest, visited, errs =>
    if visited.contains fr.typeStr then runStack g fuel rest visited errs
    else
      match lookupA g.providerMap fr.typeStr with
      | none => runStack g fuel rest visited errs
      | some provider =>
        let r := frameStep g provider fr visited
        runStack g fuel (r.2.1.reverse ++ rest) r.2.2 (errs ++ r.1)

/-- `VerifyAcyclic`: DFS with trail over the provider-map keys. -/
def verifyAcyclic (g : Graph) (fuel : Nat) : Option (List CycleErr) :=
  (g.providerMap.foldl
    (fun acc e =>
      match acc with
      | none => none
      | some st =>
        if st.1.contains e.1 then some st
        else runStack g fuel [⟨e.1, [e.1]⟩] st.1 st.2)
    (some ([], []))).map (·.2)

/-- State of the topological sort: globally finished keys, on-path keys,
and the emitted order. -/
structure SortSt : Type where
  visited : List Str
  visiting : List Str
  order : List Provider
deriving DecidableEq

/-- Extra-edge lookup (`extraEdges[ret]`, empty when absent; the source's
`nil` map is modelled as the empty list). -/
def lookupExtra (extra : List (Str × List Str)) (t : Str) : List Str :=
  (lookupA extra t).getD []

/-- The recursive `visit` of `TopologicalSortWithExtraEdges`.  Fuel bounds
the recursion depth; `.error` carries either the source's
"unexpected cycle at" message or the distinguished fuel marker. -/
def visitTS (g : Graph) (extra : List (Str × List Str)) :
    Nat → Str → SortSt → Except Str SortSt
  | 0, _, _ => .error "out of fuel".data
  | fuel + 1, t, st =>
    let r := resolveType g t
    if st.visited.contains r then .ok st
    else if st.visiting.contains r then .error ("unexpected cycle at ".data ++ r)
    else
      let st1 : SortSt := { st with visiting := r :: st.visiting }
      match lookupA g.providerMap r with
      | none => .ok { st1 with visited := r :: st1.visited }
      | some provider =>
        match provider.params.foldlM
            (fun s param => visitTS g extra fuel (resolveType g param.typeStr) s) st1 with
        | .error e => .error e
        | .ok st2 =>
          match provider.returns.foldlM
              (fun s ret => (lookupExtra extra ret.typeStr).foldlM
                (fun s2 e => visitTS g extra fuel e s2) s) st2 with
          | .error e => .error e
          | .ok st3 =>
            let st4 : SortSt :=
              { st3 with visited := r :: st3.visited, visiting := st3.visiting.erase r }
            let st5 : SortSt :=
              if isProviderInList provider st4.order then st4
              else { st4 with order := st4.order ++ [provider] }
            .ok { st5 with
                  visited := (provider.returns.map (·.typeStr)).reverse ++ st5.visited }

/-- `TopologicalSortWithExtraEdges`. -/
def topologicalSortWithExtraEdges (g : Graph) (targetTypes : List Str)
    (extra : List (Str × List Str)) (fuel : Nat) : Except Str (List Provider) :=
  (targetTypes.foldlM (fun st t => visitTS g extra fuel t st) ⟨[], [], []⟩).map (·.order)

/-- `TopologicalSort`. -/
def topologicalSort (g : Graph) (targetTypes : List Str) (fuel : Nat) :
    Except Str (List Provider) :=
  topologicalSortWithExtraEdges g targetTypes [] fuel

/-- `AllSingletonProviders`: all provider-map keys, sorted, then sorted
topologically. -/
def allSingletonProviders (g : Graph) (fuel : Nat) : Except Str (List Provider) :=
  topologicalSort g (sortStrs (g.providerMap.map (·.1))) fuel

/-- The recursive `expand` of `EntryProviders` / `ProvidersForTypes`:
transitive dependency closure over binding-resolved types.  The expanded
set is kept as an insertion-ordered duplicate-free list; `none` models fuel
exhaustion only. -/
def expandTypes (g : Graph) : Nat → Str → List Str → Option (List Str)
  | 0, _, _ => none
  | fuel + 1, t, expanded =>
    let resolved := resolveType g t
    if expanded.contains resolved then some expanded
    else
      let expanded := expanded ++ [resolved]
      match lookupA g.providerMap resolved with
      | none => some expanded
      | some provider =>
        provider.params.foldlM (fun e param => expandTypes g fuel param.typeStr e) expanded

/-- The invoke-promotion pass: a single walk over `g.Providers`; an
invoke-only provider whose parameters all resolve into the current expanded
set contributes its return types to it. -/
def invokeStep (g : Graph) (expanded : List Str) (p : Provider) : List Str :=
  if !p.isInvoke then expanded
  else if p.params.all (fun param => expanded.contains (resolveType g param.typeStr)) then
    p.returns.foldl (fun e ret => addUniq e ret.typeStr) expanded
  else expanded

def invokePass (g : Graph) (expanded : List Str) : List Str :=
  g.providers.foldl (invokeStep g) expanded

/-- `ProvidersForTypes`: closure, invoke pass, sorted targets, topological
sort.  The outer `Option` is fuel exhaustion of the closure only. -/
def providersForTypes (g : Graph) (typeStrs : List Str) (fuel : Nat) :
    Option (Except Str (List Provider)) :=
  match typeStrs.foldlM (fun e t => expandTypes g fuel t e) [] with
  | none => none
  | some expanded =>
    let expanded := invokePass g expanded
    some (topologicalSort g (sortStrs expanded) fuel)

/-- `fieldNameToGroup` (`""` modelled as `none`). -/
def fieldNameToGroup (g : Graph) (fieldName : Str) : Option Str :=
  firstSome (fun e => if GroupFieldName e.1 == fieldName then some e.1 else none) g.groups

/-- The needed-type collection of `EntryProviders`: group fields contribute
their providers' parameter types, singleton fields their own type. -/
def entryNeededTypes (g : Graph) (fieldNames : List Str) : List Str :=
  let fieldToType := g.typeToField.foldl (fun m e => insertA m e.2 e.1) []
  fieldNames.foldl
    (fun needed fieldName =>
      match fieldNameToGroup g fieldName with
      | some groupName =>
        ((lookupA g.groups groupName).getD []).foldl
          (fun needed p => p.params.foldl (fun n param => addUniq n param.typeStr) needed) needed
      | none =>
        match lookupA fieldToType fieldName with
        | some typeStr => addUniq needed typeStr
        | none => needed)
    []

/-- `EntryProviders`: needed types from container fields, then the same
closure / invoke pass / sorted targets / topological sort pipeline. -/
def entryProviders (g : Graph) (fieldNames : List Str) (fuel : Nat) :
    Option (Except Str (List Provider)) :=
  match (entryNeededTypes g fieldNames).foldlM (fun e t => expandTypes g fuel t e) [] with
  | none => none
  | some expanded =>
    let expanded := invokePass g expanded
    some (topologicalSort g (sortStrs expanded) fuel)

end Autodi

namespace Autodi

/-! ## AutoCollect, validation, and the per-package scanner selection -/

/-- `findIfaceType`: locate the interface method set for a type string by
scanning provider parameters (including `[]I` slice elements) and returns,
falling back to the scanner's module-wide interface catalogue. -/
def findIfaceType (g : Graph) (typeStr : Str) : Option (List Str) :=
  match firstSome
    (fun p =>
      match firstSome
        (fun (param : TypeRef) =>
          if param.typeStr == typeStr && param.isIface then underlyingIface param.ty
          else if goHasPre param.typeStr "[]".data && param.typeStr.drop 2 == typeStr then
            match sliceElemTy param.ty with
            | some elemTy => underlyingIface elemTy
            | none => none
          else none)
        p.params with
      | some r => some r
      | none =>
        firstSome
          (fun (ret : TypeRef) =>
            if ret.typeStr == typeStr && ret.isIface then underlyingIface ret.ty else none)
          p.returns)
    g.providers with
  | some r => some r
  | none => lookupA g.ifaceTypes typeStr

/-- The per-return test of `AutoCollect`: `Implements(ret, I)`, else for a
pointer return `Implements(ret, I)` again (as the source writes it), else
`Implements(*ret, I)` for a non-pointer return. -/
def retMatchesIface (ms : List Str) (ret : TypeRef) : Bool :=
  if implementsGo ret.ty ms then true
  else
    match ret.ty with
    | GoTy.ptr p => implementsGo (GoTy.ptr p) ms
    | t => implementsGo (GoTy.ptr t) ms

/-- `AutoCollect`: non-invoke providers with a matching return, sorted by
package path. -/
def autoCollect (g : Graph) (elemTypeStr : Str) : List Provider :=
  match findIfaceType g elemTypeStr with
  | none => []
  | some ms =>
    let found := g.providers.foldl
      (fun acc p =>
        if p.isInvoke then acc
        else if p.returns.any (retMatchesIface ms) then acc ++ [p] else acc)
      []
    sortBy (fun a b => strLe a.pkgPath b.pkgPath) found

/-- A missing-dependency error of `ValidateEntry` (`fmt.Errorf`,
structurally): entry name, consumer package and function, and the short
form of the missing type. -/
structure MissErr : Type where
  entry : Str
  pkgName : Str
  funcName : Str
  missing : Str
deriving DecidableEq

/-- The provided set of `ValidateEntry`: the union of all returns, then one
pass over the bindings marking an interface provided when its concrete
type already is. -/
def computeProvided (g : Graph) (provs : List Provider) : List Str :=
  let provided := provs.foldl
    (fun acc p => p.returns.foldl (fun acc2 ret => addUniq acc2 ret.typeStr) acc) []
  g.bindings.foldl
    (fun acc e => if acc.contains e.2 then addUniq acc e.1 else acc) provided

/-- The per-parameter body of `ValidateEntry`: skip optional parameters,
parameters whose binding-resolved type is provided, and auto-collectible
`[]X` parameters; otherwise emit a missing-dependency error. -/
def entryParamStep (g : Graph) (provided : List Str) (name : Str) (p : Provider)
    (errs : List MissErr) (param : TypeRef) : List MissErr :=
  if param.optional then errs
  else if provided.contains (resolveType g param.typeStr) then errs
  else if goHasPre param.typeStr "[]".data
          && (autoCollect g (param.typeStr.drop 2)).length > 0 then errs
  else errs ++ [⟨name, p.pkgName, p.funcName, toShortTypeName param.typeStr⟩]

/-- `ValidateEntry`. -/
def validateEntry (g : Graph) (name : Str) (provs : List Provider) : List MissErr :=
  let provided := computeProvided g provs
  provs.foldl (fun errs p => p.params.foldl (entryParamStep g provided name p) errs) []

/-- `funcPriority` (scanner.go): how well a name matches the primary-`New`
convention. -/
def funcPriority (pkgName funcName : Str) : Nat :=
  let suffix := goTrimPre funcName "New".data
  if goEqualFold suffix pkgName then 0
  else if suffix == [] then 1
  else if suffix == "Service".data then 2
  else 3

/-- The union of all return-type strings of a provider list, as an
insertion-ordered set (the `provided` map pattern of the source). -/
def returnsUnion (provs : List Provider) : List Str :=
  provs.foldl (fun acc p => p.returns.foldl (fun acc2 ret => addUniq acc2 ret.typeStr) acc) []

/-- One step of the candidate walk of `extractProviders`: keep the
candidate iff none of its return types is already provided, then mark its
return types provided. -/
def selectStep (acc : List Provider × List Str) (c : Provider) : List Provider × List Str :=
  if c.returns.any (fun r => acc.2.contains r.typeStr) then acc
  else (acc.1 ++ [c], c.returns.foldl (fun s r => addUniq s r.typeStr) acc.2)

/-- The candidate walk of `extractProviders` (scanner.go lines 277-315):
always-include (`bind`/`invoke`-annotated) providers come first and their
return types are marked provided; the candidates are walked in priority
order and one is kept iff none of its return types is already provided,
marking its returns afterwards.  The AST extraction that produced the two
input lists is upstream of this selection and is not modelled. -/
def selectProviders (pkgName : Str) (alwaysInclude cands : List Provider) : List Provider :=
  let sorted := sortBy
    (fun a b => Nat.ble (funcPriority pkgName a.funcName) (funcPriority pkgName b.funcName)) cands
  (sorted.foldl selectStep (alwaysInclude, returnsUnion alwaysInclude)).1

end Autodi

namespace Autodi

/-! ## Concrete fixtures used by witnesses and counterexamples -/

/-- A trivial empty graph (used only to destructure `Except` results). -/
def emptyGraph : Graph :=
  ⟨[], [], [], [], [], ⟨[], [], []⟩, [], [], []⟩

/-- Project the graph out of a successful build. -/
def getOkGraph (r : Except (List BuildErr) Graph) : Graph :=
  match r with
  | .ok g => g
  | .error _ => emptyGraph

/-- A concrete (non-interface) type reference with the given type string. -/
def cRef (ts : Str) : TypeRef :=
  { ty := GoTy.named ts [] [], typeStr := ts }

/-- A module-`m` config with no explicit bindings and no groups. -/
def cfgM : Config := ⟨"m".data, [], []⟩

/-- Scenario "Cycle" (spec §8.4): `NewA(B)->A`, `NewB(A)->B`. -/
def pA5 : Provider :=
  { funcName := "NewA".data, pkgPath := "m/a".data, pkgName := "a".data
    params := [cRef "B".data], returns := [cRef "A".data], position := "a.go:1:1".data }

def pB5 : Provider :=
  { funcName := "NewB".data, pkgPath := "m/b".data, pkgName := "b".data
    params := [cRef "A".data], returns := [cRef "B".data], position := "b.go:1:1".data }

def gAB : Graph := getOkGraph (buildGraph [pA5, pB5] cfgM [] [])

/-- A second, disjoint cycle `NewC(D)->C`, `NewD(C)->D`. -/
def pC5 : Provider :=
  { funcName := "NewC".data, pkgPath := "m/c".data, pkgName := "c".data
    params := [cRef "D".data], returns := [cRef "C".data], position := "c.go:1:1".data }

def pD5 : Provider :=
  { funcName := "NewD".data, pkgPath := "m/d".data, pkgName := "d".data
    params := [cRef "C".data], returns := [cRef "D".data], position := "d.go:1:1".data }

def gABCD : Graph := getOkGraph (buildGraph [pA5, pB5, pC5, pD5] cfgM [] [])

end Autodi

deriving instance DecidableEq for Except

namespace Autodi

/-! ## Basic lemmas about the map and set models -/

theorem lookupA_cons {α : Type} (e : Str × α) (rest : List (Str × α)) (k : Str) :
    lookupA (e :: rest) k = if e.1 == k then some e.2 else lookupA rest k := by
  cases h : (e.1 == k) <;> simp [lookupA, List.find?, h]

theorem containsKeyA_cons {α : Type} (e : Str × α) (rest : List (Str × α)) (k : Str) :
    containsKeyA (e :: rest) k = (e.1 == k || containsKeyA rest k) := by
  simp [containsKeyA]

theorem lookupA_insertA {α : Type} (m : List (Str × α)) (k : Str) (v : α) (k' : Str) :
    lookupA (insertA m k v) k' = if k' = k then some v else lookupA m k' := by
  induction m with
  | nil =>
    by_cases h : k' = k
    · subst h
      simp [insertA, lookupA_cons]
    · have hb : (k == k') = false := by
        simp only [beq_eq_false_iff_ne, ne_eq]
        exact fun hh => h hh.symm
      simp [insertA, lookupA_cons, hb, h, lookupA]
  | cons e rest ih =>
    cases hbe : (e.1 == k) with
    | true =>
      have he : e.1 = k := by simpa using hbe
      by_cases h : k' = k
      · subst h
        simp [insertA, hbe, lookupA_cons]
      · have h1 : (k == k') = false := by
          simp only [beq_eq_false_iff_ne, ne_eq]
          exact fun hh => h hh.symm
        have h2 : (e.1 == k') = false := by rw [he]; exact h1
        simp [insertA, hbe, lookupA_cons, h1, h2, h]
    | false =>
      have he : e.1 ≠ k := by simpa using hbe
      cases hbe2 : (e.1 == k') with
      | true =>
        have he2 : e.1 = k' := by simpa using hbe2
        have h : ¬k' = k := by rw [← he2]; exact he
        simp [insertA, hbe, lookupA_cons, hbe2, h]
      | false =>
        simp only [insertA, hbe, Bool.false_eq_true, if_false, lookupA_cons, hbe2]
        exact ih

theorem containsKeyA_isSome {α : Type} (m : List (Str × α)) (k : Str) :
    containsKeyA m k = (lookupA m k).isSome := by
  induction m with
  | nil => rfl
  | cons e rest ih =>
    rw [containsKeyA_cons, lookupA_cons]
    cases h : (e.1 == k) <;> simp [h, ih]

theorem lookupA_entry_mem {α : Type} (m : List (Str × α)) (k : Str) (v : α)
    (h : lookupA m k = some v) : (k, v) ∈ m := by
  induction m with
  | nil => simp [lookupA] at h
  | cons e rest ih =>
    rw [lookupA_cons] at h
    cases hbe : (e.1 == k) with
    | true =>
      rw [hbe] at h
      simp only [if_true] at h
      have he : e.1 = k := by simpa using hbe
      have hev : e = (k, v) := by
        cases e with
        | mk a b =>
          simp only at he
          simp only [Option.some.injEq] at h
          rw [he, h]
      rw [hev]
      exact List.mem_cons_self _ _
    | false =>
      rw [hbe] at h
      simp only [Bool.false_eq_true, if_false] at h
      exact List.mem_cons_of_mem _ (ih h)

theorem containsKeyA_insertA {α : Type} (m : List (Str × α)) (k : Str) (v : α) (k' : Str) :
    containsKeyA (insertA m k v) k' = (k' == k || containsKeyA m k') := by
  rw [containsKeyA_isSome, containsKeyA_isSome, lookupA_insertA]
  by_cases h : k' = k <;> simp [h]

/-- A key absent after an insert was absent before and differs from the
inserted key. -/
theorem not_containsKeyA_insertA {α : Type} {m : List (Str × α)} {k : Str} {v : α} {k' : Str}
    (h : containsKeyA (insertA m k v) k' = false) :
    containsKeyA m k' = false ∧ k' ≠ k := by
  rw [containsKeyA_insertA] at h
  simp only [Bool.or_eq_false_iff, beq_eq_false_iff_ne, ne_eq] at h
  exact ⟨h.2, h.1⟩

theorem mem_addUniq (l : List Str) (t x : Str) :
    x ∈ addUniq l t ↔ x ∈ l ∨ x = t := by
  unfold addUniq
  by_cases h : l.contains t
  · simp only [h, if_true]
    constructor
    · exact fun hx => Or.inl hx
    · intro hx
      rcases hx with hx | hx
      · exact hx
      · rw [hx]
        exact (by simpa using h : t ∈ l)
  · simp only [h, if_false]
    simp [List.mem_append]

theorem addUniq_subset (l : List Str) (t : Str) : l ⊆ addUniq l t := by
  intro x hx
  rw [mem_addUniq]
  exact Or.inl hx

end Autodi

namespace Autodi

/-! ## Lemmas for cycle reporting (`VerifyAcyclic`, claim C5) -/

theorem findIdx?_go_first (dep : Str) :
    ∀ (pre post : List Str) (s : Nat), dep ∉ pre →
      List.findIdx? (· == dep) (pre ++ dep :: post) s = some (s + pre.length) := by
  intro pre
  induction pre with
  | nil =>
    intro post s _
    simp [List.findIdx?_cons]
  | cons a pre ih =>
    intro post s hnm
    have ha : (a == dep) = false := by
      simp only [beq_eq_false_iff_ne, ne_eq]
      intro hh
      exact hnm (by rw [hh]; exact List.mem_cons_self _ _)
    rw [List.cons_append, List.findIdx?_cons, ha]
    simp only [Bool.false_eq_true, if_false]
    rw [ih post (s + 1) (fun hm => hnm (List.mem_cons_of_mem _ hm))]
    congr 1
    simp [List.length_cons]
    omega

theorem mem_dedupStrs_aux (l : List Str) :
    ∀ (acc : List Str) (x : Str), (x ∈ acc ∨ x ∈ l) →
      x ∈ l.foldl (fun acc t => if acc.contains t then acc else acc ++ [t]) acc := by
  induction l with
  | nil =>
    intro acc x h
    rcases h with h | h
    · exact h
    · cases h
  | cons a l ih =>
    intro acc x h
    simp only [List.foldl_cons]
    apply ih
    by_cases hc : acc.contains a
    · simp only [hc, if_true]
      rcases h with h | h
      · exact Or.inl h
      · rcases List.mem_cons.mp h with h | h
        · exact Or.inl (by rw [h]; exact (by simpa using hc : a ∈ acc))
        · exact Or.inr h
    · simp only [hc, if_false]
      rcases h with h | h
      · exact Or.inl (List.mem_append_left _ h)
      · rcases List.mem_cons.mp h with h | h
        · exact Or.inl (List.mem_append_right _ (by rw [h]; exact List.mem_singleton.mpr rfl))
        · exact Or.inr h

theorem mem_dedupStrs {l : List Str} {x : Str} (h : x ∈ l) : x ∈ dedupStrs l :=
  mem_dedupStrs_aux l [] x (Or.inr h)

theorem formatCycle_fold_pres (g : Graph) (l : List Str) :
    ∀ (acc : List Provider) (x : Provider), x ∈ acc →
      x ∈ l.foldl
        (fun acc t => match lookupA g.providerMap t with | some p => acc ++ [p] | none => acc)
        acc := by
  induction l with
  | nil => intro acc x h; exact h
  | cons a l ih =>
    intro acc x h
    simp only [List.foldl_cons]
    apply ih
    cases lookupA g.providerMap a with
    | none => exact h
    | some p => exact List.mem_append_left _ h

theorem formatCycle_fold_mem (g : Graph) (l : List Str) :
    ∀ (acc : List Provider) (t : Str) (P : Provider),
      t ∈ l → lookupA g.providerMap t = some P →
      P ∈ l.foldl
        (fun acc t => match lookupA g.providerMap t with | some p => acc ++ [p] | none => acc)
        acc := by
  induction l with
  | nil => intro acc t P h; cases h
  | cons a l ih =>
    intro acc t P h hl
    simp only [List.foldl_cons]
    rcases List.mem_cons.mp h with h | h
    · rw [← h, hl]
      exact formatCycle_fold_pres g l _ P (List.mem_append_right _ (List.mem_singleton.mpr rfl))
    · exact ih _ t P h hl

/-- Every type on the cycle that has a provider contributes that provider
to the formatted provider list. -/
theorem formatCycleProviders_complete (g : Graph) (cycle : List Str) (t : Str) (P : Provider)
    (ht : t ∈ cycle) (hl : lookupA g.providerMap t = some P) :
    P ∈ formatCycleProviders g cycle :=
  formatCycle_fold_mem g (dedupStrs cycle) [] t P (mem_dedupStrs ht) hl

theorem frameParam_fold_pres (g : Graph) (fr : VFrame) (visited : List Str)
    (l : List TypeRef) :
    ∀ (acc : List CycleErr × List VFrame) (x : CycleErr), x ∈ acc.1 →
      x ∈ (l.foldl (frameParamStep g fr visited) acc).1 := by
  induction l with
  | nil => intro acc x h; exact h
  | cons a l ih =>
    intro acc x h
    simp only [List.foldl_cons]
    apply ih
    cases hIdx : fr.trail.findIdx? (· == resolveType g a.typeStr) with
    | none => simpa [frameParamStep, hIdx] using h
    | some i =>
      simp only [frameParamStep, hIdx]
      exact List.mem_append_left _ h

theorem frameStep_err_mem (g : Graph) (provider : Provider) (fr : VFrame) (visited : List Str)
    (param : TypeRef) (i : Nat) (hp : param ∈ provider.params)
    (hi : fr.trail.findIdx? (· == resolveType g param.typeStr) = some i) :
    mkCycleErr g (fr.trail.drop i ++ [resolveType g param.typeStr]) ∈
      (frameStep g provider fr visited).1 := by
  unfold frameStep
  show mkCycleErr g _ ∈ (provider.params.foldl (frameParamStep g fr visited) ([], [])).1
  have key : ∀ (l : List TypeRef) (acc : List CycleErr × List VFrame), param ∈ l →
      mkCycleErr g (fr.trail.drop i ++ [resolveType g param.typeStr]) ∈
        (l.foldl (frameParamStep g fr visited) acc).1 := by
    intro l
    induction l with
    | nil => intro acc h; cases h
    | cons a l ih =>
      intro acc h
      simp only [List.foldl_cons]
      rcases List.mem_cons.mp h with h | h
      · subst h
        apply frameParam_fold_pres
        simp only [frameParamStep, hi]
        exact List.mem_append_right _ (List.mem_singleton.mpr rfl)
      · exact ih _ h
  exact key provider.params ([], []) hp

end Autodi

namespace Autodi

/-- C5: during cycle verification, a parameter whose binding-resolved
target already occurs in the DFS trail produces a cycle error whose chain
is the trail suffix starting at that target followed by the target again,
joined by `" → "`, and whose provider list contains every provider of a
type on the chain; the scan does not abort at the first cycle: on the
two-provider cycle `NewA(B)->A`, `NewB(A)->B` it reports exactly the error
`A → B → A` naming both providers, and on a graph with two disjoint cycles
it reports both. -/
theorem verifyAcyclic_cycle_reporting :
    (∀ (g : Graph) (provider : Provider) (fr : VFrame) (visited : List Str)
        (param : TypeRef) (pre post : List Str), param ∈ provider.params →
        fr.trail = pre ++ resolveType g param.typeStr :: post →
        resolveType g param.typeStr ∉ pre →
        mkCycleErr g (resolveType g param.typeStr :: post ++ [resolveType g param.typeStr]) ∈
          (frameStep g provider fr visited).1
        ∧ (mkCycleErr g
              (resolveType g param.typeStr :: post ++ [resolveType g param.typeStr])).chainStr
            = goJoin (resolveType g param.typeStr :: post ++ [resolveType g param.typeStr])
                arrowSep
        ∧ ∀ t ∈ resolveType g param.typeStr :: post ++ [resolveType g param.typeStr], ∀ P,
            lookupA g.providerMap t = some P →
            P ∈ (mkCycleErr g
                  (resolveType g param.typeStr :: post ++ [resolveType g param.typeStr])).involved)
    ∧ verifyAcyclic gAB 100 = some [⟨"A → B → A".data, [pA5, pB5]⟩]
    ∧ verifyAcyclic gABCD 100 =
        some [⟨"A → B → A".data, [pA5, pB5]⟩, ⟨"C → D → C".data, [pC5, pD5]⟩] := by
  refine ⟨?_, by decide, by decide⟩
  intro g provider fr visited param pre post hp htrail hpre
  have hidx : fr.trail.findIdx? (· == resolveType g param.typeStr) = some pre.length := by
    rw [htrail]
    simpa using findIdx?_go_first (resolveType g param.typeStr) pre post 0 hpre
  have hdrop : fr.trail.drop pre.length = resolveType g param.typeStr :: post := by
    rw [htrail]
    exact List.drop_left pre _
  have hmem := frameStep_err_mem g provider fr visited param pre.length hp hidx
  rw [hdrop] at hmem
  refine ⟨by simpa using hmem, rfl, ?_⟩
  intro t ht P hP
  exact formatCycleProviders_complete g _ t P (by simpa using ht) hP

/-- Witness for C5: the general cycle-reporting statement applied to the
`NewB` frame of the `A`/`B` cycle graph. -/
theorem verifyAcyclic_cycle_reporting_witness :
    (cRef "A".data ∈ pB5.params
      ∧ (VFrame.mk "B".data ["A".data, "B".data]).trail
          = [] ++ resolveType gAB (cRef "A".data).typeStr :: ["B".data]
      ∧ resolveType gAB (cRef "A".data).typeStr ∉ ([] : List Str))
    ∧ (mkCycleErr gAB
          (resolveType gAB (cRef "A".data).typeStr
            :: ["B".data] ++ [resolveType gAB (cRef "A".data).typeStr]) ∈
        (frameStep gAB pB5 (VFrame.mk "B".data ["A".data, "B".data]) []).1
      ∧ (mkCycleErr gAB
            (resolveType gAB (cRef "A".data).typeStr
              :: ["B".data] ++ [resolveType gAB (cRef "A".data).typeStr])).chainStr
          = goJoin (resolveType gAB (cRef "A".data).typeStr
              :: ["B".data] ++ [resolveType gAB (cRef "A".data).typeStr]) arrowSep
      ∧ ∀ t ∈ resolveType gAB (cRef "A".data).typeStr
            :: ["B".data] ++ [resolveType gAB (cRef "A".data).typeStr], ∀ P,
          lookupA gAB.providerMap t = some P →
          P ∈ (mkCycleErr gAB
                (resolveType gAB (cRef "A".data).typeStr
                  :: ["B".data] ++ [resolveType gAB (cRef "A".data).typeStr])).involved) :=
  ⟨⟨by decide, by decide, by decide⟩,
    verifyAcyclic_cycle_reporting.1 gAB pB5 (VFrame.mk "B".data ["A".data, "B".data]) []
      (cRef "A".data) [] ["B".data] (by decide) (by decide) (by decide)⟩

end Autodi

namespace Autodi

/-! ## Sorting lemmas (claim C8) -/

theorem strLe_total : ∀ a b : Str, strLe a b = true ∨ strLe b a = true := by
  intro a
  induction a with
  | nil => intro b; exact Or.inl rfl
  | cons x xs ih =>
    intro b
    cases b with
    | nil => exact Or.inr rfl
    | cons y ys =>
      by_cases h1 : x.toNat < y.toNat
      · left; simp [strLe, h1]
      · by_cases h2 : y.toNat < x.toNat
        · right; simp [strLe, h2]
        · rcases ih ys with h | h
          · left; simp [strLe, h1, h2, h]
          · right; simp [strLe, h1, h2, h]

theorem strLe_trans : ∀ a b c : Str, strLe a b = true → strLe b c = true → strLe a c = true := by
  intro a
  induction a with
  | nil => intro b c _ _; rfl
  | cons x xs ih =>
    intro b c hab hbc
    cases b with
    | nil => simp [strLe] at hab
    | cons y ys =>
      cases c with
      | nil => simp [strLe] at hbc
      | cons z zs =>
        simp only [strLe] at hab hbc ⊢
        by_cases h1 : x.toNat < y.toNat
        · by_cases h2 : y.toNat < z.toNat
          · have h3 : x.toNat < z.toNat := Nat.lt_trans h1 h2
            simp [h3]
          · by_cases h3 : z.toNat < y.toNat
            · rw [if_neg h2, if_pos h3] at hbc; cases hbc
            · have hyz : y.toNat = z.toNat :=
                Nat.le_antisymm (Nat.le_of_not_lt h3) (Nat.le_of_not_lt h2)
              have h4 : x.toNat < z.toNat := hyz ▸ h1
              simp [h4]
        · by_cases h4 : y.toNat < x.toNat
          · rw [if_neg h1, if_pos h4] at hab; cases hab
          · have hxy : x.toNat = y.toNat :=
              Nat.le_antisymm (Nat.le_of_not_lt h4) (Nat.le_of_not_lt h1)
            rw [if_neg h1, if_neg h4] at hab
            by_cases h2 : y.toNat < z.toNat
            · have h5 : x.toNat < z.toNat := hxy ▸ h2
              simp [h5]
            · by_cases h3 : z.toNat < y.toNat
              · rw [if_neg h2, if_pos h3] at hbc; cases hbc
              · have hyz : y.toNat = z.toNat :=
                  Nat.le_antisymm (Nat.le_of_not_lt h3) (Nat.le_of_not_lt h2)
                rw [if_neg h2, if_neg h3] at hbc
                have hxz1 : ¬x.toNat < z.toNat := by omega
                have hxz2 : ¬z.toNat < x.toNat := by omega
                rw [if_neg hxz1, if_neg hxz2]
                exact ih ys zs hab hbc

theorem mem_insertBy {α : Type} (le : α → α → Bool) (x : α) :
    ∀ (l : List α) (y : α), y ∈ insertBy le x l ↔ y = x ∨ y ∈ l := by
  intro l
  induction l with
  | nil => intro y; simp [insertBy]
  | cons z zs ih =>
    intro y
    by_cases h : le x z
    · simp [insertBy, h, List.mem_cons]
    · have hb : le x z = false := by simpa using h
      simp only [insertBy, hb, Bool.false_eq_true, if_false, List.mem_cons, ih y]
      tauto

theorem pairwise_insertBy {α : Type} (le : α → α → Bool)
    (htrans : ∀ a b c, le a b = true → le b c = true → le a c = true)
    (htot : ∀ a b, le a b = true ∨ le b a = true) (x : α) :
    ∀ l : List α, l.Pairwise (fun a b => le a b = true) →
      (insertBy le x l).Pairwise (fun a b => le a b = true) := by
  intro l
  induction l with
  | nil => intro _; simp [insertBy]
  | cons z zs ih =>
    intro h
    rw [List.pairwise_cons] at h
    by_cases hxz : le x z
    · simp only [insertBy, hxz, if_true]
      rw [List.pairwise_cons]
      constructor
      · intro w hw
        rcases List.mem_cons.mp hw with hw | hw
        · rw [hw]; exact hxz
        · exact htrans x z w hxz (h.1 w hw)
      · rw [List.pairwise_cons]
        exact h
    · have hzx : le z x = true := by
        rcases htot x z with hh | hh
        · exact absurd hh hxz
        · exact hh
      have hxzb : le x z = false := by simpa using hxz
      simp only [insertBy, hxzb, Bool.false_eq_true, if_false]
      rw [List.pairwise_cons]
      constructor
      · intro w hw
        rcases (mem_insertBy le x zs w).mp hw with hw | hw
        · rw [hw]; exact hzx
        · exact h.1 w hw
      · exact ih h.2

theorem sortBy_pairwise {α : Type} (le : α → α → Bool)
    (htrans : ∀ a b c, le a b = true → le b c = true → le a c = true)
    (htot : ∀ a b, le a b = true ∨ le b a = true) :
    ∀ l : List α, (sortBy le l).Pairwise (fun a b => le a b = true) := by
  intro l
  induction l with
  | nil => simp [sortBy]
  | cons x xs ih => exact pairwise_insertBy le htrans htot x _ ih

theorem mem_sortBy {α : Type} (le : α → α → Bool) :
    ∀ (l : List α) (y : α), y ∈ sortBy le l ↔ y ∈ l := by
  intro l
  induction l with
  | nil => intro y; simp [sortBy]
  | cons x xs ih =>
    intro y
    simp only [sortBy, mem_insertBy, ih y, List.mem_cons]

end Autodi

namespace Autodi

theorem autoCollect_fold_sound (ms : List Str) :
    ∀ (l : List Provider) (acc : List Provider) (p : Provider),
      p ∈ l.foldl
        (fun acc p =>
          if p.isInvoke then acc
          else if p.returns.any (retMatchesIface ms) then acc ++ [p] else acc) acc →
      p ∈ acc ∨ (p.isInvoke = false ∧ p.returns.any (retMatchesIface ms) = true) := by
  intro l
  induction l with
  | nil => intro acc p h; exact Or.inl h
  | cons a l ih =>
    intro acc p h
    simp only [List.foldl_cons] at h
    rcases ih _ p h with h2 | h2
    · by_cases hinv : a.isInvoke
      · rw [if_pos hinv] at h2
        exact Or.inl h2
      · rw [if_neg hinv] at h2
        by_cases hany : a.returns.any (retMatchesIface ms)
        · rw [if_pos hany] at h2
          rcases List.mem_append.mp h2 with h3 | h3
          · exact Or.inl h3
          · right
            rw [List.mem_singleton.mp h3]
            exact ⟨by simpa using hinv, hany⟩
        · rw [if_neg hany] at h2
          exact Or.inl h2
    · exact Or.inr h2

theorem retMatchesIface_sound (ms : List Str) (ret : TypeRef)
    (h : retMatchesIface ms ret = true) :
    implementsGo ret.ty ms = true ∨ implementsGo (GoTy.ptr ret.ty) ms = true := by
  unfold retMatchesIface at h
  by_cases h1 : implementsGo ret.ty ms
  · exact Or.inl h1
  · have hb : implementsGo ret.ty ms = false := by simpa using h1
    rw [if_neg (by simp [hb])] at h
    revert h hb
    cases ret.ty with
    | ptr t =>
      intro h hb
      exact absurd h (by simp [hb])
    | named n vm pm =>
      intro h hb
      exact Or.inr h
    | namedIface n m2 =>
      intro h hb
      exact Or.inr h
    | iface m2 =>
      intro h hb
      exact Or.inr h
    | slice t =>
      intro h hb
      exact Or.inr h

/-- C8: `AutoCollect` returns no invoke-only provider, only providers with
a return type satisfying the found interface as the value type or as a
pointer to it, and the result is sorted by package path. -/
theorem autoCollect_props : ∀ (g : Graph) (e : Str),
    (autoCollect g e).Pairwise (fun a b => strLe a.pkgPath b.pkgPath = true)
    ∧ ∀ p ∈ autoCollect g e,
        p.isInvoke = false
        ∧ ∃ ms, findIfaceType g e = some ms
            ∧ ∃ ret ∈ p.returns,
                (implementsGo ret.ty ms = true ∨ implementsGo (GoTy.ptr ret.ty) ms = true) := by
  intro g e
  cases hf : findIfaceType g e with
  | none =>
    have hres : autoCollect g e = [] := by
      unfold autoCollect
      rw [hf]
    rw [hres]
    exact ⟨List.Pairwise.nil, by intro p hp; cases hp⟩
  | some ms =>
    have hres : autoCollect g e = sortBy (fun a b => strLe a.pkgPath b.pkgPath)
        (g.providers.foldl
          (fun acc p =>
            if p.isInvoke then acc
            else if p.returns.any (retMatchesIface ms) then acc ++ [p] else acc) []) := by
      unfold autoCollect
      rw [hf]
    constructor
    · rw [hres]
      exact sortBy_pairwise (fun a b : Provider => strLe a.pkgPath b.pkgPath)
        (fun a b c h1 h2 => strLe_trans a.pkgPath b.pkgPath c.pkgPath h1 h2)
        (fun a b => strLe_total a.pkgPath b.pkgPath) _
    · intro p hp
      rw [hres, mem_sortBy] at hp
      rcases autoCollect_fold_sound ms g.providers [] p hp with h | h
      · cases h
      · obtain ⟨ret, hret, hm⟩ := List.any_eq_true.mp h.2
        exact ⟨h.1, ms, rfl, ret, hret, retMatchesIface_sound ms ret hm⟩

/-- Scenario "Slice auto-collect" (spec §8.5): `NewP1()->*P1`,
`NewP2()->*P2` both satisfying `Listener`; consumer `NewHub([]Listener)`. -/
def pHub : Provider :=
  { funcName := "NewHub".data, pkgPath := "m/hub".data, pkgName := "hub".data
    params := [{ ty := GoTy.slice (GoTy.namedIface "Listener".data ["M".data])
                 typeStr := "[]m/l.Listener".data }]
    returns := [cRef "m/hub.Hub".data] }

def pP1 : Provider :=
  { funcName := "NewP1".data, pkgPath := "m/p1".data, pkgName := "p1".data
    returns := [{ ty := GoTy.ptr (GoTy.named "P1".data [] ["M".data])
                  typeStr := "*m/p1.P1".data }] }

def pP2 : Provider :=
  { funcName := "NewP2".data, pkgPath := "m/p2".data, pkgName := "p2".data
    returns := [{ ty := GoTy.ptr (GoTy.named "P2".data [] ["M".data])
                  typeStr := "*m/p2.P2".data }] }

def g8 : Graph := getOkGraph (buildGraph [pHub, pP1, pP2] cfgM [] [])

/-- Witness for C8: the spec's slice auto-collect scenario, with the
theorem applied to the first collected provider. -/
theorem autoCollect_props_witness :
    autoCollect g8 "m/l.Listener".data = [pP1, pP2]
    ∧ pP1 ∈ autoCollect g8 "m/l.Listener".data
    ∧ (pP1.isInvoke = false
        ∧ ∃ ms, findIfaceType g8 "m/l.Listener".data = some ms
            ∧ ∃ ret ∈ pP1.returns,
                (implementsGo ret.ty ms = true ∨ implementsGo (GoTy.ptr ret.ty) ms = true)) :=
  ⟨by decide, by decide,
    (autoCollect_props g8 "m/l.Listener".data).2 pP1 (by decide)⟩

end Autodi

namespace Autodi

/-! ## Lemmas for `ValidateEntry` (claim C6) -/

/-- The condition under which `ValidateEntry` emits a missing-dependency
error for a parameter: non-optional, binding-resolved type not provided,
and not an auto-collectible slice parameter (written with the same nested
tests as `entryParamStep`). -/
def entryMissCond (g : Graph) (provided : List Str) (param : TypeRef) : Bool :=
  if param.optional then false
  else if provided.contains (resolveType g param.typeStr) then false
  else if goHasPre param.typeStr "[]".data
          && (autoCollect g (param.typeStr.drop 2)).length > 0 then false
  else true

theorem entryMissCond_iff (g : Graph) (provided : List Str) (param : TypeRef) :
    entryMissCond g provided param = true ↔
      param.optional = false
      ∧ (resolveType g param.typeStr ∈ provided → False)
      ∧ ¬(goHasPre param.typeStr "[]".data = true
            ∧ 0 < (autoCollect g (param.typeStr.drop 2)).length) := by
  unfold entryMissCond
  split_ifs with h1 h2 h3
  · simp [h1]
  · simp only [Bool.false_eq_true, false_iff]
    intro hc
    exact hc.2.1 (by simpa using h2)
  · simp only [Bool.false_eq_true, false_iff]
    intro hc
    rcases (Bool.and_eq_true _ _).mp h3 with ⟨ha, hb⟩
    exact hc.2.2 ⟨ha, of_decide_eq_true hb⟩
  · simp only [true_iff]
    refine ⟨by simpa using h1, ?_, ?_⟩
    · intro hm
      exact h2 (by simpa using hm)
    · intro hand
      exact h3 ((Bool.and_eq_true _ _).mpr ⟨hand.1, decide_eq_true hand.2⟩)

theorem entryParamStep_eq (g : Graph) (provided : List Str) (name : Str) (p : Provider)
    (errs : List MissErr) (param : TypeRef) :
    entryParamStep g provided name p errs param =
      if entryMissCond g provided param then
        errs ++ [⟨name, p.pkgName, p.funcName, toShortTypeName param.typeStr⟩]
      else errs := by
  unfold entryParamStep entryMissCond
  split_ifs <;> simp_all

theorem entryParams_fold_eq (g : Graph) (provided : List Str) (name : Str) (p : Provider) :
    ∀ (params : List TypeRef) (errs0 : List MissErr),
      params.foldl (entryParamStep g provided name p) errs0 =
        errs0 ++ (params.filter (entryMissCond g provided)).map
          (fun param => ⟨name, p.pkgName, p.funcName, toShortTypeName param.typeStr⟩) := by
  intro params
  induction params with
  | nil => intro errs0; simp
  | cons a l ih =>
    intro errs0
    simp only [List.foldl_cons, entryParamStep_eq, List.filter_cons]
    by_cases h : entryMissCond g provided a
    · simp only [h, if_true, ih, List.map_cons, List.append_assoc, List.cons_append,
        List.nil_append]
    · simp only [h, Bool.false_eq_true, if_false, ih]

theorem validateEntry_fold_eq (g : Graph) (provided : List Str) (name : Str) :
    ∀ (provs : List Provider) (errs0 : List MissErr),
      provs.foldl (fun errs p => p.params.foldl (entryParamStep g provided name p) errs) errs0 =
        errs0 ++ (provs.map (fun p => (p.params.filter (entryMissCond g provided)).map
          (fun param =>
            MissErr.mk name p.pkgName p.funcName (toShortTypeName param.typeStr)))).flatten := by
  intro provs
  induction provs with
  | nil => intro errs0; simp
  | cons p l ih =>
    intro errs0
    rw [List.foldl_cons, ih, entryParams_fold_eq]
    simp [List.append_assoc]

theorem mem_retFold (rets : List TypeRef) :
    ∀ (acc : List Str) (x : Str),
      x ∈ rets.foldl (fun acc2 ret => addUniq acc2 ret.typeStr) acc ↔
        x ∈ acc ∨ ∃ ret ∈ rets, x = ret.typeStr := by
  induction rets with
  | nil => intro acc x; simp
  | cons r l ih =>
    intro acc x
    rw [List.foldl_cons, ih, mem_addUniq]
    constructor
    · intro h
      rcases h with (h | h) | h
      · exact Or.inl h
      · exact Or.inr ⟨r, List.mem_cons_self _ _, h⟩
      · obtain ⟨ret, hm, he⟩ := h
        exact Or.inr ⟨ret, List.mem_cons_of_mem _ hm, he⟩
    · intro h
      rcases h with h | h
      · exact Or.inl (Or.inl h)
      · obtain ⟨ret, hm, he⟩ := h
        rcases List.mem_cons.mp hm with hm | hm
        · rw [hm] at he
          exact Or.inl (Or.inr he)
        · exact Or.inr ⟨ret, hm, he⟩

theorem mem_returnsUnion_aux (provs : List Provider) :
    ∀ (acc : List Str) (x : Str),
      x ∈ provs.foldl (fun acc p => p.returns.foldl (fun acc2 ret => addUniq acc2 ret.typeStr) acc)
          acc ↔ x ∈ acc ∨ ∃ p ∈ provs, ∃ ret ∈ p.returns, x = ret.typeStr := by
  induction provs with
  | nil => intro acc x; simp
  | cons p l ih =>
    intro acc x
    simp only [List.foldl_cons, ih, mem_retFold]
    constructor
    · rintro (h | h)
      · rcases h with h | h
        · exact Or.inl h
        · exact Or.inr ⟨p, List.mem_cons_self _ _, h⟩
      · obtain ⟨q, hq, hr⟩ := h
        exact Or.inr ⟨q, List.mem_cons_of_mem _ hq, hr⟩
    · rintro (h | h)
      · exact Or.inl (Or.inl h)
      · obtain ⟨q, hq, hr⟩ := h
        rcases List.mem_cons.mp hq with hq | hq
        · exact Or.inl (Or.inr (by rw [hq] at hr; exact hr))
        · exact Or.inr ⟨q, hq, hr⟩

theorem mem_returnsUnion (provs : List Provider) (x : Str) :
    x ∈ returnsUnion provs ↔ ∃ p ∈ provs, ∃ ret ∈ p.returns, x = ret.typeStr := by
  unfold returnsUnion
  rw [mem_returnsUnion_aux]
  simp

end Autodi

namespace Autodi

theorem entry_mem_containsKeyA {α : Type} (B : List (Str × α)) (k : Str) (v : α)
    (h : (k, v) ∈ B) : containsKeyA B k = true := by
  unfold containsKeyA
  rw [List.any_eq_true]
  exact ⟨(k, v), h, by simp⟩

theorem provided_pass_mono (l : List (Str × Str)) :
    ∀ acc : List Str,
      acc ⊆ l.foldl (fun acc e => if acc.contains e.2 then addUniq acc e.1 else acc) acc := by
  induction l with
  | nil => intro acc; exact fun x hx => hx
  | cons e rest ih =>
    intro acc
    rw [List.foldl_cons]
    intro x hx
    apply ih _
    by_cases h : acc.contains e.2
    · rw [if_pos h]
      exact addUniq_subset acc e.1 hx
    · rw [if_neg h]
      exact hx

theorem provided_pass_sound (B : List (Str × Str)) (retU : List Str)
    (noChain : ∀ e ∈ B, containsKeyA B e.2 = false) :
    ∀ (l : List (Str × Str)) (acc : List Str),
      (∀ e ∈ l, e ∈ B) →
      (∀ x ∈ acc, x ∈ retU ∨ ∃ c, (x, c) ∈ B ∧ c ∈ retU) →
      retU ⊆ acc →
      ∀ x ∈ l.foldl (fun acc e => if acc.contains e.2 then addUniq acc e.1 else acc) acc,
        x ∈ retU ∨ ∃ c, (x, c) ∈ B ∧ c ∈ retU := by
  intro l
  induction l with
  | nil => intro acc _ hacc _ x hx; exact hacc x hx
  | cons e rest ih =>
    intro acc hsub hacc hretU x hx
    rw [List.foldl_cons] at hx
    by_cases h : acc.contains e.2
    · rw [if_pos h] at hx
      refine ih _ (fun e' he' => hsub e' (List.mem_cons_of_mem _ he')) ?_
        (fun y hy => addUniq_subset acc e.1 (hretU hy)) x hx
      intro y hy
      rcases (mem_addUniq acc e.1 y).mp hy with hy | hy
      · exact hacc y hy
      · subst hy
        have he2acc : e.2 ∈ acc := by simpa using h
        rcases hacc e.2 he2acc with h2 | h2
        · exact Or.inr ⟨e.2, hsub e (List.mem_cons_self _ _), h2⟩
        · obtain ⟨c', hc', _⟩ := h2
          have hck : containsKeyA B e.2 = true := entry_mem_containsKeyA B e.2 c' hc'
          rw [noChain e (hsub e (List.mem_cons_self _ _))] at hck
          cases hck
    · rw [if_neg h] at hx
      exact ih _ (fun e' he' => hsub e' (List.mem_cons_of_mem _ he')) hacc hretU x hx

end Autodi

namespace Autodi

theorem provided_pass_complete (retU : List Str) :
    ∀ (l : List (Str × Str)) (acc : List Str), retU ⊆ acc →
      ∀ x c, (x, c) ∈ l → c ∈ retU →
        x ∈ l.foldl (fun acc e => if acc.contains e.2 then addUniq acc e.1 else acc) acc := by
  intro l
  induction l with
  | nil => intro acc _ x c h; cases h
  | cons e rest ih =>
    intro acc hretU x c hm hc
    rw [List.foldl_cons]
    rcases List.mem_cons.mp hm with hm | hm
    · have he2 : e.2 ∈ acc := by rw [← hm]; exact hretU hc
      have hcont : acc.contains e.2 = true := by simpa using he2
      rw [if_pos hcont]
      apply provided_pass_mono rest
      have hex : e.1 = x := by rw [← hm]
      exact (mem_addUniq acc e.1 x).mpr (Or.inr hex.symm)
    · apply ih
      · intro y hy
        by_cases hcont : acc.contains e.2
        · rw [if_pos hcont]
          exact addUniq_subset acc e.1 (hretU hy)
        · rw [if_neg hcont]
          exact hretU hy
      · exact hm
      · exact hc

theorem computeProvided_eq (g : Graph) (provs : List Provider) :
    computeProvided g provs =
      g.bindings.foldl (fun acc e => if acc.contains e.2 then addUniq acc e.1 else acc)
        (returnsUnion provs) := rfl

/-- The provided set of `ValidateEntry`, characterised when no binding
targets another binding's interface key. -/
theorem computeProvided_char (g : Graph) (provs : List Provider)
    (noChain : ∀ e ∈ g.bindings, containsKeyA g.bindings e.2 = false) (x : Str) :
    x ∈ computeProvided g provs ↔
      x ∈ returnsUnion provs ∨ ∃ c, (x, c) ∈ g.bindings ∧ c ∈ returnsUnion provs := by
  rw [computeProvided_eq]
  constructor
  · intro hx
    exact provided_pass_sound g.bindings (returnsUnion provs) noChain g.bindings
      (returnsUnion provs) (fun e he => he) (fun y hy => Or.inl hy) (fun y hy => hy) x hx
  · intro hx
    rcases hx with hx | hx
    · exact provided_pass_mono g.bindings (returnsUnion provs) hx
    · obtain ⟨c, hm, hc⟩ := hx
      exact provided_pass_complete (returnsUnion provs) g.bindings (returnsUnion provs)
        (fun y hy => hy) x c hm hc

/-- C6: `ValidateEntry` emits a missing-dependency error exactly for the
(provider, parameter) pairs whose parameter is non-optional, whose
binding-resolved type is not in the provided set, and which is not an
auto-collectible `[]X` parameter; the provided set is the union of all
returns extended through the bindings; an optional parameter never
produces an error. -/
theorem validateEntry_exact :
    (∀ (g : Graph) (name : Str) (provs : List Provider),
      validateEntry g name provs =
        (provs.map (fun p => (p.params.filter (entryMissCond g (computeProvided g provs))).map
          (fun param =>
            MissErr.mk name p.pkgName p.funcName (toShortTypeName param.typeStr)))).flatten)
    ∧ (∀ (g : Graph) (provided : List Str) (param : TypeRef),
        entryMissCond g provided param = true ↔
          param.optional = false
          ∧ (resolveType g param.typeStr ∈ provided → False)
          ∧ ¬(goHasPre param.typeStr "[]".data = true
                ∧ 0 < (autoCollect g (param.typeStr.drop 2)).length))
    ∧ (∀ (g : Graph) (provided : List Str) (param : TypeRef), param.optional = true →
        entryMissCond g provided param = false)
    ∧ (∀ (g : Graph) (provs : List Provider) (x : Str),
        (∀ e ∈ g.bindings, containsKeyA g.bindings e.2 = false) →
        (x ∈ computeProvided g provs ↔
          x ∈ returnsUnion provs ∨ ∃ c, (x, c) ∈ g.bindings ∧ c ∈ returnsUnion provs)) := by
  refine ⟨?_, entryMissCond_iff, ?_, ?_⟩
  · intro g name provs
    unfold validateEntry
    rw [validateEntry_fold_eq]
    simp
  · intro g provided param hopt
    unfold entryMissCond
    rw [if_pos hopt]
  · intro g provs x noChain
    exact computeProvided_char g provs noChain x

/-- Scenario "Optional dep" (spec §8.6): `NewApp` takes an optional
`*Cache` parameter; there is no provider for `*Cache`. -/
def cacheParam : TypeRef :=
  { ty := GoTy.ptr (GoTy.named "Cache".data [] []), typeStr := "*m/cache.Cache".data
    optional := true }

def pApp : Provider :=
  { funcName := "NewApp".data, pkgPath := "m/app".data, pkgName := "app".data
    params := [cacheParam], returns := [cRef "m/app.App".data] }

def g6 : Graph := getOkGraph (buildGraph [pApp] cfgM [] [])

/-- Witness for C6: validation passes for the optional-dependency
scenario, via the theorem's optional clause. -/
theorem validateEntry_exact_witness :
    validateEntry g6 "app".data g6.providers = []
    ∧ cacheParam.optional = true
    ∧ entryMissCond g6 (computeProvided g6 g6.providers) cacheParam = false :=
  ⟨by decide, by decide,
    validateEntry_exact.2.2.1 g6 (computeProvided g6 g6.providers) cacheParam (by decide)⟩

end Autodi

namespace Autodi

/-! ## Lemmas for the scanner's per-package selection (claim C9) -/

/-- The candidate walk of the scanner, written as direct recursion: a
candidate is included iff none of its return types is in the provided set,
and its return types are then marked provided. -/
def chooseWalk : List Provider → List Str → List Provider
  | [], _ => []
  | c :: rest, provided =>
    if c.returns.any (fun r => provided.contains r.typeStr) then chooseWalk rest provided
    else c :: chooseWalk rest (c.returns.foldl (fun s r => addUniq s r.typeStr) provided)

theorem selectFold_eq :
    ∀ (l : List Provider) (acc : List Provider × List Str),
      (l.foldl selectStep acc).1 = acc.1 ++ chooseWalk l acc.2 := by
  intro l
  induction l with
  | nil => intro acc; simp [chooseWalk]
  | cons c rest ih =>
    intro acc
    rw [List.foldl_cons, ih]
    by_cases h : c.returns.any (fun r => acc.2.contains r.typeStr)
    · have hs : selectStep acc c = acc := by
        show (if c.returns.any (fun r => acc.2.contains r.typeStr) then acc
              else (acc.1 ++ [c], c.returns.foldl (fun s r => addUniq s r.typeStr) acc.2)) = acc
        rw [if_pos h]
      have hw : chooseWalk (c :: rest) acc.2 = chooseWalk rest acc.2 := by
        show (if c.returns.any (fun r => acc.2.contains r.typeStr) then chooseWalk rest acc.2
              else c :: chooseWalk rest (c.returns.foldl (fun s r => addUniq s r.typeStr) acc.2))
            = chooseWalk rest acc.2
        rw [if_pos h]
      rw [hs, hw]
    · have hs : selectStep acc c =
          (acc.1 ++ [c], c.returns.foldl (fun s r => addUniq s r.typeStr) acc.2) := by
        show (if c.returns.any (fun r => acc.2.contains r.typeStr) then acc
              else (acc.1 ++ [c], c.returns.foldl (fun s r => addUniq s r.typeStr) acc.2))
            = (acc.1 ++ [c], c.returns.foldl (fun s r => addUniq s r.typeStr) acc.2)
        rw [if_neg h]
      have hw : chooseWalk (c :: rest) acc.2 =
          c :: chooseWalk rest (c.returns.foldl (fun s r => addUniq s r.typeStr) acc.2) := by
        show (if c.returns.any (fun r => acc.2.contains r.typeStr) then chooseWalk rest acc.2
              else c :: chooseWalk rest (c.returns.foldl (fun s r => addUniq s r.typeStr) acc.2))
            = c :: chooseWalk rest (c.returns.foldl (fun s r => addUniq s r.typeStr) acc.2)
        rw [if_neg h]
      rw [hs, hw]
      simp [List.append_assoc]

theorem funcPriority_le_trans (pkgName : Str) (a b c : Provider)
    (h1 : Nat.ble (funcPriority pkgName a.funcName) (funcPriority pkgName b.funcName) = true)
    (h2 : Nat.ble (funcPriority pkgName b.funcName) (funcPriority pkgName c.funcName) = true) :
    Nat.ble (funcPriority pkgName a.funcName) (funcPriority pkgName c.funcName) = true := by
  rw [Nat.ble_eq] at *
  exact Nat.le_trans h1 h2

theorem funcPriority_le_total (pkgName : Str) (a b : Provider) :
    Nat.ble (funcPriority pkgName a.funcName) (funcPriority pkgName b.funcName) = true
    ∨ Nat.ble (funcPriority pkgName b.funcName) (funcPriority pkgName a.funcName) = true := by
  rcases Nat.le_total (funcPriority pkgName a.funcName) (funcPriority pkgName b.funcName)
    with h | h
  · exact Or.inl (Nat.ble_eq.mpr h)
  · exact Or.inr (Nat.ble_eq.mpr h)

/-- C9: per-package selection equals the always-include providers followed
by the priority-ordered candidate walk seeded with the always-include
return types; the walked list is sorted by `funcPriority` and is a
permutation of the candidates; the provided seed is exactly the union of
always-include returns; and `funcPriority` implements the four priority
classes of the claim. -/
theorem extractProviders_selection :
    (∀ (pkgName : Str) (alwaysInclude cands : List Provider),
      selectProviders pkgName alwaysInclude cands =
        alwaysInclude ++ chooseWalk
          (sortBy (fun a b => Nat.ble (funcPriority pkgName a.funcName)
            (funcPriority pkgName b.funcName)) cands)
          (returnsUnion alwaysInclude))
    ∧ (∀ (pkgName : Str) (cands : List Provider),
        (sortBy (fun a b => Nat.ble (funcPriority pkgName a.funcName)
            (funcPriority pkgName b.funcName)) cands).Pairwise
          (fun a b => funcPriority pkgName a.funcName ≤ funcPriority pkgName b.funcName)
        ∧ ∀ c, c ∈ sortBy (fun a b => Nat.ble (funcPriority pkgName a.funcName)
            (funcPriority pkgName b.funcName)) cands ↔ c ∈ cands)
    ∧ (∀ (alwaysInclude : List Provider) (x : Str),
        x ∈ returnsUnion alwaysInclude ↔
          ∃ p ∈ alwaysInclude, ∃ r ∈ p.returns, x = r.typeStr)
    ∧ (∀ (pkgName funcName : Str),
        (funcPriority pkgName funcName = 0 ↔
          goEqualFold (goTrimPre funcName "New".data) pkgName = true)
        ∧ (funcPriority pkgName funcName = 1 ↔
            goEqualFold (goTrimPre funcName "New".data) pkgName = false
            ∧ goTrimPre funcName "New".data = [])
        ∧ (funcPriority pkgName funcName = 2 ↔
            goEqualFold (goTrimPre funcName "New".data) pkgName = false
            ∧ goTrimPre funcName "New".data ≠ []
            ∧ goTrimPre funcName "New".data = "Service".data)
        ∧ (funcPriority pkgName funcName = 3 ↔
            goEqualFold (goTrimPre funcName "New".data) pkgName = false
            ∧ goTrimPre funcName "New".data ≠ []
            ∧ goTrimPre funcName "New".data ≠ "Service".data)) := by
  refine ⟨?_, ?_, mem_returnsUnion, ?_⟩
  · intro pkgName alwaysInclude cands
    unfold selectProviders
    rw [selectFold_eq]
  · intro pkgName cands
    constructor
    · have h := sortBy_pairwise
        (fun a b : Provider =>
          Nat.ble (funcPriority pkgName a.funcName) (funcPriority pkgName b.funcName))
        (funcPriority_le_trans pkgName) (funcPriority_le_total pkgName) cands
      exact h.imp (fun hab => Nat.ble_eq.mp hab)
    · intro c
      exact mem_sortBy _ cands c
  · intro pkgName funcName
    simp only [funcPriority]
    split_ifs with h1 h2 h3
    · refine ⟨⟨fun _ => h1, fun _ => rfl⟩,
        ⟨fun h => absurd h (by decide), fun hc => Bool.noConfusion (h1.symm.trans hc.1)⟩,
        ⟨fun h => absurd h (by decide), fun hc => Bool.noConfusion (h1.symm.trans hc.1)⟩,
        ⟨fun h => absurd h (by decide), fun hc => Bool.noConfusion (h1.symm.trans hc.1)⟩⟩
    · have h1b : goEqualFold (goTrimPre funcName "New".data) pkgName = false := by
        simpa using h1
      have h2b : goTrimPre funcName "New".data = [] := by simpa using h2
      exact ⟨⟨fun h => absurd h (by decide), fun hc => Bool.noConfusion (h1b.symm.trans hc)⟩,
        ⟨fun _ => ⟨h1b, h2b⟩, fun _ => rfl⟩,
        ⟨fun h => absurd h (by decide), fun hc => absurd h2b hc.2.1⟩,
        ⟨fun h => absurd h (by decide), fun hc => absurd h2b hc.2.1⟩⟩
    · have h1b : goEqualFold (goTrimPre funcName "New".data) pkgName = false := by
        simpa using h1
      have h2b : goTrimPre funcName "New".data ≠ [] := by simpa using h2
      have h3b : goTrimPre funcName "New".data = "Service".data := by simpa using h3
      exact ⟨⟨fun h => absurd h (by decide), fun hc => Bool.noConfusion (h1b.symm.trans hc)⟩,
        ⟨fun h => absurd h (by decide), fun hc => absurd hc.2 h2b⟩,
        ⟨fun _ => ⟨h1b, h2b, h3b⟩, fun _ => rfl⟩,
        ⟨fun h => absurd h (by decide), fun hc => absurd h3b hc.2.2⟩⟩
    · have h1b : goEqualFold (goTrimPre funcName "New".data) pkgName = false := by
        simpa using h1
      have h2b : goTrimPre funcName "New".data ≠ [] := by simpa using h2
      have h3b : goTrimPre funcName "New".data ≠ "Service".data := by simpa using h3
      exact ⟨⟨fun h => absurd h (by decide), fun hc => Bool.noConfusion (h1b.symm.trans hc)⟩,
        ⟨fun h => absurd h (by decide), fun hc => absurd hc.2 h2b⟩,
        ⟨fun h => absurd h (by decide), fun hc => absurd hc.2.2 h3b⟩,
        ⟨fun _ => ⟨h1b, h2b, h3b⟩, fun _ => rfl⟩⟩

/-- The redisx-style dedup scenario from the scanner's comments:
`New() → (UniversalClient, Locker)` subsumes `NewLocker() → Locker`. -/
def pNewRx : Provider :=
  { funcName := "New".data, pkgPath := "m/redisx".data, pkgName := "redisx".data
    returns := [cRef "m/redisx.UniversalClient".data, cRef "*m/redisx.Locker".data] }

def pNewLocker : Provider :=
  { funcName := "NewLocker".data, pkgPath := "m/redisx".data, pkgName := "redisx".data
    returns := [cRef "*m/redisx.Locker".data] }

/-- Witness for C9: the subsumption scenario, with the selection equation
obtained from the theorem. -/
theorem extractProviders_selection_witness :
    selectProviders "redisx".data [] [pNewLocker, pNewRx] = [pNewRx]
    ∧ selectProviders "redisx".data [] [pNewLocker, pNewRx] =
        [] ++ chooseWalk
          (sortBy (fun a b => Nat.ble (funcPriority "redisx".data a.funcName)
            (funcPriority "redisx".data b.funcName)) [pNewLocker, pNewRx])
          (returnsUnion []) :=
  ⟨by decide, extractProviders_selection.1 "redisx".data [] [pNewLocker, pNewRx]⟩

end Autodi

namespace Autodi

/-! ## Lemmas about phase 2 (claims C1, C10) -/

theorem registerRet_pm_pres (p : Provider) (st : Phase2St) (ret : TypeRef) (k : Str)
    (q : Provider) (h : lookupA st.pm k = some q) :
    lookupA (registerRet p st ret).pm k = some q := by
  unfold registerRet
  by_cases hg : p.groups.length > 0
  · rw [if_pos hg]; exact h
  · rw [if_neg hg]
    cases hl : lookupA st.pm ret.typeStr with
    | some existing => exact h
    | none =>
      show lookupA (insertA st.pm ret.typeStr p) k = some q
      rw [lookupA_insertA]
      have hk : k ≠ ret.typeStr := by
        intro he
        rw [he, hl] at h
        cases h
      rw [if_neg hk]
      exact h

theorem regRets_pm_pres (p : Provider) (rets : List TypeRef) :
    ∀ (st : Phase2St) (k : Str) (q : Provider), lookupA st.pm k = some q →
      lookupA (rets.foldl (registerRet p) st).pm k = some q := by
  induction rets with
  | nil => intro st k q h; exact h
  | cons r rs ih =>
    intro st k q h
    rw [List.foldl_cons]
    exact ih _ k q (registerRet_pm_pres p st r k q h)

theorem registerProvider_pm_pres (st : Phase2St) (p : Provider) (k : Str) (q : Provider)
    (h : lookupA st.pm k = some q) : lookupA (registerProvider st p).pm k = some q := by
  unfold registerProvider
  by_cases hi : p.isInvoke
  · rw [if_pos hi]; exact h
  · rw [if_neg hi]
    exact regRets_pm_pres p p.returns st k q h

theorem phase2_fold_pm_pres (l : List Provider) :
    ∀ (st : Phase2St) (k : Str) (q : Provider), lookupA st.pm k = some q →
      lookupA (l.foldl registerProvider st).pm k = some q := by
  induction l with
  | nil => intro st k q h; exact h
  | cons p rest ih =>
    intro st k q h
    rw [List.foldl_cons]
    exact ih _ k q (registerProvider_pm_pres st p k q h)

theorem registerRet_errs_ext (p : Provider) (st : Phase2St) (ret : TypeRef) :
    ∃ t, (registerRet p st ret).errs = st.errs ++ t := by
  unfold registerRet
  by_cases hg : p.groups.length > 0
  · rw [if_pos hg]; exact ⟨[], by simp⟩
  · rw [if_neg hg]
    cases hl : lookupA st.pm ret.typeStr with
    | some existing => exact ⟨[.dupProvider ret.typeStr existing p], rfl⟩
    | none => exact ⟨[], by simp⟩

theorem regRets_errs_ext (p : Provider) (rets : List TypeRef) :
    ∀ st : Phase2St, ∃ t, (rets.foldl (registerRet p) st).errs = st.errs ++ t := by
  induction rets with
  | nil => intro st; exact ⟨[], by simp⟩
  | cons r rs ih =>
    intro st
    rw [List.foldl_cons]
    obtain ⟨t1, h1⟩ := registerRet_errs_ext p st r
    obtain ⟨t2, h2⟩ := ih (registerRet p st r)
    exact ⟨t1 ++ t2, by rw [h2, h1, List.append_assoc]⟩

theorem registerProvider_errs_ext (st : Phase2St) (p : Provider) :
    ∃ t, (registerProvider st p).errs = st.errs ++ t := by
  unfold registerProvider
  by_cases hi : p.isInvoke
  · rw [if_pos hi]; exact ⟨[], by simp⟩
  · rw [if_neg hi]
    exact regRets_errs_ext p p.returns st

theorem phase2_fold_errs_ext (l : List Provider) :
    ∀ st : Phase2St, ∃ t, (l.foldl registerProvider st).errs = st.errs ++ t := by
  induction l with
  | nil => intro st; exact ⟨[], by simp⟩
  | cons p rest ih =>
    intro st
    rw [List.foldl_cons]
    obtain ⟨t1, h1⟩ := registerProvider_errs_ext st p
    obtain ⟨t2, h2⟩ := ih (registerProvider st p)
    exact ⟨t1 ++ t2, by rw [h2, h1, List.append_assoc]⟩

/-- If registration of a provider's returns added no error, every one of
those returns is registered to that provider in the resulting map. -/
theorem regRets_register (p : Provider) (hgrp : p.groups = []) (rets : List TypeRef) :
    ∀ st : Phase2St,
      (rets.foldl (registerRet p) st).errs.length = st.errs.length →
      ∀ ret ∈ rets, lookupA (rets.foldl (registerRet p) st).pm ret.typeStr = some p := by
  induction rets with
  | nil => intro st _ ret h; cases h
  | cons r rs ih =>
    intro st hlen ret hret
    rw [List.foldl_cons] at hlen ⊢
    have hng : ¬p.groups.length > 0 := by rw [hgrp]; simp
    cases hl : lookupA st.pm r.typeStr with
    | some existing =>
      exfalso
      have hstep : (registerRet p st r).errs = st.errs ++ [.dupProvider r.typeStr existing p] := by
        unfold registerRet
        rw [if_neg hng, hl]
      obtain ⟨t2, h2⟩ := regRets_errs_ext p rs (registerRet p st r)
      rw [h2, hstep] at hlen
      simp [List.length_append] at hlen
    | none =>
      have hstep : (registerRet p st r).pm = insertA st.pm r.typeStr p ∧
          (registerRet p st r).errs = st.errs := by
        unfold registerRet
        rw [if_neg hng, hl]
        exact ⟨rfl, rfl⟩
      rcases List.mem_cons.mp hret with hr | hr
      · subst hr
        apply regRets_pm_pres p rs
        rw [hstep.1, lookupA_insertA]
        simp
      · apply ih (registerRet p st r) _ ret hr
        rw [hstep.2]
        exact hlen

/-- Phase 2 registration at the provider level, given no error was added
across the whole fold. -/
theorem phase2_fold_register (l : List Provider) :
    ∀ st : Phase2St,
      (l.foldl registerProvider st).errs.length = st.errs.length →
      ∀ p ∈ l, p.isInvoke = false → p.groups = [] →
        ∀ ret ∈ p.returns, lookupA (l.foldl registerProvider st).pm ret.typeStr = some p := by
  induction l with
  | nil => intro st _ p h; cases h
  | cons p0 rest ih =>
    intro st hlen p hp hinv hgrp ret hret
    rw [List.foldl_cons] at hlen ⊢
    have hmono1 : st.errs.length ≤ (registerProvider st p0).errs.length := by
      obtain ⟨t, ht⟩ := registerProvider_errs_ext st p0
      rw [ht]; simp
    have hmono2 : (registerProvider st p0).errs.length ≤
        (rest.foldl registerProvider (registerProvider st p0)).errs.length := by
      obtain ⟨t, ht⟩ := phase2_fold_errs_ext rest (registerProvider st p0)
      rw [ht]; simp
    have heq1 : (registerProvider st p0).errs.length = st.errs.length := by omega
    have heq2 : (rest.foldl registerProvider (registerProvider st p0)).errs.length =
        (registerProvider st p0).errs.length := by omega
    rcases List.mem_cons.mp hp with hp | hp
    · subst hp
      have hreg : ∀ r ∈ p.returns,
          lookupA (registerProvider st p).pm r.typeStr = some p := by
        intro r hr
        have : registerProvider st p = p.returns.foldl (registerRet p) st := by
          unfold registerProvider
          rw [if_neg (by rw [hinv]; simp)]
        rw [this]
        apply regRets_register p hgrp p.returns st _ r hr
        rw [← this]
        exact heq1
      exact phase2_fold_pm_pres rest _ ret.typeStr p (hreg ret hret)
    · exact ih _ heq2 p hp hinv hgrp ret hret

end Autodi

namespace Autodi

/-! ## Stability of the provider map across binding resolution (claim C1) -/

/-- Binding resolution only re-points provider-map keys that it also adds
to the bindings map: any key absent from the final bindings map keeps its
phase-2 provider-map entry.  `StableB g g'` captures one such step. -/
def StableB (g g' : Graph) : Prop :=
  g'.providers = g.providers
  ∧ ∀ k, containsKeyA g'.bindings k = false →
      containsKeyA g.bindings k = false ∧ lookupA g'.providerMap k = lookupA g.providerMap k

theorem StableB_refl (g : Graph) : StableB g g :=
  ⟨rfl, fun _ h => ⟨h, rfl⟩⟩

theorem StableB_trans {g1 g2 g3 : Graph} (h12 : StableB g1 g2) (h23 : StableB g2 g3) :
    StableB g1 g3 := by
  refine ⟨h23.1.trans h12.1, fun k hk => ?_⟩
  obtain ⟨hk2, hl2⟩ := h23.2 k hk
  obtain ⟨hk1, hl1⟩ := h12.2 k hk2
  exact ⟨hk1, hl2.trans hl1⟩

theorem foldl_stable_pair {β : Type}
    (f : Graph × List BuildErr → β → Graph × List BuildErr)
    (hf : ∀ acc b, StableB acc.1 (f acc b).1) :
    ∀ (l : List β) (acc : Graph × List BuildErr), StableB acc.1 (l.foldl f acc).1 := by
  intro l
  induction l with
  | nil => intro acc; exact StableB_refl _
  | cons b rest ih =>
    intro acc
    rw [List.foldl_cons]
    exact StableB_trans (hf acc b) (ih (f acc b))

theorem foldl_stable_graph {β : Type} (f : Graph → β → Graph)
    (hf : ∀ g b, StableB g (f g b)) :
    ∀ (l : List β) (g : Graph), StableB g (l.foldl f g) := by
  intro l
  induction l with
  | nil => intro g; exact StableB_refl _
  | cons b rest ih =>
    intro g
    rw [List.foldl_cons]
    exact StableB_trans (hf g b) (ih (f g b))

theorem resolveConfigType_keeps (g : Graph) (s : Str) :
    (resolveConfigType g s).2.providers = g.providers
    ∧ (resolveConfigType g s).2.providerMap = g.providerMap
    ∧ (resolveConfigType g s).2.bindings = g.bindings := by
  refine ⟨?_, ?_, ?_⟩ <;>
    · unfold resolveConfigType
      dsimp only
      repeat' split
      all_goals rfl

theorem bindOneIface_stable (cf : Str) (acc : Graph × List BuildErr) (i : Str) :
    StableB acc.1 (bindOneIface cf acc i).1 := by
  obtain ⟨hprov, hpm, hbind⟩ := resolveConfigType_keeps acc.1 i
  unfold bindOneIface
  dsimp only
  by_cases hc : containsKeyA (resolveConfigType acc.1 i).2.bindings (resolveConfigType acc.1 i).1
  · rw [if_pos hc]
    exact ⟨hprov, fun k hk => ⟨by rw [← hbind]; exact hk, by rw [hpm]⟩⟩
  · rw [if_neg hc]
    cases hl : lookupA (resolveConfigType acc.1 i).2.providerMap cf with
    | some provider =>
      refine ⟨hprov, fun k hk => ?_⟩
      replace hk : containsKeyA
          (insertA (resolveConfigType acc.1 i).2.bindings (resolveConfigType acc.1 i).1 cf) k
          = false := hk
      obtain ⟨hk1, hk2⟩ := not_containsKeyA_insertA hk
      constructor
      · rw [← hbind]; exact hk1
      · show lookupA
            (insertA (resolveConfigType acc.1 i).2.providerMap (resolveConfigType acc.1 i).1
              provider) k = _
        rw [lookupA_insertA, if_neg hk2, hpm]
    | none =>
      refine ⟨hprov, fun k hk => ?_⟩
      replace hk : containsKeyA
          (insertA (resolveConfigType acc.1 i).2.bindings (resolveConfigType acc.1 i).1 cf) k
          = false := hk
      obtain ⟨hk1, hk2⟩ := not_containsKeyA_insertA hk
      constructor
      · rw [← hbind]; exact hk1
      · rw [hpm]

theorem bindConfigEntry_stable (acc : Graph × List BuildErr) (e : Str × List Str) :
    StableB acc.1 (bindConfigEntry acc e).1 := by
  unfold bindConfigEntry
  obtain ⟨hprov, hpm, hbind⟩ := resolveConfigType_keeps acc.1 e.1
  have h1 : StableB acc.1 (resolveConfigType acc.1 e.1).2 :=
    ⟨hprov, fun k hk => ⟨by rw [← hbind]; exact hk, by rw [hpm]⟩⟩
  exact StableB_trans h1
    (foldl_stable_pair (bindOneIface (resolveConfigType acc.1 e.1).1)
      (bindOneIface_stable (resolveConfigType acc.1 e.1).1) e.2
      ((resolveConfigType acc.1 e.1).2, acc.2))

theorem resolveBindingsStep1_stable (g : Graph) : StableB g (resolveBindingsStep1 g).1 :=
  foldl_stable_pair bindConfigEntry bindConfigEntry_stable g.cfg.bindings (g, [])

theorem bindAnnotTarget_stable (p : Provider) (g : Graph) (target : Str) :
    StableB g (bindAnnotTarget p g target) := by
  unfold bindAnnotTarget
  by_cases hc : containsKeyA g.bindings target
  · rw [if_pos hc]; exact StableB_refl g
  · rw [if_neg hc]
    cases p.returns with
    | nil => exact StableB_refl g
    | cons r0 rest =>
      refine ⟨rfl, fun k hk => ?_⟩
      simp only at hk
      obtain ⟨hk1, hk2⟩ := not_containsKeyA_insertA hk
      refine ⟨hk1, ?_⟩
      show lookupA (insertA g.providerMap target p) k = _
      rw [lookupA_insertA, if_neg hk2]

theorem resolveBindingsStep2_stable (g : Graph) (provs : List Provider) :
    StableB g (resolveBindingsStep2 g provs) :=
  foldl_stable_graph _
    (fun g p => foldl_stable_graph (bindAnnotTarget p) (bindAnnotTarget_stable p)
      (GetAnnotationValues p.annots annotBind) g)
    provs g

theorem autoBindOne_stable (g : Graph) (e : Str × GoTy) : StableB g (autoBindOne g e) := by
  unfold autoBindOne
  cases underlyingIface e.2 with
  | none => exact StableB_refl g
  | some ms =>
    dsimp only
    cases hc : autoCandidates g.providerMap ms with
    | nil => exact StableB_refl g
    | cons c rest =>
      cases rest with
      | nil =>
        dsimp only
        refine ⟨rfl, fun k hk => ?_⟩
        replace hk : containsKeyA (insertA g.bindings e.1 c.1) k = false := hk
        obtain ⟨hk1, hk2⟩ := not_containsKeyA_insertA hk
        refine ⟨hk1, ?_⟩
        show lookupA (insertA g.providerMap e.1 c.2) k = _
        rw [lookupA_insertA, if_neg hk2]
      | cons c2 rest2 => exact StableB_refl g

theorem autoDetectBindings_stable (g : Graph) (provs : List Provider) :
    StableB g (autoDetectBindings g provs) :=
  foldl_stable_graph autoBindOne autoBindOne_stable (collectNeededIfaces g provs) g

theorem resolveBindings_stable (g : Graph) (provs : List Provider) :
    StableB g (resolveBindings g provs).1 := by
  unfold resolveBindings
  exact StableB_trans (resolveBindingsStep1_stable g)
    (StableB_trans (resolveBindingsStep2_stable (resolveBindingsStep1 g).1 provs)
      (autoDetectBindings_stable (resolveBindingsStep2 (resolveBindingsStep1 g).1 provs) provs))

end Autodi

namespace Autodi

theorem phase2_contains_pres (l : List Provider) (st : Phase2St) (k : Str)
    (h : containsKeyA st.pm k = true) :
    containsKeyA (l.foldl registerProvider st).pm k = true := by
  rw [containsKeyA_isSome] at h ⊢
  cases hl : lookupA st.pm k with
  | none => rw [hl] at h; cases h
  | some q => rw [phase2_fold_pm_pres l st k q hl]; rfl

theorem regRets_contains (p : Provider) (hgrp : p.groups = []) (rets : List TypeRef) :
    ∀ (st : Phase2St) (r : TypeRef), r ∈ rets →
      containsKeyA ((rets.foldl (registerRet p) st)).pm r.typeStr = true := by
  induction rets with
  | nil => intro st r h; cases h
  | cons a rs ih =>
    intro st r hr
    rw [List.foldl_cons]
    have hng : ¬p.groups.length > 0 := by rw [hgrp]; simp
    rcases List.mem_cons.mp hr with hr | hr
    · subst hr
      have hcont : containsKeyA (registerRet p st r).pm r.typeStr = true := by
        unfold registerRet
        rw [if_neg hng]
        cases hl : lookupA st.pm r.typeStr with
        | some existing =>
          rw [containsKeyA_isSome, hl]
          rfl
        | none =>
          show containsKeyA (insertA st.pm r.typeStr p) r.typeStr = true
          rw [containsKeyA_insertA]
          simp
      rw [containsKeyA_isSome] at hcont ⊢
      cases hl2 : lookupA (registerRet p st r).pm r.typeStr with
      | none => rw [hl2] at hcont; cases hcont
      | some q => rw [regRets_pm_pres p rs _ _ q hl2]; rfl
    · exact ih _ r hr

theorem registerProvider_contains (st : Phase2St) (p : Provider) (hinv : p.isInvoke = false)
    (hgrp : p.groups = []) (r : TypeRef) (hr : r ∈ p.returns) :
    containsKeyA (registerProvider st p).pm r.typeStr = true := by
  unfold registerProvider
  rw [if_neg (by rw [hinv]; simp)]
  exact regRets_contains p hgrp p.returns st r hr

theorem registerRet_pm_val (p : Provider) (st : Phase2St) (ret : TypeRef) (k : Str)
    (q : Provider) (h : lookupA (registerRet p st ret).pm k = some q) :
    lookupA st.pm k = some q ∨ (q = p ∧ p.groups = [] ∧ ret.typeStr = k) := by
  unfold registerRet at h
  by_cases hg : p.groups.length > 0
  · rw [if_pos hg] at h; exact Or.inl h
  · rw [if_neg hg] at h
    have hgrp : p.groups = [] := by
      rcases List.eq_nil_or_concat p.groups with hh | ⟨l2, a, hh⟩
      · exact hh
      · exfalso; apply hg; rw [hh]; simp
    cases hl : lookupA st.pm ret.typeStr with
    | some existing =>
      rw [hl] at h
      exact Or.inl h
    | none =>
      rw [hl] at h
      replace h : lookupA (insertA st.pm ret.typeStr p) k = some q := h
      rw [lookupA_insertA] at h
      by_cases hk : k = ret.typeStr
      · rw [if_pos hk] at h
        cases h
        exact Or.inr ⟨rfl, hgrp, hk.symm⟩
      · rw [if_neg hk] at h
        exact Or.inl h

theorem regRets_pm_val (p : Provider) (rets : List TypeRef) :
    ∀ (st : Phase2St) (k : Str) (q : Provider),
      lookupA ((rets.foldl (registerRet p) st)).pm k = some q →
      lookupA st.pm k = some q ∨ (q = p ∧ p.groups = [] ∧ ∃ r ∈ rets, r.typeStr = k) := by
  induction rets with
  | nil => intro st k q h; exact Or.inl h
  | cons a rs ih =>
    intro st k q h
    rw [List.foldl_cons] at h
    rcases ih _ k q h with h2 | h2
    · rcases registerRet_pm_val p st a k q h2 with h3 | h3
      · exact Or.inl h3
      · exact Or.inr ⟨h3.1, h3.2.1, a, List.mem_cons_self _ _, h3.2.2⟩
    · exact Or.inr ⟨h2.1, h2.2.1, by
        obtain ⟨r, hr, he⟩ := h2.2.2
        exact ⟨r, List.mem_cons_of_mem _ hr, he⟩⟩

theorem registerProvider_pm_val (st : Phase2St) (p : Provider) (k : Str) (q : Provider)
    (h : lookupA (registerProvider st p).pm k = some q) :
    lookupA st.pm k = some q
    ∨ (q = p ∧ p.isInvoke = false ∧ p.groups = [] ∧ ∃ r ∈ p.returns, r.typeStr = k) := by
  unfold registerProvider at h
  by_cases hi : p.isInvoke
  · rw [if_pos hi] at h; exact Or.inl h
  · rw [if_neg hi] at h
    rcases regRets_pm_val p p.returns st k q h with h2 | h2
    · exact Or.inl h2
    · exact Or.inr ⟨h2.1, by simpa using hi, h2.2.1, h2.2.2⟩

theorem phase2_fold_pm_val (l : List Provider) :
    ∀ (st : Phase2St) (k : Str) (q : Provider),
      lookupA (l.foldl registerProvider st).pm k = some q →
      lookupA st.pm k = some q
      ∨ (q ∈ l ∧ q.isInvoke = false ∧ q.groups = [] ∧ ∃ r ∈ q.returns, r.typeStr = k) := by
  induction l with
  | nil => intro st k q h; exact Or.inl h
  | cons p rest ih =>
    intro st k q h
    rw [List.foldl_cons] at h
    rcases ih _ k q h with h2 | h2
    · rcases registerProvider_pm_val st p k q h2 with h3 | h3
      · exact Or.inl h3
      · exact Or.inr ⟨by rw [h3.1]; exact List.mem_cons_self _ _, by rw [h3.1]; exact h3.2.1,
          by rw [h3.1]; exact h3.2.2.1, by rw [h3.1]; exact h3.2.2.2⟩
    · exact Or.inr ⟨List.mem_cons_of_mem _ h2.1, h2.2.1, h2.2.2.1, h2.2.2.2⟩

theorem regRets_errs_mem (p : Provider) (rets : List TypeRef) (st : Phase2St)
    (x : BuildErr) (h : x ∈ st.errs) : x ∈ (rets.foldl (registerRet p) st).errs := by
  obtain ⟨t, ht⟩ := regRets_errs_ext p rets st
  rw [ht]
  exact List.mem_append_left _ h

theorem phase2_fold_errs_mem (l : List Provider) (st : Phase2St) (x : BuildErr)
    (h : x ∈ st.errs) : x ∈ (l.foldl registerProvider st).errs := by
  obtain ⟨t, ht⟩ := phase2_fold_errs_ext l st
  rw [ht]
  exact List.mem_append_left _ h

theorem regRets_conflict (p : Provider) (hgrp : p.groups = []) (rets : List TypeRef) :
    ∀ (st : Phase2St) (T : Str) (pf : Provider) (r : TypeRef), r ∈ rets → r.typeStr = T →
      lookupA st.pm T = some pf →
      BuildErr.dupProvider T pf p ∈ (rets.foldl (registerRet p) st).errs := by
  induction rets with
  | nil => intro st T pf r h; cases h
  | cons a rs ih =>
    intro st T pf r hr hT hl
    rw [List.foldl_cons]
    have hng : ¬p.groups.length > 0 := by rw [hgrp]; simp
    rcases List.mem_cons.mp hr with hr | hr
    · have ha : a.typeStr = T := by rw [← hr]; exact hT
      have hstep : (registerRet p st a).errs = st.errs ++ [.dupProvider T pf p] := by
        unfold registerRet
        rw [if_neg hng, ha, hl]
      apply regRets_errs_mem p rs
      rw [hstep]
      exact List.mem_append_right _ (List.mem_singleton.mpr rfl)
    · exact ih _ T pf r hr hT (registerRet_pm_pres p st a T pf hl)

theorem registerProvider_conflict (st : Phase2St) (p : Provider) (hinv : p.isInvoke = false)
    (hgrp : p.groups = []) (T : Str) (pf : Provider) (r : TypeRef) (hr : r ∈ p.returns)
    (hT : r.typeStr = T) (hl : lookupA st.pm T = some pf) :
    BuildErr.dupProvider T pf p ∈ (registerProvider st p).errs := by
  unfold registerProvider
  rw [if_neg (by rw [hinv]; simp)]
  exact regRets_conflict p hgrp p.returns st T pf r hr hT hl

end Autodi

namespace Autodi

theorem phase2_fold_contains (l : List Provider) :
    ∀ (st : Phase2St), ∀ p ∈ l, p.isInvoke = false → p.groups = [] →
      ∀ r ∈ p.returns, containsKeyA ((l.foldl registerProvider st)).pm r.typeStr = true := by
  induction l with
  | nil => intro st p h; cases h
  | cons p0 rest ih =>
    intro st p hp hinv hgrp r hr
    rw [List.foldl_cons]
    rcases List.mem_cons.mp hp with hp | hp
    · subst hp
      exact phase2_contains_pres rest _ _ (registerProvider_contains st p hinv hgrp r hr)
    · exact ih _ p hp hinv hgrp r hr

/-- Projections preserved by the type-index phase. -/
def KeepsPMB (g g' : Graph) : Prop :=
  g'.providers = g.providers ∧ g'.providerMap = g.providerMap ∧ g'.bindings = g.bindings

theorem KeepsPMB_refl (g : Graph) : KeepsPMB g g := ⟨rfl, rfl, rfl⟩

theorem KeepsPMB_trans {g1 g2 g3 : Graph} (h12 : KeepsPMB g1 g2) (h23 : KeepsPMB g2 g3) :
    KeepsPMB g1 g3 :=
  ⟨h23.1.trans h12.1, h23.2.1.trans h12.2.1, h23.2.2.trans h12.2.2⟩

theorem foldl_keeps {β : Type} (f : Graph → β → Graph) (hf : ∀ g b, KeepsPMB g (f g b)) :
    ∀ (l : List β) (g : Graph), KeepsPMB g (l.foldl f g) := by
  intro l
  induction l with
  | nil => intro g; exact KeepsPMB_refl g
  | cons b rest ih =>
    intro g
    rw [List.foldl_cons]
    exact KeepsPMB_trans (hf g b) (ih (f g b))

theorem indexTypeRef_keeps (g : Graph) (r : TypeRef) : KeepsPMB g (indexTypeRef g r) := by
  refine ⟨?_, ?_, ?_⟩ <;>
    · unfold indexTypeRef
      dsimp only
      repeat' split
      all_goals rfl

theorem buildTypeIndex_keeps (g : Graph) (provs : List Provider) :
    KeepsPMB g (buildTypeIndex g provs) := by
  unfold buildTypeIndex
  apply foldl_keeps
  intro g p
  refine @KeepsPMB_trans g
    { g with pkgNameToPath := insertA g.pkgNameToPath p.pkgName p.pkgPath } _
    ⟨rfl, rfl, rfl⟩ ?_
  exact KeepsPMB_trans (foldl_keeps indexTypeRef indexTypeRef_keeps p.returns _)
    (foldl_keeps indexTypeRef indexTypeRef_keeps p.params _)

theorem graphAfterPhase2_fields (provs : List Provider) (cfg : Config)
    (pkgIdx : List (Str × Str)) (ifts : List (Str × List Str)) :
    (graphAfterPhase2 provs cfg pkgIdx ifts).1.providers = provs.map (assignGroups cfg)
    ∧ (graphAfterPhase2 provs cfg pkgIdx ifts).1.providerMap =
        ((provs.map (assignGroups cfg)).foldl registerProvider ⟨[], [], []⟩).pm
    ∧ (graphAfterPhase2 provs cfg pkgIdx ifts).1.bindings = []
    ∧ (graphAfterPhase2 provs cfg pkgIdx ifts).2 =
        ((provs.map (assignGroups cfg)).foldl registerProvider ⟨[], [], []⟩).errs := by
  refine ⟨rfl, rfl, ?_, rfl⟩
  unfold graphAfterPhase2
  dsimp only
  exact (buildTypeIndex_keeps _ provs).2.2

theorem buildGraph_cases (provs : List Provider) (cfg : Config) (pkgIdx : List (Str × Str))
    (ifts : List (Str × List Str)) :
    buildGraph provs cfg pkgIdx ifts =
      if ((graphAfterPhase2 provs cfg pkgIdx ifts).2
          ++ (resolveBindings (graphAfterPhase2 provs cfg pkgIdx ifts).1
               (graphAfterPhase2 provs cfg pkgIdx ifts).1.providers).2).isEmpty
      then .ok (resolveBindings (graphAfterPhase2 provs cfg pkgIdx ifts).1
            (graphAfterPhase2 provs cfg pkgIdx ifts).1.providers).1
      else .error ((graphAfterPhase2 provs cfg pkgIdx ifts).2
          ++ (resolveBindings (graphAfterPhase2 provs cfg pkgIdx ifts).1
               (graphAfterPhase2 provs cfg pkgIdx ifts).1.providers).2) := rfl

end Autodi

namespace Autodi

/-- C1 counterexample fixtures: `NewI` returns the interface type
`m/a.I`; `NewQ` carries a `bind m/a.I` annotation.  The build succeeds and
the annotation step silently re-points `provider_map["m/a.I"]` from `NewI`
to `NewQ`. -/
def pI : Provider :=
  { funcName := "NewI".data, pkgPath := "m/i".data, pkgName := "i".data
    returns := [{ ty := GoTy.namedIface "I".data ["M".data], typeStr := "m/a.I".data
                  isIface := true }] }

def pQ : Provider :=
  { funcName := "NewQ".data, pkgPath := "m/q".data, pkgName := "q".data
    returns := [cRef "m/a.C".data], annots := [⟨annotBind, "m/a.I".data⟩] }

/-- Counterexample to C1 as stated: after a successful `BuildGraph`, the
non-grouped, non-invoke provider `NewI` has return type string `m/a.I`,
yet `provider_map["m/a.I"]` is `NewQ`, not `NewI` — a `bind` annotation
re-pointed the key without any error. -/
theorem buildGraph_provider_map_cex :
    (buildGraph [pI, pQ] cfgM [] []).toOption.map (fun g => g.providers) = some [pI, pQ]
    ∧ (buildGraph [pI, pQ] cfgM [] []).toOption.map
        (fun g => lookupA g.providerMap "m/a.I".data) = some (some pQ)
    ∧ pI.isInvoke = false ∧ pI.groups = []
    ∧ pI.returns.map (fun r => r.typeStr) = ["m/a.I".data]
    ∧ pQ ≠ pI := by decide

/-- C1 (amended): after a successful `BuildGraph`, every non-grouped,
non-invoke provider `P` owns `provider_map[T]` for each of its return type
strings `T` that is not a bindings key (config, annotation and auto
bindings may re-point keys they add to `bindings`); and whenever two
distinct non-grouped, non-invoke providers share a return type string, the
build fails with a duplicate-provider error naming the conflicting
provider together with the provider first registered for that string (for
three or more sharers, each later one is paired with the first). -/
theorem buildGraph_provider_map :
    (∀ (provs : List Provider) (cfg : Config) (pkgIdx : List (Str × Str))
        (ifts : List (Str × List Str)) (g : Graph),
      buildGraph provs cfg pkgIdx ifts = .ok g →
      ∀ p ∈ g.providers, p.isInvoke = false → p.groups = [] →
        ∀ ret ∈ p.returns, containsKeyA g.bindings ret.typeStr = false →
          lookupA g.providerMap ret.typeStr = some p)
    ∧ (∀ (provs : List Provider) (cfg : Config) (pkgIdx : List (Str × Str))
        (ifts : List (Str × List Str)) (T : Str) (i j : Nat)
        (hi : i < provs.length) (hj : j < provs.length), i < j →
        (assignGroups cfg (provs.get ⟨i, hi⟩)).isInvoke = false →
        (assignGroups cfg (provs.get ⟨i, hi⟩)).groups = [] →
        (assignGroups cfg (provs.get ⟨j, hj⟩)).isInvoke = false →
        (assignGroups cfg (provs.get ⟨j, hj⟩)).groups = [] →
        (∃ r ∈ (assignGroups cfg (provs.get ⟨i, hi⟩)).returns, r.typeStr = T) →
        (∃ r ∈ (assignGroups cfg (provs.get ⟨j, hj⟩)).returns, r.typeStr = T) →
        ∃ errs, buildGraph provs cfg pkgIdx ifts = .error errs
          ∧ ∃ pf, BuildErr.dupProvider T pf (assignGroups cfg (provs.get ⟨j, hj⟩)) ∈ errs
              ∧ pf ∈ provs.map (assignGroups cfg) ∧ pf.isInvoke = false ∧ pf.groups = []
              ∧ ∃ r ∈ pf.returns, r.typeStr = T) := by
  constructor
  · intro provs cfg pkgIdx ifts g hok p hp hinv hgrp ret hret hkb
    obtain ⟨hf1, hf2, hf3, hf4⟩ := graphAfterPhase2_fields provs cfg pkgIdx ifts
    rw [buildGraph_cases provs cfg pkgIdx ifts] at hok
    by_cases hE : ((graphAfterPhase2 provs cfg pkgIdx ifts).2
        ++ (resolveBindings (graphAfterPhase2 provs cfg pkgIdx ifts).1
             (graphAfterPhase2 provs cfg pkgIdx ifts).1.providers).2).isEmpty = true
    · rw [if_pos hE] at hok
      have hg : (resolveBindings (graphAfterPhase2 provs cfg pkgIdx ifts).1
          (graphAfterPhase2 provs cfg pkgIdx ifts).1.providers).1 = g := by
        injection hok
      obtain ⟨hEmpty1, _⟩ := List.append_eq_nil.mp (List.isEmpty_iff.mp hE)
      have hstable := resolveBindings_stable (graphAfterPhase2 provs cfg pkgIdx ifts).1
        (graphAfterPhase2 provs cfg pkgIdx ifts).1.providers
      have hpv : g.providers = (graphAfterPhase2 provs cfg pkgIdx ifts).1.providers := by
        rw [← hg]; exact hstable.1
      have hp1 : p ∈ provs.map (assignGroups cfg) := by
        rw [← hf1, ← hpv]; exact hp
      have hkb' := hstable.2 ret.typeStr (by rw [hg]; exact hkb)
      have hlk : lookupA g.providerMap ret.typeStr
          = lookupA (graphAfterPhase2 provs cfg pkgIdx ifts).1.providerMap ret.typeStr := by
        rw [← hg]; exact hkb'.2
      rw [hlk, hf2]
      apply phase2_fold_register (provs.map (assignGroups cfg)) ⟨[], [], []⟩ _ p hp1 hinv hgrp
        ret hret
      rw [← hf4, hEmpty1]
    · rw [if_neg hE] at hok
      cases hok
  · intro provs cfg pkgIdx ifts T i j hi hj hij hinvi hgrpi hinvj hgrpj hexi hexj
    obtain ⟨ri, hri, hTi⟩ := hexi
    obtain ⟨rj, hrj, hTj⟩ := hexj
    obtain ⟨hf1, hf2, hf3, hf4⟩ := graphAfterPhase2_fields provs cfg pkgIdx ifts
    have hi1 : i < (provs.map (assignGroups cfg)).length := by simpa using hi
    have hj1 : j < (provs.map (assignGroups cfg)).length := by simpa using hj
    have hgeti : (provs.map (assignGroups cfg))[i] = assignGroups cfg (provs.get ⟨i, hi⟩) := by
      rw [List.getElem_map]
      rfl
    have hgetj : (provs.map (assignGroups cfg))[j] = assignGroups cfg (provs.get ⟨j, hj⟩) := by
      rw [List.getElem_map]
      rfl
    -- the phase-2 state after the first j providers
    have hsplit : (provs.map (assignGroups cfg)).foldl registerProvider ⟨[], [], []⟩
        = ((provs.map (assignGroups cfg)).drop j).foldl registerProvider
            (((provs.map (assignGroups cfg)).take j).foldl registerProvider ⟨[], [], []⟩) := by
      rw [← List.foldl_append, List.take_append_drop]
    have hdrop : (provs.map (assignGroups cfg)).drop j
        = (provs.map (assignGroups cfg))[j] :: (provs.map (assignGroups cfg)).drop (j + 1) :=
      List.drop_eq_getElem_cons hj1
    have hitake : i < ((provs.map (assignGroups cfg)).take j).length := by
      simp only [List.length_take]
      omega
    have hmemi : assignGroups cfg (provs.get ⟨i, hi⟩) ∈ (provs.map (assignGroups cfg)).take j := by
      have : ((provs.map (assignGroups cfg)).take j)[i] = (provs.map (assignGroups cfg))[i] :=
        List.getElem_take (provs.map (assignGroups cfg))
      rw [← hgeti, ← this]
      exact List.getElem_mem hitake
    have hcov := phase2_fold_contains ((provs.map (assignGroups cfg)).take j) ⟨[], [], []⟩
      (assignGroups cfg (provs.get ⟨i, hi⟩)) hmemi hinvi hgrpi ri hri
    rw [hTi] at hcov
    rw [containsKeyA_isSome] at hcov
    cases hlf : lookupA (((provs.map (assignGroups cfg)).take j).foldl registerProvider
        ⟨[], [], []⟩).pm T with
    | none => rw [hlf] at hcov; cases hcov
    | some pf =>
      have hpfprops := phase2_fold_pm_val ((provs.map (assignGroups cfg)).take j) ⟨[], [], []⟩
        T pf hlf
      rcases hpfprops with hpf0 | hpfprops
      · cases hpf0
      have hconf := registerProvider_conflict
        (((provs.map (assignGroups cfg)).take j).foldl registerProvider ⟨[], [], []⟩)
        (assignGroups cfg (provs.get ⟨j, hj⟩)) hinvj hgrpj T pf rj hrj hTj hlf
      have hmemerr : BuildErr.dupProvider T pf (assignGroups cfg (provs.get ⟨j, hj⟩)) ∈
          ((provs.map (assignGroups cfg)).foldl registerProvider ⟨[], [], []⟩).errs := by
        rw [hsplit, hdrop, List.foldl_cons, hgetj]
        exact phase2_fold_errs_mem _ _ _ hconf
      have hmemerr2 : BuildErr.dupProvider T pf (assignGroups cfg (provs.get ⟨j, hj⟩)) ∈
          (graphAfterPhase2 provs cfg pkgIdx ifts).2 := by
        rw [hf4]
        exact hmemerr
      have hne : ((graphAfterPhase2 provs cfg pkgIdx ifts).2
          ++ (resolveBindings (graphAfterPhase2 provs cfg pkgIdx ifts).1
               (graphAfterPhase2 provs cfg pkgIdx ifts).1.providers).2).isEmpty = false := by
        cases hEE : ((graphAfterPhase2 provs cfg pkgIdx ifts).2
            ++ (resolveBindings (graphAfterPhase2 provs cfg pkgIdx ifts).1
                 (graphAfterPhase2 provs cfg pkgIdx ifts).1.providers).2).isEmpty with
        | false => rfl
        | true =>
          exfalso
          obtain ⟨h1, _⟩ := List.append_eq_nil.mp (List.isEmpty_iff.mp hEE)
          rw [h1] at hmemerr2
          cases hmemerr2
      refine ⟨(graphAfterPhase2 provs cfg pkgIdx ifts).2
          ++ (resolveBindings (graphAfterPhase2 provs cfg pkgIdx ifts).1
               (graphAfterPhase2 provs cfg pkgIdx ifts).1.providers).2, ?_, pf, ?_, ?_, ?_, ?_, ?_⟩
      · rw [buildGraph_cases provs cfg pkgIdx ifts, hne]
        rfl
      · exact List.mem_append_left _ hmemerr2
      · exact List.mem_of_mem_take hpfprops.1
      · exact hpfprops.2.1
      · exact hpfprops.2.2.1
      · exact hpfprops.2.2.2

/-- Witness for the amended C1: a two-provider build where both clauses of
the theorem are exercised — part (a) applied to the `NewA` chain graph,
and part (b) applied to the conflict scenario of two providers of `A`. -/
theorem buildGraph_provider_map_witness :
    (buildGraph [pA5, pB5] cfgM [] [] = .ok gAB
      ∧ pA5 ∈ gAB.providers ∧ pA5.isInvoke = false ∧ pA5.groups = []
      ∧ cRef "A".data ∈ pA5.returns
      ∧ containsKeyA gAB.bindings (cRef "A".data).typeStr = false
      ∧ lookupA gAB.providerMap (cRef "A".data).typeStr = some pA5)
    ∧ ∃ errs, buildGraph [pA5, pA5] cfgM [] [] = .error errs
        ∧ ∃ pf, BuildErr.dupProvider "A".data pf
              (assignGroups cfgM ([pA5, pA5].get ⟨1, by decide⟩)) ∈ errs
            ∧ pf ∈ [pA5, pA5].map (assignGroups cfgM) ∧ pf.isInvoke = false ∧ pf.groups = []
            ∧ ∃ r ∈ pf.returns, r.typeStr = "A".data :=
  ⟨⟨by decide, by decide, by decide, by decide, by decide, by decide,
    buildGraph_provider_map.1 [pA5, pB5] cfgM [] [] gAB (by decide) pA5 (by decide) (by decide)
      (by decide) (cRef "A".data) (by decide) (by decide)⟩,
    buildGraph_provider_map.2 [pA5, pA5] cfgM [] [] "A".data 0 1 (by decide) (by decide)
      (by decide) (by decide) (by decide) (by decide) (by decide)
      ⟨cRef "A".data, by decide, by decide⟩ ⟨cRef "A".data, by decide, by decide⟩⟩

end Autodi

namespace Autodi

/-! ## C10: `bind` annotation values are used verbatim as bindings keys -/

/-- C10 fixtures: `NewS` makes `m/a.I` known to the type index (so its
short form `a.I` has a canonical resolution), `NewW` binds the short form
`a.I` by annotation. -/
def pS : Provider :=
  { funcName := "NewS".data, pkgPath := "m/s".data, pkgName := "s".data
    returns := [{ ty := GoTy.named "SImpl".data [] [], typeStr := "m/a.I".data
                  isIface := false }] }

def pW : Provider :=
  { funcName := "NewW".data, pkgPath := "m/w".data, pkgName := "w".data
    returns := [cRef "m/a.C".data], annots := [⟨annotBind, "a.I".data⟩] }

def gSW : Graph := ((buildGraph [pS, pW] cfgM [] []).toOption).getD emptyGraph

/-- Members of an association list after an insert: old members, or the
inserted key. -/
theorem mem_insertA {α : Type} (m : List (Str × α)) (k : Str) (v : α) (e : Str × α)
    (h : e ∈ insertA m k v) : e ∈ m ∨ e.1 = k := by
  induction m with
  | nil =>
    simp only [insertA, List.mem_singleton] at h
    right
    rw [h]
  | cons e0 rest ih =>
    simp only [insertA] at h
    by_cases hb : (e0.1 == k) = true
    · rw [if_pos hb] at h
      rcases List.mem_cons.mp h with h1 | h1
      · right
        rw [h1]
      · left
        exact List.mem_cons_of_mem _ h1
    · rw [if_neg hb] at h
      rcases List.mem_cons.mp h with h1 | h1
      · left
        rw [h1]
        exact List.mem_cons_self _ _
      · rcases ih h1 with h2 | h2
        · left
          exact List.mem_cons_of_mem _ h2
        · right
          exact h2

/-- A `foldl` preserves any invariant its step preserves. -/
theorem foldl_pred {β γ : Type} (P : γ → Prop) (f : γ → β → γ)
    (hf : ∀ acc b, P acc → P (f acc b)) :
    ∀ (l : List β) (acc : γ), P acc → P (l.foldl f acc) := by
  intro l
  induction l with
  | nil => intro acc h; exact h
  | cons b rest ih =>
    intro acc h
    rw [List.foldl_cons]
    exact ih _ (hf acc b h)

/-- The per-parameter step of `collectNeededIfaces` only adds keys absent
from the bindings map. -/
theorem collectNeededStep_pres (g : Graph) (acc : List (Str × GoTy)) (param : TypeRef)
    (h : ∀ e ∈ acc, containsKeyA g.bindings e.1 = false) :
    ∀ e ∈ (if param.isIface then
             if containsKeyA g.bindings param.typeStr then acc
             else if containsKeyA g.providerMap param.typeStr then acc
             else insertA acc param.typeStr param.ty
           else acc), containsKeyA g.bindings e.1 = false := by
  intro e he
  by_cases hI : param.isIface = true
  · rw [if_pos hI] at he
    by_cases hB : containsKeyA g.bindings param.typeStr = true
    · rw [if_pos hB] at he
      exact h e he
    · rw [if_neg hB] at he
      by_cases hP : containsKeyA g.providerMap param.typeStr = true
      · rw [if_pos hP] at he
        exact h e he
      · rw [if_neg hP] at he
        rcases mem_insertA _ _ _ _ he with h3 | h3
        · exact h e h3
        · rw [h3]
          cases hx : containsKeyA g.bindings param.typeStr with
          | false => rfl
          | true => exact absurd hx hB
  · rw [if_neg hI] at he
    exact h e he

/-- Every key collected by the auto-binding needs pass is absent from the
bindings map of the graph the pass inspects. -/
theorem collectNeeded_key_absent (g : Graph) (provs : List Provider) :
    ∀ e ∈ collectNeededIfaces g provs, containsKeyA g.bindings e.1 = false := by
  unfold collectNeededIfaces
  have hbase : ∀ e ∈ ([] : List (Str × GoTy)), containsKeyA g.bindings e.1 = false :=
    fun e he => absurd he (List.not_mem_nil e)
  have hstep : ∀ (acc : List (Str × GoTy)) (p : Provider),
      (∀ e ∈ acc, containsKeyA g.bindings e.1 = false) →
      ∀ e ∈ p.params.foldl
          (fun acc param =>
            if param.isIface then
              if containsKeyA g.bindings param.typeStr then acc
              else if containsKeyA g.providerMap param.typeStr then acc
              else insertA acc param.typeStr param.ty
            else acc) acc,
        containsKeyA g.bindings e.1 = false := by
    intro acc p hp
    exact foldl_pred
      (fun acc : List (Str × GoTy) => ∀ e ∈ acc, containsKeyA g.bindings e.1 = false) _
      (fun acc2 param h2 => collectNeededStep_pres g acc2 param h2) p.params acc hp
  exact foldl_pred
    (fun acc : List (Str × GoTy) => ∀ e ∈ acc, containsKeyA g.bindings e.1 = false) _
    hstep provs [] hbase

/-- `autoBindOne` does not touch the bindings or provider-map entries of a
key different from the one it binds. -/
theorem autoBindOne_ne_key (g : Graph) (e : Str × GoTy) (v : Str) (hne : e.1 ≠ v) :
    lookupA (autoBindOne g e).bindings v = lookupA g.bindings v
    ∧ lookupA (autoBindOne g e).providerMap v = lookupA g.providerMap v := by
  unfold autoBindOne
  cases underlyingIface e.2 with
  | none => exact ⟨rfl, rfl⟩
  | some ms =>
    dsimp only
    cases hc : autoCandidates g.providerMap ms with
    | nil => exact ⟨rfl, rfl⟩
    | cons c rest =>
      cases rest with
      | nil =>
        dsimp only
        constructor
        · show lookupA (insertA g.bindings e.1 c.1) v = _
          rw [lookupA_insertA, if_neg (fun h => hne h.symm)]
        · show lookupA (insertA g.providerMap e.1 c.2) v = _
          rw [lookupA_insertA, if_neg (fun h => hne h.symm)]
      | cons c2 rest2 => exact ⟨rfl, rfl⟩

/-- Folding `autoBindOne` over keys all absent from `g0.bindings` leaves
the entries of a key present in `g0.bindings` untouched. -/
theorem autoBind_fold_fixed (g0 : Graph) (v : Str)
    (hv : containsKeyA g0.bindings v = true) :
    ∀ (L : List (Str × GoTy)), (∀ e ∈ L, containsKeyA g0.bindings e.1 = false) →
    ∀ (g : Graph),
      lookupA (L.foldl autoBindOne g).bindings v = lookupA g.bindings v
      ∧ lookupA (L.foldl autoBindOne g).providerMap v = lookupA g.providerMap v := by
  intro L
  induction L with
  | nil => intro _ g; exact ⟨rfl, rfl⟩
  | cons e rest ih =>
    intro hL g
    rw [List.foldl_cons]
    have hne : e.1 ≠ v := by
      intro h
      have h0 := hL e (List.mem_cons_self _ _)
      rw [h, hv] at h0
      cases h0
    obtain ⟨h1, h2⟩ := autoBindOne_ne_key g e v hne
    obtain ⟨h3, h4⟩ := ih (fun e' he' => hL e' (List.mem_cons_of_mem _ he')) (autoBindOne g e)
    exact ⟨h3.trans h1, h4.trans h2⟩

/-- Auto-detection never changes the entries of a key that is already a
bindings key when it starts. -/
theorem autoDetectBindings_fixed (g : Graph) (provs : List Provider) (v : Str)
    (hv : containsKeyA g.bindings v = true) :
    lookupA (autoDetectBindings g provs).bindings v = lookupA g.bindings v
    ∧ lookupA (autoDetectBindings g provs).providerMap v = lookupA g.providerMap v :=
  autoBind_fold_fixed g v hv (collectNeededIfaces g provs) (collectNeeded_key_absent g provs) g

/-- A `bind` annotation never changes the entries of a key already in the
bindings map. -/
theorem bindAnnotTarget_fixed (p : Provider) (g : Graph) (target v : Str)
    (hv : containsKeyA g.bindings v = true) :
    containsKeyA (bindAnnotTarget p g target).bindings v = true
    ∧ lookupA (bindAnnotTarget p g target).bindings v = lookupA g.bindings v
    ∧ lookupA (bindAnnotTarget p g target).providerMap v = lookupA g.providerMap v := by
  unfold bindAnnotTarget
  by_cases hc : containsKeyA g.bindings target = true
  · rw [if_pos hc]
    exact ⟨hv, rfl, rfl⟩
  · rw [if_neg hc]
    cases p.returns with
    | nil => exact ⟨hv, rfl, rfl⟩
    | cons r0 rest =>
      have hne : target ≠ v := by
        intro h
        rw [h] at hc
        exact hc hv
      refine ⟨?_, ?_, ?_⟩
      · show containsKeyA (insertA g.bindings target r0.typeStr) v = true
        rw [containsKeyA_insertA, hv]
        simp
      · show lookupA (insertA g.bindings target r0.typeStr) v = _
        rw [lookupA_insertA, if_neg (fun h => hne h.symm)]
      · show lookupA (insertA g.providerMap target p) v = _
        rw [lookupA_insertA, if_neg (fun h => hne h.symm)]

/-- Folding the `bind` targets of one provider keeps the entries of any
key already in the bindings map. -/
theorem bindTargets_fold_fixed (p : Provider) (v : Str) :
    ∀ (ts : List Str) (g : Graph), containsKeyA g.bindings v = true →
      containsKeyA (ts.foldl (bindAnnotTarget p) g).bindings v = true
      ∧ lookupA (ts.foldl (bindAnnotTarget p) g).bindings v = lookupA g.bindings v
      ∧ lookupA (ts.foldl (bindAnnotTarget p) g).providerMap v = lookupA g.providerMap v := by
  intro ts
  induction ts with
  | nil => intro g hv; exact ⟨hv, rfl, rfl⟩
  | cons t ts ih =>
    intro g hv
    rw [List.foldl_cons]
    obtain ⟨h1, h2, h3⟩ := bindAnnotTarget_fixed p g t v hv
    obtain ⟨h4, h5, h6⟩ := ih (bindAnnotTarget p g t) h1
    exact ⟨h4, h5.trans h2, h6.trans h3⟩

/-- The annotation pass keeps the entries of any key already in the
bindings map, whatever providers remain. -/
theorem step2_fold_fixed (v : Str) :
    ∀ (L : List Provider) (g : Graph), containsKeyA g.bindings v = true →
      containsKeyA ((L.foldl (fun g p => (GetAnnotationValues p.annots annotBind).foldl
          (bindAnnotTarget p) g) g)).bindings v = true
      ∧ lookupA ((L.foldl (fun g p => (GetAnnotationValues p.annots annotBind).foldl
          (bindAnnotTarget p) g) g)).bindings v = lookupA g.bindings v
      ∧ lookupA ((L.foldl (fun g p => (GetAnnotationValues p.annots annotBind).foldl
          (bindAnnotTarget p) g) g)).providerMap v = lookupA g.providerMap v := by
  intro L
  induction L with
  | nil => intro g hv; exact ⟨hv, rfl, rfl⟩
  | cons p L ih =>
    intro g hv
    rw [List.foldl_cons]
    obtain ⟨h1, h2, h3⟩ := bindTargets_fold_fixed p v (GetAnnotationValues p.annots annotBind) g hv
    obtain ⟨h4, h5, h6⟩ := ih _ h1
    exact ⟨h4, h5.trans h2, h6.trans h3⟩

end Autodi

namespace Autodi

/-- A `bind` annotation with a different target keeps a key absent from
the bindings map. -/
theorem bindAnnotTarget_absent (p : Provider) (g : Graph) (target v : Str) (hne : target ≠ v)
    (hv : containsKeyA g.bindings v = false) :
    containsKeyA (bindAnnotTarget p g target).bindings v = false := by
  unfold bindAnnotTarget
  by_cases hc : containsKeyA g.bindings target = true
  · rw [if_pos hc]
    exact hv
  · rw [if_neg hc]
    cases p.returns with
    | nil => exact hv
    | cons r0 rest =>
      show containsKeyA (insertA g.bindings target r0.typeStr) v = false
      rw [containsKeyA_insertA, hv]
      have hb : (v == target) = false := by
        simp only [beq_eq_false_iff_ne, ne_eq]
        exact fun h => hne h.symm
      rw [hb]
      rfl

/-- One provider's `bind` targets, none of which is `v`, keep `v` absent
from the bindings map. -/
theorem bindTargets_fold_absent (p : Provider) (v : Str) :
    ∀ (ts : List Str), ts.contains v = false → ∀ (g : Graph),
      containsKeyA g.bindings v = false →
      containsKeyA (ts.foldl (bindAnnotTarget p) g).bindings v = false := by
  intro ts
  induction ts with
  | nil => intro _ g hv; exact hv
  | cons t ts ih =>
    intro hcont g hv
    rw [List.foldl_cons]
    rw [List.contains_cons] at hcont
    simp only [Bool.or_eq_false_iff] at hcont
    obtain ⟨hb, hrest⟩ := hcont
    have hvt : v ≠ t := by
      simp only [beq_eq_false_iff_ne, ne_eq] at hb
      exact hb
    exact ih hrest _ (bindAnnotTarget_absent p g t v (Ne.symm hvt) hv)

/-- Providers none of whose `bind` targets is `v` keep `v` absent from the
bindings map through the annotation pass. -/
theorem step2_prefix_absent (v : Str) :
    ∀ (L : List Provider),
      (∀ p ∈ L, (GetAnnotationValues p.annots annotBind).contains v = false) →
      ∀ (g : Graph), containsKeyA g.bindings v = false →
      containsKeyA ((L.foldl (fun g p => (GetAnnotationValues p.annots annotBind).foldl
        (bindAnnotTarget p) g) g)).bindings v = false := by
  intro L
  induction L with
  | nil => intro _ g hv; exact hv
  | cons p L ih =>
    intro hL g hv
    rw [List.foldl_cons]
    exact ih (fun q hq => hL q (List.mem_cons_of_mem _ hq)) _
      (bindTargets_fold_absent p v _ (hL p (List.mem_cons_self _ _)) g hv)

/-- Folding the `bind` targets of a provider with a first return `r0` over
a graph where `v` is not yet bound registers `Bindings[v] = r0.typeStr`
and `ProviderMap[v] = p` as soon as `v` is among the targets. -/
theorem bindTargets_sets (p : Provider) (r0 : TypeRef) (rest : List TypeRef)
    (hr : p.returns = r0 :: rest) (v : Str) :
    ∀ (ts : List Str), v ∈ ts → ∀ (g : Graph), containsKeyA g.bindings v = false →
      containsKeyA (ts.foldl (bindAnnotTarget p) g).bindings v = true
      ∧ lookupA (ts.foldl (bindAnnotTarget p) g).bindings v = some r0.typeStr
      ∧ lookupA (ts.foldl (bindAnnotTarget p) g).providerMap v = some p := by
  intro ts
  induction ts with
  | nil => intro h; exact absurd h (List.not_mem_nil v)
  | cons t ts ih =>
    intro hmem g hv
    rw [List.foldl_cons]
    by_cases ht : t = v
    · rw [ht]
      have hstep : bindAnnotTarget p g v
          = { g with bindings := insertA g.bindings v r0.typeStr
                     providerMap := insertA g.providerMap v p } := by
        unfold bindAnnotTarget
        rw [hr, if_neg (by simp [hv])]
      rw [hstep]
      have h1 : containsKeyA (insertA g.bindings v r0.typeStr) v = true := by
        rw [containsKeyA_insertA]
        simp
      obtain ⟨h4, h5, h6⟩ := bindTargets_fold_fixed p v ts
        { g with bindings := insertA g.bindings v r0.typeStr
                 providerMap := insertA g.providerMap v p } h1
      refine ⟨h4, ?_, ?_⟩
      · rw [h5]
        show lookupA (insertA g.bindings v r0.typeStr) v = _
        rw [lookupA_insertA, if_pos rfl]
      · rw [h6]
        show lookupA (insertA g.providerMap v p) v = _
        rw [lookupA_insertA, if_pos rfl]
    · have hmem2 : v ∈ ts := by
        rcases List.mem_cons.mp hmem with h | h
        · exact absurd h.symm ht
        · exact h
      exact ih hmem2 _ (bindAnnotTarget_absent p g t v ht hv)

/-- The annotation pass over `pre ++ pj :: post`, where no provider of
`pre` targets `v`, `pj` does, and `v` starts unbound: `Bindings[v]` is
`pj`'s first return type string and `ProviderMap[v]` is `pj`. -/
theorem step2_sets (v : Str) (pj : Provider) (r0 : TypeRef) (rest : List TypeRef)
    (hr : pj.returns = r0 :: rest)
    (hmem : v ∈ GetAnnotationValues pj.annots annotBind) :
    ∀ (pre post : List Provider),
      (∀ p ∈ pre, (GetAnnotationValues p.annots annotBind).contains v = false) →
      ∀ (g : Graph), containsKeyA g.bindings v = false →
      containsKeyA (resolveBindingsStep2 g (pre ++ pj :: post)).bindings v = true
      ∧ lookupA (resolveBindingsStep2 g (pre ++ pj :: post)).bindings v = some r0.typeStr
      ∧ lookupA (resolveBindingsStep2 g (pre ++ pj :: post)).providerMap v = some pj := by
  intro pre post hpre g hv
  unfold resolveBindingsStep2
  rw [List.foldl_append, List.foldl_cons]
  have habs := step2_prefix_absent v pre hpre g hv
  obtain ⟨h1, h2, h3⟩ := bindTargets_sets pj r0 rest hr v
    (GetAnnotationValues pj.annots annotBind) hmem _ habs
  obtain ⟨h4, h5, h6⟩ := step2_fold_fixed v post _ h1
  exact ⟨h4, h5.trans h2, h6.trans h3⟩

end Autodi

namespace Autodi

/-- C10: a `bind` annotation value `v` is used verbatim as the bindings
key — no short-name-to-canonical resolution is applied to it.  If `v` is
not a bindings key when the provider's annotation is processed (it is not
a config-binding key and no earlier provider targets it), then after a
successful build `Bindings[v]` is the provider's first return type string
and `ProviderMap[v]` is that provider, even when `v` is a short form. -/
theorem bind_value_verbatim (provs : List Provider) (cfg : Config)
    (pkgIdx : List (Str × Str)) (ifts : List (Str × List Str)) (g : Graph) (v : Str)
    (j : Nat) (hj : j < provs.length) (r0 : TypeRef) (rest : List TypeRef)
    (hok : buildGraph provs cfg pkgIdx ifts = .ok g)
    (hr : (assignGroups cfg (provs.get ⟨j, hj⟩)).returns = r0 :: rest)
    (hmem : v ∈ GetAnnotationValues (assignGroups cfg (provs.get ⟨j, hj⟩)).annots annotBind)
    (hv0 : containsKeyA (resolveBindingsStep1
        (graphAfterPhase2 provs cfg pkgIdx ifts).1).1.bindings v = false)
    (hpre : ∀ p ∈ (provs.map (assignGroups cfg)).take j,
        (GetAnnotationValues p.annots annotBind).contains v = false) :
    lookupA g.bindings v = some r0.typeStr
    ∧ lookupA g.providerMap v = some (assignGroups cfg (provs.get ⟨j, hj⟩)) := by
  obtain ⟨hf1, hf2, hf3, hf4⟩ := graphAfterPhase2_fields provs cfg pkgIdx ifts
  rw [buildGraph_cases provs cfg pkgIdx ifts] at hok
  by_cases hE : ((graphAfterPhase2 provs cfg pkgIdx ifts).2
      ++ (resolveBindings (graphAfterPhase2 provs cfg pkgIdx ifts).1
           (graphAfterPhase2 provs cfg pkgIdx ifts).1.providers).2).isEmpty = true
  · rw [if_pos hE] at hok
    have hg : (resolveBindings (graphAfterPhase2 provs cfg pkgIdx ifts).1
        (graphAfterPhase2 provs cfg pkgIdx ifts).1.providers).1 = g := by
      injection hok
    have hgdef : g = autoDetectBindings
        (resolveBindingsStep2
          (resolveBindingsStep1 (graphAfterPhase2 provs cfg pkgIdx ifts).1).1
          (graphAfterPhase2 provs cfg pkgIdx ifts).1.providers)
        (graphAfterPhase2 provs cfg pkgIdx ifts).1.providers := by
      rw [← hg]
      rfl
    have hj1 : j < (provs.map (assignGroups cfg)).length := by simpa using hj
    have hgetj : (provs.map (assignGroups cfg))[j] = assignGroups cfg (provs.get ⟨j, hj⟩) := by
      rw [List.getElem_map]
      rfl
    have hsplit : (graphAfterPhase2 provs cfg pkgIdx ifts).1.providers
        = (provs.map (assignGroups cfg)).take j
          ++ assignGroups cfg (provs.get ⟨j, hj⟩)
            :: (provs.map (assignGroups cfg)).drop (j + 1) := by
      rw [hf1]
      conv_lhs => rw [← List.take_append_drop j (provs.map (assignGroups cfg))]
      rw [List.drop_eq_getElem_cons hj1, hgetj]
    obtain ⟨h1, h2, h3⟩ := step2_sets v (assignGroups cfg (provs.get ⟨j, hj⟩)) r0 rest hr hmem
      ((provs.map (assignGroups cfg)).take j) ((provs.map (assignGroups cfg)).drop (j + 1))
      hpre (resolveBindingsStep1 (graphAfterPhase2 provs cfg pkgIdx ifts).1).1 hv0
    rw [← hsplit] at h1 h2 h3
    obtain ⟨h5, h6⟩ := autoDetectBindings_fixed
      (resolveBindingsStep2
        (resolveBindingsStep1 (graphAfterPhase2 provs cfg pkgIdx ifts).1).1
        (graphAfterPhase2 provs cfg pkgIdx ifts).1.providers)
      (graphAfterPhase2 provs cfg pkgIdx ifts).1.providers v h1
    rw [hgdef]
    exact ⟨h5.trans h2, h6.trans h3⟩
  · rw [if_neg hE] at hok
    cases hok

/-- Witness for C10: `NewW` binds the short form `a.I` while the type
index resolves `a.I` to `m/a.I`; the bindings key stays the verbatim
`a.I`, mapped to `NewW`'s first return `m/a.C`. -/
theorem bind_value_verbatim_witness :
    buildGraph [pS, pW] cfgM [] [] = Except.ok gSW
    ∧ (assignGroups cfgM ([pS, pW].get ⟨1, by decide⟩)).returns = [cRef "m/a.C".data]
    ∧ "a.I".data ∈ GetAnnotationValues
        (assignGroups cfgM ([pS, pW].get ⟨1, by decide⟩)).annots annotBind
    ∧ lookupA gSW.shortToFull "a.I".data = some "m/a.I".data
    ∧ containsKeyA gSW.bindings "m/a.I".data = false
    ∧ lookupA gSW.bindings "a.I".data = some "m/a.C".data
    ∧ lookupA gSW.providerMap "a.I".data
        = some (assignGroups cfgM ([pS, pW].get ⟨1, by decide⟩)) := by
  refine ⟨by decide, by decide, by decide, by decide, by decide, ?_, ?_⟩
  · exact (bind_value_verbatim [pS, pW] cfgM [] [] gSW "a.I".data 1 (by decide)
      (cRef "m/a.C".data) [] (by decide) (by decide) (by decide) (by decide) (by decide)).1
  · exact (bind_value_verbatim [pS, pW] cfgM [] [] gSW "a.I".data 1 (by decide)
      (cRef "m/a.C".data) [] (by decide) (by decide) (by decide) (by decide) (by decide)).2

end Autodi

namespace Autodi

/-! ## C2: soundness of bindings entries -/

/-- The key list of an association list. -/
def keysOf {α : Type} (m : List (Str × α)) : List Str := m.map (fun e => e.1)

/-- No duplicate keys. -/
def keysNodup {α : Type} (m : List (Str × α)) : Prop := (keysOf m).Nodup

/-- C2 counterexample fixture: a config binding whose concrete type has no
provider at all. -/
def cfgB : Config := ⟨"m".data, [("m/x.C".data, ["m/x.I".data])], []⟩

def gB2 : Graph := ((buildGraph [] cfgB [] []).toOption).getD emptyGraph

theorem mem_keysOf {α : Type} (m : List (Str × α)) (k : Str) :
    k ∈ keysOf m ↔ containsKeyA m k = true := by
  induction m with
  | nil => simp [keysOf, containsKeyA]
  | cons e rest ih =>
    rw [containsKeyA_cons]
    simp only [keysOf, List.map_cons, List.mem_cons, Bool.or_eq_true, beq_iff_eq]
    constructor
    · rintro (h | h)
      · exact Or.inl h.symm
      · exact Or.inr ((ih).mp h)
    · rintro (h | h)
      · exact Or.inl h.symm
      · exact Or.inr ((ih).mpr h)

theorem keysOf_insertA {α : Type} (m : List (Str × α)) (k : Str) (v : α) :
    keysOf (insertA m k v)
      = if containsKeyA m k then keysOf m else keysOf m ++ [k] := by
  induction m with
  | nil => simp [insertA, keysOf, containsKeyA]
  | cons e rest ih =>
    rw [containsKeyA_cons]
    cases hbe : (e.1 == k) with
    | true =>
      have he : e.1 = k := by simpa using hbe
      simp [insertA, hbe, keysOf, he]
    | false =>
      simp only [insertA, hbe, Bool.false_eq_true, if_false, Bool.false_or]
      have hkc : keysOf (e :: insertA rest k v) = e.1 :: keysOf (insertA rest k v) := rfl
      rw [hkc, ih]
      cases hc : containsKeyA rest k with
      | true => rfl
      | false => rfl

theorem keysNodup_insertA {α : Type} (m : List (Str × α)) (k : Str) (v : α)
    (h : keysNodup m) : keysNodup (insertA m k v) := by
  unfold keysNodup
  rw [keysOf_insertA]
  cases hc : containsKeyA m k with
  | true => exact h
  | false =>
    simp only [Bool.false_eq_true, if_false]
    rw [List.nodup_append]
    refine ⟨h, List.nodup_singleton k, ?_⟩
    intro a ha hb
    rw [List.mem_singleton] at hb
    rw [hb] at ha
    rw [mem_keysOf, hc] at ha
    cases ha

theorem lookupA_of_mem_nodup {α : Type} (m : List (Str × α)) (k : Str) (v : α)
    (hnd : keysNodup m) (hmem : (k, v) ∈ m) : lookupA m k = some v := by
  induction m with
  | nil => exact absurd hmem (List.not_mem_nil _)
  | cons e rest ih =>
    rw [lookupA_cons]
    have hnd2 : keysNodup rest ∧ e.1 ∉ keysOf rest := by
      unfold keysNodup keysOf at hnd ⊢
      rw [List.map_cons, List.nodup_cons] at hnd
      exact ⟨hnd.2, hnd.1⟩
    rcases List.mem_cons.mp hmem with h | h
    · rw [← h]
      simp
    · cases hbe : (e.1 == k) with
      | true =>
        exfalso
        have he : e.1 = k := by simpa using hbe
        have : k ∈ keysOf rest := by
          unfold keysOf
          exact List.mem_map.mpr ⟨(k, v), h, rfl⟩
        rw [← he] at this
        exact hnd2.2 this
      | false => exact ih hnd2.1 h

/-- Members of the auto-binding candidate fold come from the accumulator
or are provider-map entries with a test-passing return. -/
theorem candFold_mem (ms : List Str) :
    ∀ (pmL : List (Str × Provider)) (acc : List (Str × Provider)) (c : Str × Provider),
      c ∈ pmL.foldl
          (fun acc e => if e.2.returns.any (autoCandTest ms) then acc ++ [e] else acc) acc →
      c ∈ acc ∨ (c ∈ pmL ∧ c.2.returns.any (autoCandTest ms) = true) := by
  intro pmL
  induction pmL with
  | nil => intro acc c h; exact Or.inl h
  | cons e rest ih =>
    intro acc c h
    rw [List.foldl_cons] at h
    by_cases ht : e.2.returns.any (autoCandTest ms) = true
    · rw [if_pos ht] at h
      rcases ih _ c h with h1 | h1
      · rcases List.mem_append.mp h1 with h2 | h2
        · exact Or.inl h2
        · rw [List.mem_singleton] at h2
          rw [h2]
          exact Or.inr ⟨List.mem_cons_self _ _, ht⟩
      · exact Or.inr ⟨List.mem_cons_of_mem _ h1.1, h1.2⟩
    · rw [if_neg ht] at h
      rcases ih _ c h with h1 | h1
      · exact Or.inl h1
      · exact Or.inr ⟨List.mem_cons_of_mem _ h1.1, h1.2⟩

theorem autoCandidates_mem (pm : List (Str × Provider)) (ms : List Str) (c : Str × Provider)
    (h : c ∈ autoCandidates pm ms) :
    c ∈ pm ∧ c.2.returns.any (autoCandTest ms) = true := by
  unfold autoCandidates at h
  rcases candFold_mem ms pm [] c h with h1 | h1
  · exact absurd h1 (List.not_mem_nil c)
  · exact h1

/-- Every key collected by the needs pass is also absent from the
provider map of the graph the pass inspects. -/
theorem collectNeeded_pm_absent (g : Graph) (provs : List Provider) :
    ∀ e ∈ collectNeededIfaces g provs, containsKeyA g.providerMap e.1 = false := by
  have hstep0 : ∀ (acc : List (Str × GoTy)) (param : TypeRef),
      (∀ e ∈ acc, containsKeyA g.providerMap e.1 = false) →
      ∀ e ∈ (if param.isIface then
               if containsKeyA g.bindings param.typeStr then acc
               else if containsKeyA g.providerMap param.typeStr then acc
               else insertA acc param.typeStr param.ty
             else acc), containsKeyA g.providerMap e.1 = false := by
    intro acc param h e he
    by_cases hI : param.isIface = true
    · rw [if_pos hI] at he
      by_cases hB : containsKeyA g.bindings param.typeStr = true
      · rw [if_pos hB] at he
        exact h e he
      · rw [if_neg hB] at he
        by_cases hP : containsKeyA g.providerMap param.typeStr = true
        · rw [if_pos hP] at he
          exact h e he
        · rw [if_neg hP] at he
          rcases mem_insertA _ _ _ _ he with h3 | h3
          · exact h e h3
          · rw [h3]
            cases hx : containsKeyA g.providerMap param.typeStr with
            | false => rfl
            | true => exact absurd hx hP
    · rw [if_neg hI] at he
      exact h e he
  unfold collectNeededIfaces
  have hbase : ∀ e ∈ ([] : List (Str × GoTy)), containsKeyA g.providerMap e.1 = false :=
    fun e he => absurd he (List.not_mem_nil e)
  have hstep : ∀ (acc : List (Str × GoTy)) (p : Provider),
      (∀ e ∈ acc, containsKeyA g.providerMap e.1 = false) →
      ∀ e ∈ p.params.foldl
          (fun acc param =>
            if param.isIface then
              if containsKeyA g.bindings param.typeStr then acc
              else if containsKeyA g.providerMap param.typeStr then acc
              else insertA acc param.typeStr param.ty
            else acc) acc,
        containsKeyA g.providerMap e.1 = false := by
    intro acc p hp
    exact foldl_pred
      (fun acc : List (Str × GoTy) => ∀ e ∈ acc, containsKeyA g.providerMap e.1 = false) _
      (fun acc2 param h2 => hstep0 acc2 param h2) p.params acc hp
  exact foldl_pred
    (fun acc : List (Str × GoTy) => ∀ e ∈ acc, containsKeyA g.providerMap e.1 = false) _
    hstep provs [] hbase

/-- The needs list itself has no duplicate keys. -/
theorem collectNeeded_keysNodup (g : Graph) (provs : List Provider) :
    keysNodup (collectNeededIfaces g provs) := by
  have hstep0 : ∀ (acc : List (Str × GoTy)) (param : TypeRef), keysNodup acc →
      keysNodup (if param.isIface then
               if containsKeyA g.bindings param.typeStr then acc
               else if containsKeyA g.providerMap param.typeStr then acc
               else insertA acc param.typeStr param.ty
             else acc) := by
    intro acc param h
    by_cases hI : param.isIface = true
    · rw [if_pos hI]
      by_cases hB : containsKeyA g.bindings param.typeStr = true
      · rw [if_pos hB]
        exact h
      · rw [if_neg hB]
        by_cases hP : containsKeyA g.providerMap param.typeStr = true
        · rw [if_pos hP]
          exact h
        · rw [if_neg hP]
          exact keysNodup_insertA acc param.typeStr param.ty h
    · rw [if_neg hI]
      exact h
  unfold collectNeededIfaces
  have hstep : ∀ (acc : List (Str × GoTy)) (p : Provider), keysNodup acc →
      keysNodup (p.params.foldl
          (fun acc param =>
            if param.isIface then
              if containsKeyA g.bindings param.typeStr then acc
              else if containsKeyA g.providerMap param.typeStr then acc
              else insertA acc param.typeStr param.ty
            else acc) acc) := by
    intro acc p hp
    exact foldl_pred (fun acc : List (Str × GoTy) => keysNodup acc) _
      (fun acc2 param h2 => hstep0 acc2 param h2) p.params acc hp
  exact foldl_pred (fun acc : List (Str × GoTy) => keysNodup acc) _
    hstep provs [] List.nodup_nil

end Autodi

namespace Autodi

/-- Soundness state of the auto-binding fold for a key `k`: either `k` is
still unbound, or some processed needs entry with key `k` bound it to a
concrete `c` whose registered provider has a test-passing return. -/
def GoodB (S : List (Str × GoTy)) (g : Graph) (k : Str) : Prop :=
  containsKeyA g.bindings k = false
  ∨ ∃ e ∈ S, e.1 = k ∧ ∃ ms, underlyingIface e.2 = some ms
      ∧ ∃ c p, lookupA g.bindings k = some c
          ∧ lookupA g.providerMap k = some p
          ∧ lookupA g.providerMap c = some p
          ∧ ∃ ret ∈ p.returns, autoCandTest ms ret = true

theorem GoodB_mono {S1 S2 : List (Str × GoTy)} {g : Graph} {k : Str}
    (hS : ∀ x ∈ S1, x ∈ S2) (h : GoodB S1 g k) : GoodB S2 g k := by
  rcases h with h | ⟨e, he, rest⟩
  · exact Or.inl h
  · exact Or.inr ⟨e, hS e he, rest⟩

/-- `autoBindOne` either leaves the graph unchanged or records the single
candidate of the entry's interface. -/
theorem autoBindOne_cases (g : Graph) (e : Str × GoTy) :
    autoBindOne g e = g
    ∨ ∃ ms c0, underlyingIface e.2 = some ms
        ∧ autoCandidates g.providerMap ms = [c0]
        ∧ autoBindOne g e
          = { g with bindings := insertA g.bindings e.1 c0.1
                     providerMap := insertA g.providerMap e.1 c0.2 } := by
  unfold autoBindOne
  cases hu : underlyingIface e.2 with
  | none => exact Or.inl rfl
  | some ms =>
    dsimp only
    cases hc : autoCandidates g.providerMap ms with
    | nil => exact Or.inl rfl
    | cons c rest =>
      cases rest with
      | nil => exact Or.inr ⟨ms, c, rfl, hc, rfl⟩
      | cons c2 rest2 => exact Or.inl rfl

/-- Main invariant of the auto-binding fold: over needs entries with
pairwise distinct keys, all absent from the current provider map, any key
that ends up bound was bound soundly. -/
theorem autoBind_fold_sound (k : Str) :
    ∀ (todo : List (Str × GoTy)) (S : List (Str × GoTy)) (gcur : Graph),
      keysNodup gcur.providerMap →
      (∀ e ∈ todo, containsKeyA gcur.providerMap e.1 = false) →
      keysNodup todo →
      GoodB S gcur k →
      GoodB (todo ++ S) (todo.foldl autoBindOne gcur) k := by
  intro todo
  induction todo with
  | nil =>
    intro S gcur _ _ _ hg
    simpa using hg
  | cons e todo ih =>
    intro S gcur hndPM hA hndT hg
    rw [List.foldl_cons]
    have hAhead : containsKeyA gcur.providerMap e.1 = false := hA e (List.mem_cons_self _ _)
    have hndTc : e.1 ∉ keysOf todo ∧ keysNodup todo := by
      unfold keysNodup at hndT
      rw [show keysOf (e :: todo) = e.1 :: keysOf todo from rfl, List.nodup_cons] at hndT
      exact hndT
    have hperm : ∀ x ∈ todo ++ e :: S, x ∈ (e :: todo) ++ S := by
      intro x hx
      simp only [List.mem_append, List.mem_cons] at hx ⊢
      tauto
    rcases autoBindOne_cases gcur e with heq | ⟨ms, c0, hu, hcand, heq⟩
    · rw [heq]
      exact GoodB_mono hperm
        (ih (e :: S) gcur hndPM (fun e' he' => hA e' (List.mem_cons_of_mem _ he')) hndTc.2
          (GoodB_mono (fun x hx => List.mem_cons_of_mem _ hx) hg))
    · rw [heq]
      obtain ⟨hc0pm, hc0test⟩ := autoCandidates_mem gcur.providerMap ms c0
        (by rw [hcand]; exact List.mem_singleton.mpr rfl)
      have hc0lk : lookupA gcur.providerMap c0.1 = some c0.2 :=
        lookupA_of_mem_nodup _ _ _ hndPM hc0pm
      have hc0ne : c0.1 ≠ e.1 := by
        intro h
        rw [containsKeyA_isSome, ← h, hc0lk] at hAhead
        simp at hAhead
      have hndPM2 : keysNodup (insertA gcur.providerMap e.1 c0.2) :=
        keysNodup_insertA _ _ _ hndPM
      have hA2 : ∀ e' ∈ todo,
          containsKeyA (insertA gcur.providerMap e.1 c0.2) e'.1 = false := by
        intro e' he'
        have h1 := hA e' (List.mem_cons_of_mem _ he')
        have hne : e'.1 ≠ e.1 := by
          intro h
          exact hndTc.1 (h ▸ List.mem_map.mpr ⟨e', he', rfl⟩)
        have hb : (e'.1 == e.1) = false := by
          simp only [beq_eq_false_iff_ne, ne_eq]
          exact hne
        rw [containsKeyA_insertA, h1, hb]
        rfl
      have hgood2 : GoodB (e :: S)
          { gcur with bindings := insertA gcur.bindings e.1 c0.1
                      providerMap := insertA gcur.providerMap e.1 c0.2 } k := by
        by_cases hek : e.1 = k
        · obtain ⟨ret, hret, htest⟩ := List.any_eq_true.mp hc0test
          refine Or.inr ⟨e, List.mem_cons_self _ _, hek, ms, hu, c0.1, c0.2, ?_, ?_, ?_,
            ret, hret, htest⟩
          · show lookupA (insertA gcur.bindings e.1 c0.1) k = some c0.1
            rw [lookupA_insertA, if_pos hek.symm]
          · show lookupA (insertA gcur.providerMap e.1 c0.2) k = some c0.2
            rw [lookupA_insertA, if_pos hek.symm]
          · show lookupA (insertA gcur.providerMap e.1 c0.2) c0.1 = some c0.2
            rw [lookupA_insertA, if_neg hc0ne, hc0lk]
        · rcases hg with hun | ⟨e', he', hek', ms', hu', c, p, h1, h2, h3, hrest⟩
          · refine Or.inl ?_
            show containsKeyA (insertA gcur.bindings e.1 c0.1) k = false
            have hb : (k == e.1) = false := by
              simp only [beq_eq_false_iff_ne, ne_eq]
              exact fun h => hek h.symm
            rw [containsKeyA_insertA, hun, hb]
            rfl
          · have hkne : ¬k = e.1 := fun h => hek h.symm
            have hcne : ¬c = e.1 := by
              intro h
              rw [h] at h3
              rw [containsKeyA_isSome, h3] at hAhead
              simp at hAhead
            refine Or.inr ⟨e', List.mem_cons_of_mem _ he', hek', ms', hu', c, p, ?_, ?_, ?_,
              hrest⟩
            · show lookupA (insertA gcur.bindings e.1 c0.1) k = some c
              rw [lookupA_insertA, if_neg hkne, h1]
            · show lookupA (insertA gcur.providerMap e.1 c0.2) k = some p
              rw [lookupA_insertA, if_neg hkne, h2]
            · show lookupA (insertA gcur.providerMap e.1 c0.2) c = some p
              rw [lookupA_insertA, if_neg hcne, h3]
      exact GoodB_mono hperm (ih (e :: S) _ hndPM2 hA2 hndTc.2 hgood2)

end Autodi

namespace Autodi

/-- Counterexample to C2 as stated: a config binding whose concrete type
has no provider is recorded without any check, so after a successful
`BuildGraph` the bindings pair `(m/x.I, m/x.C)` exists while `m/x.C` is
not a `provider_map` key. -/
theorem bindings_concrete_provided_cex :
    buildGraph [] cfgB [] [] = Except.ok gB2
    ∧ lookupA gB2.bindings "m/x.I".data = some "m/x.C".data
    ∧ containsKeyA gB2.providerMap "m/x.C".data = false := by decide

/-- C2 (amended): the stated invariant holds for the bindings the
auto-binding pass creates — a key newly bound by `autoDetectBindings`
(over a provider map without duplicate keys) comes from a collected needs
entry, and both the interface key and its concrete are registered to one
provider that has a return passing the pass's satisfaction test.  Config
and annotation bindings are recorded without provider-existence or
satisfaction checks. -/
theorem bindings_concrete_provided (g : Graph) (provs : List Provider) (k c : Str)
    (hnd : keysNodup g.providerMap)
    (hk : containsKeyA g.bindings k = false)
    (hc : lookupA (autoDetectBindings g provs).bindings k = some c) :
    ∃ e ∈ collectNeededIfaces g provs, e.1 = k
      ∧ ∃ ms, underlyingIface e.2 = some ms
        ∧ ∃ p, lookupA (autoDetectBindings g provs).providerMap k = some p
            ∧ lookupA (autoDetectBindings g provs).providerMap c = some p
            ∧ ∃ ret ∈ p.returns, autoCandTest ms ret = true := by
  have hgood := autoBind_fold_sound k (collectNeededIfaces g provs) [] g hnd
    (collectNeeded_pm_absent g provs) (collectNeeded_keysNodup g provs) (Or.inl hk)
  have hfold : autoDetectBindings g provs
      = (collectNeededIfaces g provs).foldl autoBindOne g := rfl
  rw [hfold] at hc
  rcases hgood with hun | ⟨e, he, hek, ms, hms, c', p, h1, h2, h3, hrest⟩
  · rw [containsKeyA_isSome, hc] at hun
    simp at hun
  · have hcc : c' = c := by
      have h4 := h1.symm.trans hc
      injection h4
    subst hcc
    exact ⟨e, by simpa using he, hek, ms, hms, p, by rw [hfold]; exact h2,
      by rw [hfold]; exact h3, hrest⟩

/-- C2 witness fixtures: one registered provider of the concrete `m/a.C`
(whose return implements method `M`), and one provider needing the
interface `m/a.I`. -/
def pC2c : Provider :=
  { funcName := "NewC".data, pkgPath := "m/c".data, pkgName := "c".data
    returns := [{ ty := GoTy.named "C".data ["M".data] ["M".data], typeStr := "m/a.C".data
                  isIface := false }] }

def pC2need : Provider :=
  { funcName := "NewApp".data, pkgPath := "m/app".data, pkgName := "app".data
    params := [{ ty := GoTy.namedIface "I".data ["M".data], typeStr := "m/a.I".data
                 isIface := true }]
    returns := [cRef "m/a.App".data] }

def gW2 : Graph := { emptyGraph with providerMap := [("m/a.C".data, pC2c)] }

/-- Witness for the amended C2 on the interface/concrete pair fixture. -/
theorem bindings_concrete_provided_witness :
    keysNodup gW2.providerMap
    ∧ containsKeyA gW2.bindings "m/a.I".data = false
    ∧ lookupA (autoDetectBindings gW2 [pC2need]).bindings "m/a.I".data = some "m/a.C".data
    ∧ ∃ e ∈ collectNeededIfaces gW2 [pC2need], e.1 = "m/a.I".data
        ∧ ∃ ms, underlyingIface e.2 = some ms
          ∧ ∃ p, lookupA (autoDetectBindings gW2 [pC2need]).providerMap "m/a.I".data = some p
              ∧ lookupA (autoDetectBindings gW2 [pC2need]).providerMap "m/a.C".data = some p
              ∧ ∃ ret ∈ p.returns, autoCandTest ms ret = true := by
  refine ⟨by unfold keysNodup; decide, by decide, by decide, ?_⟩
  exact bindings_concrete_provided gW2 [pC2need] "m/a.I".data "m/a.C".data
    (by unfold keysNodup; decide) (by decide) (by decide)

end Autodi

namespace Autodi

/-! ## C3: the auto-binding candidate test never checks the pointer type -/

/-- The candidate test as the specification words it: satisfaction by the
return value type or by the pointer to that value type. -/
def specCandTest (ms : List Str) (ret : TypeRef) : Bool :=
  implementsGo ret.ty ms || implementsGo (GoTy.ptr ret.ty) ms

/-- C3 fixtures: `NewFoo` returns the value type `m/f.Foo` whose pointer
type alone has the method `M`; `NewBar` needs the interface `m/b.I` with
method set `{M}`. -/
def fooRet : TypeRef :=
  { ty := GoTy.named "Foo".data [] ["M".data], typeStr := "m/f.Foo".data, isIface := false }

def pFoo : Provider :=
  { funcName := "NewFoo".data, pkgPath := "m/f".data, pkgName := "f".data
    returns := [fooRet] }

def pBarNeed : Provider :=
  { funcName := "NewBar".data, pkgPath := "m/b".data, pkgName := "b".data
    params := [{ ty := GoTy.namedIface "I".data ["M".data], typeStr := "m/b.I".data
                 isIface := true }]
    returns := [cRef "m/b.Bar".data] }

def gC3 : Graph := { emptyGraph with providerMap := [("m/f.Foo".data, pFoo)] }

/-- C3: divergence between the specified candidate test (value type or
pointer-to-value type) and the source's test, which writes
`Implements(ret) || (isPointer(ret) && Implements(ret))` and so repeats
the value type instead of building the pointer type.  `NewFoo` satisfies
the spec's test and is its unique candidate for the needed interface
`m/b.I`, yet the source computes zero candidates and creates no
binding. -/
theorem auto_binding_pointer_bug :
    specCandTest ["M".data] fooRet = true
    ∧ autoCandTest ["M".data] fooRet = false
    ∧ (gC3.providerMap.filter (fun e => e.2.returns.any (specCandTest ["M".data]))).length = 1
    ∧ collectNeededIfaces gC3 [pBarNeed]
        = [("m/b.I".data, GoTy.namedIface "I".data ["M".data])]
    ∧ autoCandidates gC3.providerMap ["M".data] = []
    ∧ autoDetectBindings gC3 [pBarNeed] = gC3 := by decide

end Autodi

namespace Autodi

/-! ## C7: entry-point expansion -/

/-- Chaining the emitted-order origin property through an `Except` fold. -/
theorem foldlM_order {β : Type} (g : Graph) (f : SortSt → β → Except Str SortSt)
    (hf : ∀ s b s', f s b = .ok s' →
      ∀ p ∈ s'.order, p ∈ s.order ∨ ∃ k, lookupA g.providerMap k = some p) :
    ∀ (l : List β) (s s' : SortSt), l.foldlM f s = .ok s' →
      ∀ p ∈ s'.order, p ∈ s.order ∨ ∃ k, lookupA g.providerMap k = some p := by
  intro l
  induction l with
  | nil =>
    intro s s' h
    replace h : Except.ok s = Except.ok s' := h
    injection h with h
    intro p hp
    exact Or.inl (h ▸ hp)
  | cons b l ih =>
    intro s s' h
    rw [List.foldlM_cons] at h
    cases hfb : f s b with
    | error e =>
      rw [hfb] at h
      replace h : (Except.error e : Except Str SortSt) = Except.ok s' := h
      cases h
    | ok s1 =>
      rw [hfb] at h
      replace h : l.foldlM f s1 = Except.ok s' := h
      intro p hp
      rcases ih s1 s' h p hp with h1 | h1
      · exact hf s b s1 hfb p h1
      · exact Or.inr h1

/-- Every provider the topological-sort visit appends to the order comes
from the provider map. -/
theorem visitTS_order (g : Graph) (extra : List (Str × List Str)) :
    ∀ (fuel : Nat) (t : Str) (st st' : SortSt),
      visitTS g extra fuel t st = .ok st' →
      ∀ p ∈ st'.order, p ∈ st.order ∨ ∃ k, lookupA g.providerMap k = some p := by
  intro fuel
  induction fuel with
  | zero =>
    intro t st st' h
    cases h
  | succ fuel ih =>
    intro t st st' h
    unfold visitTS at h
    dsimp only at h
    by_cases hv : st.visited.contains (resolveType g t) = true
    · rw [if_pos hv] at h
      injection h with h
      intro p hp
      exact Or.inl (h ▸ hp)
    · rw [if_neg hv] at h
      by_cases hv2 : st.visiting.contains (resolveType g t) = true
      · rw [if_pos hv2] at h
        cases h
      · rw [if_neg hv2] at h
        cases hpm : lookupA g.providerMap (resolveType g t) with
        | none =>
          rw [hpm] at h
          injection h with h
          intro p hp
          rw [← h] at hp
          exact Or.inl hp
        | some provider =>
          rw [hpm] at h
          dsimp only at h
          cases h2 : provider.params.foldlM
              (fun s param => visitTS g extra fuel (resolveType g param.typeStr) s)
              { st with visiting := resolveType g t :: st.visiting } with
          | error e =>
            rw [h2] at h
            dsimp only at h
            cases h
          | ok st2 =>
            rw [h2] at h
            dsimp only at h
            cases h3 : provider.returns.foldlM
                (fun s ret => (lookupExtra extra ret.typeStr).foldlM
                  (fun s2 e => visitTS g extra fuel e s2) s) st2 with
            | error e =>
              rw [h3] at h
              dsimp only at h
              cases h
            | ok st3 =>
              rw [h3] at h
              dsimp only at h
              injection h with h
              have h12 : ∀ p ∈ st2.order,
                  p ∈ st.order ∨ ∃ k, lookupA g.providerMap k = some p := by
                intro p hp
                have := foldlM_order g _
                  (fun s param s' hh => ih (resolveType g param.typeStr) s s' hh)
                  provider.params { st with visiting := resolveType g t :: st.visiting }
                  st2 h2 p hp
                exact this
              have h23 : ∀ p ∈ st3.order,
                  p ∈ st2.order ∨ ∃ k, lookupA g.providerMap k = some p := by
                intro p hp
                have := foldlM_order g _
                  (fun s ret s' hh => foldlM_order g _
                    (fun s2 e s2' hh2 => ih e s2 s2' hh2)
                    (lookupExtra extra ret.typeStr) s s' hh)
                  provider.returns st2 st3 h3 p hp
                exact this
              intro p hp
              rw [← h] at hp
              dsimp only at hp
              by_cases hin : isProviderInList provider st3.order = true
              · rw [if_pos hin] at hp
                dsimp only at hp
                rcases h23 p hp with h4 | h4
                · exact h12 p h4
                · exact Or.inr h4
              · rw [if_neg hin] at hp
                dsimp only at hp
                rcases List.mem_append.mp hp with h4 | h4
                · rcases h23 p h4 with h5 | h5
                  · exact h12 p h5
                  · exact Or.inr h5
                · rw [List.mem_singleton] at h4
                  rw [h4]
                  exact Or.inr ⟨resolveType g t, hpm⟩

end Autodi

namespace Autodi

/-- Every provider a topological sort emits is a provider-map value. -/
theorem topologicalSort_from_pm (g : Graph) (targets : List Str) (fuel : Nat)
    (r : List Provider) (h : topologicalSort g targets fuel = .ok r) :
    ∀ p ∈ r, ∃ k, lookupA g.providerMap k = some p := by
  unfold topologicalSort topologicalSortWithExtraEdges at h
  cases hst : targets.foldlM (fun st t => visitTS g [] fuel t st) ⟨[], [], []⟩ with
  | error e =>
    rw [hst] at h
    replace h : (Except.error e : Except Str (List Provider)) = Except.ok r := h
    cases h
  | ok st =>
    rw [hst] at h
    replace h : Except.ok st.order = Except.ok r := h
    injection h with h
    intro p hp
    rw [← h] at hp
    rcases foldlM_order g _ (fun s t s' hh => visitTS_order g [] fuel t s s' hh)
      targets ⟨[], [], []⟩ st hst p hp with h1 | h1
    · exact absurd h1 (List.not_mem_nil p)
    · exact h1

theorem retsFold_mono (rets : List TypeRef) :
    ∀ (e : List Str) (x : Str), x ∈ e → x ∈ rets.foldl (fun e r => addUniq e r.typeStr) e := by
  induction rets with
  | nil => intro e x h; exact h
  | cons r rets ih =>
    intro e x h
    rw [List.foldl_cons]
    exact ih _ x ((mem_addUniq e r.typeStr x).mpr (Or.inl h))

theorem retsFold_self (rets : List TypeRef) :
    ∀ (e : List Str) (ret : TypeRef), ret ∈ rets →
      ret.typeStr ∈ rets.foldl (fun e r => addUniq e r.typeStr) e := by
  induction rets with
  | nil => intro e ret h; exact absurd h (List.not_mem_nil ret)
  | cons r rets ih =>
    intro e ret h
    rw [List.foldl_cons]
    rcases List.mem_cons.mp h with h1 | h1
    · rw [h1]
      exact retsFold_mono rets _ _ ((mem_addUniq e r.typeStr r.typeStr).mpr (Or.inr rfl))
    · exact ih _ ret h1

theorem invokeStep_mono (g : Graph) (e : List Str) (q : Provider) (x : Str) (h : x ∈ e) :
    x ∈ invokeStep g e q := by
  unfold invokeStep
  split
  · exact h
  · split
    · exact retsFold_mono q.returns e x h
    · exact h

/-- A satisfied invoke provider's step adds its return types. -/
theorem invokeStep_fires (g : Graph) (e : List Str) (p : Provider) (hinv : p.isInvoke = true)
    (hall : p.params.all (fun param => e.contains (resolveType g param.typeStr)) = true) :
    invokeStep g e p = p.returns.foldl (fun er ret => addUniq er ret.typeStr) e := by
  unfold invokeStep
  rw [hinv, hall]
  simp

theorem invokeFold_mono (g : Graph) :
    ∀ (L : List Provider) (e : List Str) (x : Str), x ∈ e → x ∈ L.foldl (invokeStep g) e := by
  intro L
  induction L with
  | nil => intro e x h; exact h
  | cons q L ih =>
    intro e x h
    rw [List.foldl_cons]
    exact ih _ x (invokeStep_mono g e q x h)

/-- C7 counterexample fixtures: a singleton provider of `m/a.A` and two
invoke-only providers; `RunV1` (listed last) consumes `m/a.A` and yields
`m/a.R1`, `RunV2` (listed first) consumes `m/a.R1` and yields `m/a.R2`. -/
def pA7 : Provider :=
  { funcName := "NewA".data, pkgPath := "m/a1".data, pkgName := "a1".data
    returns := [cRef "m/a.A".data] }

def pV2 : Provider :=
  { funcName := "RunV2".data, pkgPath := "m/v".data, pkgName := "v".data
    params := [cRef "m/a.R1".data], returns := [cRef "m/a.R2".data], isInvoke := true }

def pV1 : Provider :=
  { funcName := "RunV1".data, pkgPath := "m/v".data, pkgName := "v".data
    params := [cRef "m/a.A".data], returns := [cRef "m/a.R1".data], isInvoke := true }

def gc7 : Graph :=
  { emptyGraph with providers := [pA7, pV2, pV1]
                    providerMap := [("m/a.A".data, pA7)] }

/-- Counterexample to C7 as stated: the satisfied invoke-only provider
`RunV1` is absent from this graph's provider map (singleton registration
skips invokes and nothing here inserted it) and hence not part of the
returned sequence, and promotion is a single pass in provider-list order,
not a fixed point: `RunV2` would qualify against the pass's own output but
is not promoted. -/
theorem entry_expansion_cex :
    providersForTypes gc7 ["m/a.A".data] 20 = some (Except.ok [pA7])
    ∧ pV1 ∈ gc7.providers ∧ pV1.isInvoke = true
    ∧ (∀ param ∈ pV1.params, resolveType gc7 param.typeStr ∈ ["m/a.A".data])
    ∧ (∀ e ∈ gc7.providerMap, e.2 ≠ pV1)
    ∧ pV1 ∉ [pA7]
    ∧ "m/a.R1".data ∈ invokePass gc7 ["m/a.A".data]
    ∧ "m/a.R2".data ∉ invokePass gc7 ["m/a.A".data]
    ∧ "m/a.R2".data ∈ invokePass gc7 (invokePass gc7 ["m/a.A".data]) := by decide

/-- C7 (amended): entry-point expansion emits, in dependency order, only
provider-map values, so a satisfied invoke-only provider that is absent
from the provider map is not part of the returned sequence (promotion
adds only its return types to the target set); the promotion pass is
sound in one direction — an invoke provider all of whose parameters
resolve into the expanded set has its return types added — but it is a
single pass over the provider list, not a fixed point. -/
theorem entry_expansion_providers :
    (∀ (g : Graph) (ts : List Str) (fuel : Nat) (r : List Provider),
        providersForTypes g ts fuel = some (.ok r) →
        ∀ p ∈ r, ∃ k, lookupA g.providerMap k = some p)
    ∧ (∀ (g : Graph) (fns : List Str) (fuel : Nat) (r : List Provider),
        entryProviders g fns fuel = some (.ok r) →
        ∀ p ∈ r, ∃ k, lookupA g.providerMap k = some p)
    ∧ (∀ (g : Graph) (expanded : List Str) (p : Provider), p ∈ g.providers →
        p.isInvoke = true →
        (∀ param ∈ p.params, resolveType g param.typeStr ∈ expanded) →
        ∀ ret ∈ p.returns, ret.typeStr ∈ invokePass g expanded) := by
  refine ⟨?_, ?_, ?_⟩
  · intro g ts fuel r h
    unfold providersForTypes at h
    cases hm : ts.foldlM (fun e t => expandTypes g fuel t e) [] with
    | none =>
      rw [hm] at h
      cases h
    | some expanded =>
      rw [hm] at h
      dsimp only at h
      injection h with h
      exact topologicalSort_from_pm g _ fuel r h
  · intro g fns fuel r h
    unfold entryProviders at h
    cases hm : (entryNeededTypes g fns).foldlM (fun e t => expandTypes g fuel t e) [] with
    | none =>
      rw [hm] at h
      cases h
    | some expanded =>
      rw [hm] at h
      dsimp only at h
      injection h with h
      exact topologicalSort_from_pm g _ fuel r h
  · intro g expanded p hp hinv hsat ret hret
    obtain ⟨L1, L2, hL⟩ := List.append_of_mem hp
    unfold invokePass
    rw [hL, List.foldl_append, List.foldl_cons]
    have hsat2 : p.params.all
        (fun param => (L1.foldl (invokeStep g) expanded).contains (resolveType g param.typeStr))
        = true := by
      rw [List.all_eq_true]
      intro param hparam
      have h2 := invokeFold_mono g L1 expanded _ (hsat param hparam)
      simpa using h2
    rw [invokeStep_fires g _ p hinv hsat2]
    exact invokeFold_mono g L2 _ _ (retsFold_self p.returns _ ret hret)

/-- Witness for the amended C7 on the invoke fixtures. -/
theorem entry_expansion_providers_witness :
    (providersForTypes gc7 ["m/a.A".data] 20 = some (Except.ok [pA7])
      ∧ ∀ p ∈ [pA7], ∃ k, lookupA gc7.providerMap k = some p)
    ∧ (pV1 ∈ gc7.providers ∧ pV1.isInvoke = true
      ∧ (∀ param ∈ pV1.params, resolveType gc7 param.typeStr ∈ ["m/a.A".data])
      ∧ ∀ ret ∈ pV1.returns, ret.typeStr ∈ invokePass gc7 ["m/a.A".data]) := by
  constructor
  · refine ⟨by decide, ?_⟩
    exact entry_expansion_providers.1 gc7 ["m/a.A".data] 20 [pA7] (by decide)
  · refine ⟨by decide, by decide, by decide, ?_⟩
    exact entry_expansion_providers.2.2 gc7 ["m/a.A".data] pV1 (by decide) (by decide)
      (by decide)

end Autodi

namespace Autodi

/-! ## C4: ordering guarantees of the topological sort -/

/-- No chained bindings: a binding's concrete type is never itself a
bindings key, so `resolveType` is idempotent. -/
def bindingsIdem (g : Graph) : Bool :=
  g.bindings.all (fun e => !(containsKeyA g.bindings e.2))

/-- Every provider-map value owns the map entries of its return type
strings (up to the sort's provider identity).  Phase-2 registration
produces this shape; `bind` annotations can break it. -/
def returnConsistent (g : Graph) : Bool :=
  g.providerMap.all (fun e =>
    e.2.returns.all (fun ret =>
      match lookupA g.providerMap ret.typeStr with
      | some q => provEq q e.2
      | none => true))

theorem resolveType_idem (g : Graph) (hbi : bindingsIdem g = true) (t : Str) :
    resolveType g (resolveType g t) = resolveType g t := by
  unfold resolveType
  cases hl : lookupA g.bindings t with
  | none => simp [hl]
  | some v =>
    simp only [hl, Option.getD_some]
    have hmem := lookupA_entry_mem g.bindings t v hl
    have hv := List.all_eq_true.mp hbi (t, v) hmem
    simp only [Bool.not_eq_true'] at hv
    rw [containsKeyA_isSome] at hv
    cases hl2 : lookupA g.bindings v with
    | none => simp
    | some w =>
      rw [hl2] at hv
      simp at hv

theorem returnConsistent_at (g : Graph) (hrc : returnConsistent g = true) (r : Str)
    (provider : Provider) (hpm : lookupA g.providerMap r = some provider)
    (ret : TypeRef) (hret : ret ∈ provider.returns) (q : Provider)
    (hq : lookupA g.providerMap ret.typeStr = some q) : provEq q provider = true := by
  have hmem := lookupA_entry_mem g.providerMap r provider hpm
  have h1 := List.all_eq_true.mp (List.all_eq_true.mp hrc (r, provider) hmem) ret hret
  rw [hq] at h1
  exact h1

theorem provEq_iff (a b : Provider) :
    provEq a b = true ↔ a.pkgPath = b.pkgPath ∧ a.funcName = b.funcName := by
  simp [provEq, Bool.and_eq_true, beq_iff_eq]

theorem provEq_symm {a b : Provider} (h : provEq a b = true) : provEq b a = true := by
  rw [provEq_iff] at h ⊢
  exact ⟨h.1.symm, h.2.symm⟩

theorem provEq_trans {a b c : Provider} (h1 : provEq a b = true) (h2 : provEq b c = true) :
    provEq a c = true := by
  rw [provEq_iff] at h1 h2 ⊢
  exact ⟨h1.1.trans h2.1, h1.2.trans h2.2⟩

theorem isProviderInList_iff (p : Provider) (l : List Provider) :
    isProviderInList p l = true ↔ ∃ x ∈ l, provEq x p = true := by
  simp [isProviderInList, provEq, List.any_eq_true]

theorem isProviderInList_append_left (p : Provider) (l l2 : List Provider)
    (h : isProviderInList p l = true) : isProviderInList p (l ++ l2) = true := by
  rw [isProviderInList_iff] at h ⊢
  obtain ⟨x, hx, he⟩ := h
  exact ⟨x, List.mem_append_left _ hx, he⟩

theorem isProviderInList_of_provEq (q provider : Provider) (l : List Provider)
    (hqp : provEq q provider = true) (hmem : provider ∈ l) :
    isProviderInList q l = true := by
  rw [isProviderInList_iff]
  exact ⟨provider, hmem, provEq_symm hqp⟩

theorem isProviderInList_false (p : Provider) (l : List Provider)
    (h : isProviderInList p l = false) : ∀ x ∈ l, provEq x p = false := by
  intro x hx
  cases he : provEq x p with
  | false => rfl
  | true =>
    rw [← h]
    symm
    rw [isProviderInList_iff]
    exact ⟨x, hx, he⟩

end Autodi

namespace Autodi

theorem provEq_refl (a : Provider) : provEq a a = true := by
  rw [provEq_iff]
  exact ⟨rfl, rfl⟩

theorem isProviderInList_of_provEq2 (q provider : Provider) (l : List Provider)
    (hqp : provEq q provider = true) (hin : isProviderInList provider l = true) :
    isProviderInList q l = true := by
  rw [isProviderInList_iff] at hin ⊢
  obtain ⟨x, hx, he⟩ := hin
  exact ⟨x, hx, provEq_trans he (provEq_symm hqp)⟩

theorem take_append_le {α : Type} :
    ∀ (l1 : List α) (l2 : List α) (j : Nat), j ≤ l1.length →
      (l1 ++ l2).take j = l1.take j := by
  intro l1
  induction l1 with
  | nil =>
    intro l2 j hj
    have : j = 0 := Nat.le_zero.mp hj
    rw [this]
    rfl
  | cons x l1 ih =>
    intro l2 j hj
    cases j with
    | zero => rfl
    | succ j =>
      show x :: (l1 ++ l2).take j = x :: l1.take j
      rw [ih l2 j (Nat.le_of_succ_le_succ hj)]

theorem get_append_last {α : Type} :
    ∀ (l : List α) (a : α) (h : l.length < (l ++ [a]).length),
      (l ++ [a]).get ⟨l.length, h⟩ = a := by
  intro l
  induction l with
  | nil => intro a h; rfl
  | cons x l ih => intro a h; exact ih a (by simpa using Nat.lt_of_succ_lt_succ h)

theorem get_append_left2 {α : Type} :
    ∀ (l1 l2 : List α) (j : Nat) (hj : j < l1.length) (hj2 : j < (l1 ++ l2).length),
      (l1 ++ l2).get ⟨j, hj2⟩ = l1.get ⟨j, hj⟩ := by
  intro l1
  induction l1 with
  | nil => intro l2 j hj hj2; exact absurd hj (Nat.not_lt_zero j)
  | cons x l1 ih =>
    intro l2 j hj hj2
    cases j with
    | zero => rfl
    | succ j => exact ih l2 j (Nat.lt_of_succ_lt_succ hj) _

/-- Dependency-ordering property of an emitted sequence: each provider's
binding-resolved parameter types, and its extra-edge dependencies, have
their provider (when one exists) strictly earlier. -/
def DepOk (g : Graph) (extra : List (Str × List Str)) (order : List Provider) : Prop :=
  ∀ (j : Nat) (hj : j < order.length),
    (∀ param ∈ (order.get ⟨j, hj⟩).params, ∀ q,
        lookupA g.providerMap (resolveType g param.typeStr) = some q →
        isProviderInList q (order.take j) = true)
    ∧ (∀ ret ∈ (order.get ⟨j, hj⟩).returns, ∀ x ∈ lookupExtra extra ret.typeStr, ∀ q,
        lookupA g.providerMap (resolveType g x) = some q →
        isProviderInList q (order.take j) = true)

/-- Invariant of the topological-sort state: the emitted order is
duplicate-free, every finished type's provider is already emitted, and the
order built so far is dependency-correct. -/
def SortInv (g : Graph) (extra : List (Str × List Str)) (st : SortSt) : Prop :=
  List.Pairwise (fun a b => provEq a b = false) st.order
  ∧ (∀ t ∈ st.visited, ∀ q, lookupA g.providerMap t = some q →
      isProviderInList q st.order = true)
  ∧ DepOk g extra st.order

/-- Finishing a type whose provider is already emitted keeps the
invariant. -/
theorem sortInv_mark (g : Graph) (extra : List (Str × List Str)) (st3 : SortSt)
    (provider : Provider) (r : Str)
    (hInv : SortInv g extra st3)
    (hrc : returnConsistent g = true)
    (hpm : lookupA g.providerMap r = some provider)
    (hin : isProviderInList provider st3.order = true) :
    SortInv g extra ⟨(provider.returns.map (·.typeStr)).reverse ++ r :: st3.visited,
      st3.visiting.erase r, st3.order⟩ := by
  obtain ⟨hO, hV, hD⟩ := hInv
  refine ⟨hO, ?_, hD⟩
  intro t ht q hq
  rcases List.mem_append.mp ht with h1 | h1
  · rw [List.mem_reverse] at h1
    obtain ⟨ret, hret, hte⟩ := List.mem_map.mp h1
    rw [← hte] at hq
    exact isProviderInList_of_provEq2 q provider st3.order
      (returnConsistent_at g hrc r provider hpm ret hret q hq) hin
  · rcases List.mem_cons.mp h1 with h2 | h2
    · rw [h2, hpm] at hq
      injection hq with hq
      rw [← hq]
      exact hin
    · exact hV t h2 q hq

/-- Emitting a new provider after its dependencies keeps the invariant. -/
theorem sortInv_append (g : Graph) (extra : List (Str × List Str)) (st3 : SortSt)
    (provider : Provider) (r : Str)
    (hInv : SortInv g extra st3)
    (hrc : returnConsistent g = true)
    (hpm : lookupA g.providerMap r = some provider)
    (hin : isProviderInList provider st3.order = false)
    (hparams : ∀ param ∈ provider.params, ∀ q,
        lookupA g.providerMap (resolveType g param.typeStr) = some q →
        isProviderInList q st3.order = true)
    (hextra : ∀ ret ∈ provider.returns, ∀ x ∈ lookupExtra extra ret.typeStr, ∀ q,
        lookupA g.providerMap (resolveType g x) = some q →
        isProviderInList q st3.order = true) :
    SortInv g extra ⟨(provider.returns.map (·.typeStr)).reverse ++ r :: st3.visited,
      st3.visiting.erase r, st3.order ++ [provider]⟩ := by
  obtain ⟨hO, hV, hD⟩ := hInv
  have hmemP : provider ∈ st3.order ++ [provider] :=
    List.mem_append_right _ (List.mem_singleton.mpr rfl)
  refine ⟨?_, ?_, ?_⟩
  · rw [List.pairwise_append]
    refine ⟨hO, List.pairwise_singleton _ _, ?_⟩
    intro a ha b hb
    rw [List.mem_singleton] at hb
    rw [hb]
    exact isProviderInList_false provider st3.order hin a ha
  · intro t ht q hq
    rcases List.mem_append.mp ht with h1 | h1
    · rw [List.mem_reverse] at h1
      obtain ⟨ret, hret, hte⟩ := List.mem_map.mp h1
      rw [← hte] at hq
      rw [isProviderInList_iff]
      exact ⟨provider, hmemP,
        provEq_symm (returnConsistent_at g hrc r provider hpm ret hret q hq)⟩
    · rcases List.mem_cons.mp h1 with h2 | h2
      · rw [h2, hpm] at hq
        injection hq with hq
        rw [← hq]
        rw [isProviderInList_iff]
        exact ⟨provider, hmemP, provEq_refl provider⟩
      · exact isProviderInList_append_left q st3.order [provider] (hV t h2 q hq)
  · intro j hj
    simp only [List.length_append, List.length_singleton] at hj
    by_cases hjlt : j < st3.order.length
    · have hget : (st3.order ++ [provider]).get ⟨j, by simpa using hj⟩
          = st3.order.get ⟨j, hjlt⟩ := get_append_left2 st3.order [provider] j hjlt _
      have htake : (st3.order ++ [provider]).take j = st3.order.take j :=
        take_append_le st3.order [provider] j (Nat.le_of_lt hjlt)
      obtain ⟨hd1, hd2⟩ := hD j hjlt
      constructor
      · intro param hparam q hq
        rw [htake]
        rw [hget] at hparam
        exact hd1 param hparam q hq
      · intro ret hret x hx q hq
        rw [htake]
        rw [hget] at hret
        exact hd2 ret hret x hx q hq
    · have hjeq : j = st3.order.length := by omega
      subst hjeq
      have hget : (st3.order ++ [provider]).get ⟨st3.order.length, by simpa using hj⟩
          = provider := get_append_last st3.order provider _
      have htake : (st3.order ++ [provider]).take st3.order.length = st3.order :=
        (take_append_le st3.order [provider] st3.order.length (Nat.le_refl _)).trans
          (List.take_length st3.order)
      constructor
      · intro param hparam q hq
        rw [htake]
        rw [hget] at hparam
        exact hparams param hparam q hq
      · intro ret hret x hx q hq
        rw [htake]
        rw [hget] at hret
        exact hextra ret hret x hx q hq

end Autodi

namespace Autodi

/-- Chaining the sort invariant, order extension, visited growth, and a
visited-monotone per-element guarantee through an `Except` fold. -/
theorem foldlM_visit_chain {β : Type} (g : Graph) (extra : List (Str × List Str))
    (f : SortSt → β → Except Str SortSt) (W : β → SortSt → Prop)
    (hW : ∀ b s s', (∀ x ∈ s.visited, x ∈ s'.visited) → W b s → W b s')
    (hf : ∀ s b s', f s b = .ok s' → SortInv g extra s →
      SortInv g extra s' ∧ (∃ ext, s'.order = s.order ++ ext)
      ∧ (∀ x ∈ s.visited, x ∈ s'.visited) ∧ W b s') :
    ∀ (l : List β) (s s' : SortSt), l.foldlM f s = .ok s' → SortInv g extra s →
      SortInv g extra s' ∧ (∃ ext, s'.order = s.order ++ ext)
      ∧ (∀ x ∈ s.visited, x ∈ s'.visited) ∧ ∀ b ∈ l, W b s' := by
  intro l
  induction l with
  | nil =>
    intro s s' h hInv
    replace h : Except.ok s = Except.ok s' := h
    injection h with h
    subst h
    exact ⟨hInv, ⟨[], (List.append_nil _).symm⟩, fun x hx => hx,
      fun b hb => absurd hb (List.not_mem_nil b)⟩
  | cons b l ih =>
    intro s s' h hInv
    rw [List.foldlM_cons] at h
    cases hfb : f s b with
    | error e =>
      rw [hfb] at h
      replace h : (Except.error e : Except Str SortSt) = Except.ok s' := h
      cases h
    | ok s1 =>
      rw [hfb] at h
      replace h : l.foldlM f s1 = Except.ok s' := h
      obtain ⟨hInvStep, ⟨e1, he1⟩, hm1, hw1⟩ := hf s b s1 hfb hInv
      obtain ⟨hInv2, ⟨e2, he2⟩, hm2, hw2⟩ := ih s1 s' h hInvStep
      refine ⟨hInv2, ⟨e1 ++ e2, by rw [he2, he1, List.append_assoc]⟩,
        fun x hx => hm2 x (hm1 x hx), ?_⟩
      intro b' hb'
      rcases List.mem_cons.mp hb' with h2 | h2
      · rw [h2]
        exact hW b s1 s' hm2 hw1
      · exact hw2 b' h2

/-- The recursive visit preserves the sort invariant, only appends to the
order, only grows the visited set, and finishes its resolved target. -/
theorem visitTS_inv (g : Graph) (extra : List (Str × List Str))
    (hbi : bindingsIdem g = true) (hrc : returnConsistent g = true) :
    ∀ (fuel : Nat) (t : Str) (st st' : SortSt),
      visitTS g extra fuel t st = .ok st' →
      SortInv g extra st →
      SortInv g extra st'
      ∧ (∃ ext, st'.order = st.order ++ ext)
      ∧ (∀ x ∈ st.visited, x ∈ st'.visited)
      ∧ resolveType g t ∈ st'.visited := by
  intro fuel
  induction fuel with
  | zero =>
    intro t st st' h
    cases h
  | succ fuel ih =>
    intro t st st' h hInv
    unfold visitTS at h
    dsimp only at h
    by_cases hv : st.visited.contains (resolveType g t) = true
    · rw [if_pos hv] at h
      injection h with h
      subst h
      exact ⟨hInv, ⟨[], (List.append_nil _).symm⟩, fun x hx => hx, by simpa using hv⟩
    · rw [if_neg hv] at h
      by_cases hv2 : st.visiting.contains (resolveType g t) = true
      · rw [if_pos hv2] at h
        cases h
      · rw [if_neg hv2] at h
        cases hpm : lookupA g.providerMap (resolveType g t) with
        | none =>
          rw [hpm] at h
          injection h with h
          subst h
          refine ⟨⟨hInv.1, ?_, hInv.2.2⟩, ⟨[], (List.append_nil _).symm⟩,
            fun x hx => List.mem_cons_of_mem _ hx, List.mem_cons_self _ _⟩
          intro u hu q hq
          rcases List.mem_cons.mp hu with h2 | h2
          · rw [h2, hpm] at hq
            cases hq
          · exact hInv.2.1 u h2 q hq
        | some provider =>
          rw [hpm] at h
          dsimp only at h
          have hInv1 : SortInv g extra { st with visiting := resolveType g t :: st.visiting } :=
            hInv
          cases h2 : provider.params.foldlM
              (fun s param => visitTS g extra fuel (resolveType g param.typeStr) s)
              { st with visiting := resolveType g t :: st.visiting } with
          | error e =>
            rw [h2] at h
            dsimp only at h
            cases h
          | ok st2 =>
            rw [h2] at h
            dsimp only at h
            cases h3 : provider.returns.foldlM
                (fun s ret => (lookupExtra extra ret.typeStr).foldlM
                  (fun s2 e => visitTS g extra fuel e s2) s) st2 with
            | error e =>
              rw [h3] at h
              dsimp only at h
              cases h
            | ok st3 =>
              rw [h3] at h
              dsimp only at h
              injection h with h
              subst h
              obtain ⟨hInv2, ⟨e1, he1⟩, hm1, hwP⟩ := foldlM_visit_chain g extra
                (fun s param => visitTS g extra fuel (resolveType g param.typeStr) s)
                (fun param s => resolveType g param.typeStr ∈ s.visited)
                (fun b s s' hm hw => hm (resolveType g b.typeStr) hw)
                (fun s b s' hstep hInvs => by
                  obtain ⟨ha1, ha2, ha3, ha4⟩ := ih (resolveType g b.typeStr) s s' hstep hInvs
                  rw [resolveType_idem g hbi] at ha4
                  exact ⟨ha1, ha2, ha3, ha4⟩)
                provider.params { st with visiting := resolveType g t :: st.visiting } st2
                h2 hInv1
              obtain ⟨hInv3, ⟨e2, he2⟩, hm2, hwR⟩ := foldlM_visit_chain g extra
                (fun s ret => (lookupExtra extra ret.typeStr).foldlM
                  (fun s2 e => visitTS g extra fuel e s2) s)
                (fun ret s => ∀ x ∈ lookupExtra extra ret.typeStr, resolveType g x ∈ s.visited)
                (fun b s s' hm hw => by
                  intro x hx
                  exact hm (resolveType g x) (hw x hx))
                (fun s b s' hstep hInvs => by
                  obtain ⟨hb1, hb2, hb3, hb4⟩ := foldlM_visit_chain g extra
                    (fun s2 e => visitTS g extra fuel e s2)
                    (fun e s => resolveType g e ∈ s.visited)
                    (fun b2 s2 s2' hm hw => hm (resolveType g b2) hw)
                    (fun s2 b2 s2' hstep2 hInvs2 => ih b2 s2 s2' hstep2 hInvs2)
                    (lookupExtra extra b.typeStr) s s' hstep hInvs
                  exact ⟨hb1, hb2, hb3, fun x hx => hb4 x hx⟩)
                provider.returns st2 st3 h3 hInv2
              have horder : st3.order = st.order ++ (e1 ++ e2) := by
                rw [he2, he1, List.append_assoc]
              have hparams : ∀ param ∈ provider.params, ∀ q,
                  lookupA g.providerMap (resolveType g param.typeStr) = some q →
                  isProviderInList q st3.order = true := by
                intro param hparam q hq
                exact hInv3.2.1 _ (hm2 _ (hwP param hparam)) q hq
              have hextra2 : ∀ ret ∈ provider.returns, ∀ x ∈ lookupExtra extra ret.typeStr,
                  ∀ q, lookupA g.providerMap (resolveType g x) = some q →
                  isProviderInList q st3.order = true := by
                intro ret hret x hx q hq
                exact hInv3.2.1 _ (hwR ret hret x hx) q hq
              by_cases hin : isProviderInList provider st3.order = true
              · simp only [if_pos hin]
                refine ⟨sortInv_mark g extra st3 provider (resolveType g t) hInv3 hrc hpm hin,
                  ⟨e1 ++ e2, ?_⟩, ?_, ?_⟩
                · exact horder
                · intro x hx
                  exact List.mem_append_right _
                    (List.mem_cons_of_mem _ (hm2 x (hm1 x hx)))
                · exact List.mem_append_right _ (List.mem_cons_self _ _)
              · simp only [if_neg hin]
                refine ⟨sortInv_append g extra st3 provider (resolveType g t) hInv3 hrc hpm
                    (Bool.eq_false_iff.mpr hin) hparams hextra2,
                  ⟨e1 ++ e2 ++ [provider], ?_⟩, ?_, ?_⟩
                · show st3.order ++ [provider] = st.order ++ (e1 ++ e2 ++ [provider])
                  rw [horder, List.append_assoc]
                · intro x hx
                  exact List.mem_append_right _
                    (List.mem_cons_of_mem _ (hm2 x (hm1 x hx)))
                · exact List.mem_append_right _ (List.mem_cons_self _ _)

end Autodi

namespace Autodi

/-- C4 counterexample fixtures: the config binds `m/a.K -> m/a.I`, the
invoke provider `RunV` binds `m/a.I -> m/a.C` by annotation (a chained
binding), `NewC4` provides `m/a.C` and `NewD4` consumes it. -/
def pV4 : Provider :=
  { funcName := "RunV".data, pkgPath := "m/v4".data, pkgName := "v4".data
    returns := [cRef "m/a.C".data], isInvoke := true
    annots := [⟨annotBind, "m/a.I".data⟩] }

def pR4 : Provider :=
  { funcName := "NewC4".data, pkgPath := "m/r4".data, pkgName := "r4".data
    returns := [cRef "m/a.C".data] }

def pQ4 : Provider :=
  { funcName := "NewD4".data, pkgPath := "m/q4".data, pkgName := "q4".data
    params := [cRef "m/a.C".data], returns := [cRef "m/a.D".data] }

def cfg4 : Config := ⟨"m".data, [("m/a.I".data, ["m/a.K".data])], []⟩

def gc4 : Graph := ((buildGraph [pV4, pR4, pQ4] cfg4 [] []).toOption).getD emptyGraph

/-- Counterexample to C4 as stated: after a successful build with chained
bindings, the sort emits `NewD4` although the provider `NewC4` of its
binding-resolved parameter type `m/a.C` is nowhere earlier in the
sequence — emitting `RunV` marked its return string `m/a.C` visited, so
the dependency was skipped. -/
theorem topological_sort_order_cex :
    buildGraph [pV4, pR4, pQ4] cfg4 [] [] = Except.ok gc4
    ∧ topologicalSort gc4 ["m/a.K".data, "m/a.D".data] 20 = Except.ok [pV4, pQ4]
    ∧ cRef "m/a.C".data ∈ pQ4.params
    ∧ [pV4, pQ4].get ⟨1, by decide⟩ = pQ4
    ∧ lookupA gc4.providerMap (resolveType gc4 (cRef "m/a.C".data).typeStr) = some pR4
    ∧ isProviderInList pR4 ([pV4, pQ4].take 1) = false
    ∧ bindingsIdem gc4 = false := by decide

/-- C4 (amended): when bindings are not chained (no binding's concrete is
itself a bindings key) and every provider-map value owns the entries of
its return type strings (both hold in annotation-free builds, but `bind`
annotations can break them), every sequence the topological sort emits —
with or without extra edges — is duplicate-free under the
package-path/function-name identity and places the provider of every
binding-resolved parameter type, and of every synthetic extra-edge
dependency keyed by a return type, strictly earlier in the sequence. -/
theorem topological_sort_order (g : Graph) (targets : List Str)
    (extra : List (Str × List Str)) (fuel : Nat) (r : List Provider)
    (hbi : bindingsIdem g = true) (hrc : returnConsistent g = true)
    (hok : topologicalSortWithExtraEdges g targets extra fuel = .ok r) :
    List.Pairwise (fun a b => provEq a b = false) r ∧ DepOk g extra r := by
  unfold topologicalSortWithExtraEdges at hok
  cases hst : targets.foldlM (fun st t => visitTS g extra fuel t st) ⟨[], [], []⟩ with
  | error e =>
    rw [hst] at hok
    replace hok : (Except.error e : Except Str (List Provider)) = Except.ok r := hok
    cases hok
  | ok st =>
    rw [hst] at hok
    replace hok : Except.ok st.order = Except.ok r := hok
    injection hok with hok
    have hInit : SortInv g extra ⟨[], [], []⟩ := by
      refine ⟨List.Pairwise.nil, ?_, ?_⟩
      · intro t ht
        exact absurd ht (List.not_mem_nil t)
      · intro j hj
        exact absurd hj (Nat.not_lt_zero j)
    obtain ⟨hInvF, _, _, _⟩ := foldlM_visit_chain g extra
      (fun st t => visitTS g extra fuel t st)
      (fun t s => resolveType g t ∈ s.visited)
      (fun b s s' hm hw => hm (resolveType g b) hw)
      (fun s b s' hstep hInvs => visitTS_inv g extra hbi hrc fuel b s s' hstep hInvs)
      targets ⟨[], [], []⟩ st hst hInit
    rw [← hok]
    exact ⟨hInvF.1, hInvF.2.2⟩

/-- C4 witness fixtures: a two-provider chain `NewY(X)` over `NewX()`. -/
def pQa : Provider :=
  { funcName := "NewX".data, pkgPath := "m/x1".data, pkgName := "x1".data
    returns := [cRef "m/a.X".data] }

def pQb : Provider :=
  { funcName := "NewY".data, pkgPath := "m/y1".data, pkgName := "y1".data
    params := [cRef "m/a.X".data], returns := [cRef "m/a.Y".data] }

def gW4 : Graph :=
  { emptyGraph with providers := [pQa, pQb]
                    providerMap := [("m/a.X".data, pQa), ("m/a.Y".data, pQb)] }

/-- Witness for the amended C4 on the chain fixture. -/
theorem topological_sort_order_witness :
    bindingsIdem gW4 = true ∧ returnConsistent gW4 = true
    ∧ topologicalSortWithExtraEdges gW4 ["m/a.Y".data] [] 20 = Except.ok [pQa, pQb]
    ∧ (List.Pairwise (fun a b => provEq a b = false) [pQa, pQb]
        ∧ DepOk gW4 [] [pQa, pQb]) := by
  refine ⟨by decide, by decide, by decide, ?_⟩
  exact topological_sort_order gW4 ["m/a.Y".data] [] 20 [pQa, pQb] (by decide) (by decide)
    (by decide)

end Autodi
